import Mathlib

/-!
# Splash: camera calibration and calibration-point store

A shallow embedding of the calibration code of `src/src/camera.cpp`
(`Camera::doCalibration`, `Camera::cameraCalibration_f`, the calibration-point
operations and the `calibrationPoints` attribute), of its projection and view
matrices, of `Camera::computeBlendingMap` from the read-back on (decoding, hole
filling, merge), of `Object::addCalibrationPoint` and
`Object::removeCalibrationPoint` (`src/src/object.cpp`) and of `Value`
(`src/include/coretypes.h`).

Conventions of the embedding:

* `float` and `double` values are exact rationals (`ℚ`); conversions between the
  two widths are the identity, and `x / 0 = 0` as everywhere in Mathlib.
* The C math library (`tan`, `cos`, `sin`, `sqrt`) is a parameter `Libm`.
* The GSL simplex minimiser and `rand()` are parameters (`Gsl`, a stream of draws).
* The glm functions the code calls (`lookAt`, `frustum`, `project`, `yawPitchRoll`,
  `normalize`, `length`, matrix times vector) are written out as glm defines them,
  column major.
* An out-of-bounds container access (undefined behaviour in C++) is `none`.
* `unsigned short` arithmetic is modulo 2^16 and the `int` product of the hole filling is
  wrapped to 32 bits; index arithmetic is exact (a map has fewer than 2^32 texels).
-/

namespace Splash

/-! ## Vectors and matrices (glm) -/

/-- A `glm::dvec2`. -/
structure Vec2 where
  x : ℚ
  y : ℚ
deriving DecidableEq, Repr

/-- A `glm::dvec3`. -/
structure Vec3 where
  x : ℚ
  y : ℚ
  z : ℚ
deriving DecidableEq, Repr

/-- A `glm::dvec4`. -/
structure Vec4 where
  x : ℚ
  y : ℚ
  z : ℚ
  w : ℚ
deriving DecidableEq, Repr

/-- A `glm::dmat4`, stored by columns: `c0` is `m[0]`. -/
structure Mat4 where
  c0 : Vec4
  c1 : Vec4
  c2 : Vec4
  c3 : Vec4
deriving DecidableEq, Repr

/-- Sum of two `dvec3`. -/
def Vec3.add (a b : Vec3) : Vec3 := ⟨a.x + b.x, a.y + b.y, a.z + b.z⟩

/-- Difference of two `dvec3`. -/
def Vec3.sub (a b : Vec3) : Vec3 := ⟨a.x - b.x, a.y - b.y, a.z - b.z⟩

/-- Product of a `dvec3` by a scalar. -/
def Vec3.smul (a : Vec3) (k : ℚ) : Vec3 := ⟨a.x * k, a.y * k, a.z * k⟩

/-- The function `glm::dot` on `dvec3`. -/
def Vec3.dot (a b : Vec3) : ℚ := a.x * b.x + a.y * b.y + a.z * b.z

/-- The function `glm::cross`. -/
def Vec3.cross (a b : Vec3) : Vec3 :=
  ⟨a.y * b.z - b.y * a.z, a.z * b.x - b.z * a.x, a.x * b.y - b.x * a.y⟩

/-- Sum of two `dvec4`. -/
def Vec4.add (a b : Vec4) : Vec4 := ⟨a.x + b.x, a.y + b.y, a.z + b.z, a.w + b.w⟩

/-- Product of a `dvec4` by a scalar. -/
def Vec4.smul (a : Vec4) (k : ℚ) : Vec4 := ⟨a.x * k, a.y * k, a.z * k, a.w * k⟩

/-- The product `m * v` of glm: the combination of the columns of `m` by the components of `v`. -/
def Mat4.mulVec (m : Mat4) (v : Vec4) : Vec4 :=
  ((m.c0.smul v.x).add (m.c1.smul v.y)).add ((m.c2.smul v.z).add (m.c3.smul v.w))

/-- The functions of the C math library the calibration code reaches, and `M_PI`. -/
structure Libm where
  tan : ℚ → ℚ
  cos : ℚ → ℚ
  sin : ℚ → ℚ
  sqrt : ℚ → ℚ
  pi : ℚ

/-- The function `glm::normalize`: `v * inversesqrt(dot(v, v))`. -/
def normalize (L : Libm) (v : Vec3) : Vec3 := v.smul (1 / L.sqrt (v.dot v))

/-- The function `glm::length`. -/
def length (L : Libm) (v : Vec3) : ℚ := L.sqrt (v.dot v)

/-- The function `glm::lookAt` (right handed). -/
def lookAt (L : Libm) (eye center up : Vec3) : Mat4 :=
  let f := normalize L (center.sub eye)
  let s := normalize L (f.cross up)
  let u := s.cross f
  { c0 := ⟨s.x, u.x, -f.x, 0⟩
    c1 := ⟨s.y, u.y, -f.y, 0⟩
    c2 := ⟨s.z, u.z, -f.z, 0⟩
    c3 := ⟨-(s.dot eye), -(u.dot eye), f.dot eye, 1⟩ }

/-- The function `glm::frustum`. -/
def frustum (l r b t n f : ℚ) : Mat4 :=
  { c0 := ⟨(2 * n) / (r - l), 0, 0, 0⟩
    c1 := ⟨0, (2 * n) / (t - b), 0, 0⟩
    c2 := ⟨(r + l) / (r - l), (t + b) / (t - b), -(f + n) / (f - n), -1⟩
    c3 := ⟨0, 0, -(2 * f * n) / (f - n), 0⟩ }

/-- The function `glm::project`. -/
def project (obj : Vec3) (model proj : Mat4) (viewport : Vec4) : Vec3 :=
  let tmp := proj.mulVec (model.mulVec ⟨obj.x, obj.y, obj.z, 1⟩)
  let tmp := tmp.smul (1 / tmp.w)
  let tmp : Vec4 := ⟨tmp.x * (1 / 2) + 1 / 2, tmp.y * (1 / 2) + 1 / 2, tmp.z * (1 / 2) + 1 / 2,
    tmp.w * (1 / 2) + 1 / 2⟩
  ⟨tmp.x * viewport.z + viewport.x, tmp.y * viewport.w + viewport.y, tmp.z⟩

/-- The function `glm::yawPitchRoll`. -/
def yawPitchRoll (L : Libm) (yaw pitch roll : ℚ) : Mat4 :=
  let ch := L.cos yaw
  let sh := L.sin yaw
  let cp := L.cos pitch
  let sp := L.sin pitch
  let cb := L.cos roll
  let sb := L.sin roll
  { c0 := ⟨ch * cb + sh * sp * sb, sb * cp, -sh * cb + ch * sp * sb, 0⟩
    c1 := ⟨-ch * sb + sh * sp * cb, cb * cp, sb * sh + ch * sp * cb, 0⟩
    c2 := ⟨sh * cp, -sp, ch * cp, 0⟩
    c3 := ⟨0, 0, 0, 1⟩ }

/-! ## Data model -/

/-- The constant `numeric_limits<double>::max()`. -/
def DBL_MAX : ℚ := ((2 ^ 1024 - 2 ^ 971 : ℕ) : ℚ)

/-- A calibration point of a camera (`struct CalibrationPoint`). -/
structure CalibrationPoint where
  world : Vec3
  screen : Vec2
  isSet : Bool
  weight : ℚ
deriving DecidableEq, Repr

/-- Modelled from the spec: the constructor `CalibrationPoint(world)` of `camera.h`, which is
not under src/. The spec's data model gives the four fields; a point that was only added has
no screen coordinate yet (`isSet` false), its screen is the origin and its weight is 1. -/
def CalibrationPoint.ofWorld (w : Vec3) : CalibrationPoint :=
  { world := w, screen := ⟨0, 0⟩, isSet := false, weight := 1 }

/-- Modelled from the spec: the default constructor `CalibrationPoint()` of `camera.h`, which
is not under src/: every coordinate zero, not set, weight 1. -/
def CalibrationPoint.default : CalibrationPoint :=
  CalibrationPoint.ofWorld ⟨0, 0, 0⟩

/-- The part of a linked `Object` the camera writes to: its mirrored calibration points. -/
structure Object where
  calibrationPoints : List Vec3
deriving DecidableEq, Repr

/-- The function `Object::addCalibrationPoint`. -/
def Object.addCalibrationPoint (o : Object) (point : Vec3) : Object :=
  if o.calibrationPoints.any (fun p => p == point) then o
  else { o with calibrationPoints := o.calibrationPoints ++ [point] }

/-- The function `Object::removeCalibrationPoint`: erases the first occurrence. -/
def Object.removeCalibrationPoint (o : Object) (point : Vec3) : Object :=
  { o with calibrationPoints := o.calibrationPoints.erase point }

/-- The state of a `Camera` that calibration reads or writes. -/
structure Camera where
  fov : ℚ
  cx : ℚ
  cy : ℚ
  near : ℚ
  far : ℚ
  width : Int
  height : Int
  eye : Vec3
  target : Vec3
  up : Vec3
  calibrationPoints : List CalibrationPoint
  selectedCalibrationPoint : Int
  calibrationCalledOnce : Bool
  updatedParams : Bool
  weightedCalibrationPoints : Bool
  fovLocked : Bool
  principalPointLocked : Bool
  objects : List Object
deriving DecidableEq, Repr

/-- A `gsl_vector` of size 9: fov, cx, cy, eye xyz, yaw, pitch, roll. -/
structure Vec9 where
  x0 : ℚ
  x1 : ℚ
  x2 : ℚ
  x3 : ℚ
  x4 : ℚ
  x5 : ℚ
  x6 : ℚ
  x7 : ℚ
  x8 : ℚ
deriving DecidableEq, Repr

/-- The function `gsl_vector_get` on a vector of size 9. -/
def gsl_vector_get (v : Vec9) (i : Fin 9) : ℚ :=
  match i with
  | 0 => v.x0
  | 1 => v.x1
  | 2 => v.x2
  | 3 => v.x3
  | 4 => v.x4
  | 5 => v.x5
  | 6 => v.x6
  | 7 => v.x7
  | 8 => v.x8

/-! ## The calibration objective -/

/-- The frustum bounds `(l, r, b, t)` of `Camera::computeProjectionMatrix(fov, cx, cy)`. -/
def Camera.frustumBounds (L : Libm) (c : Camera) (fov cx cy : ℚ) : ℚ × ℚ × ℚ × ℚ :=
  let n := c.near
  let tTemp := n * L.tan (fov * L.pi / 360)
  let bTemp := -tTemp
  let t := tTemp - (cy - 1 / 2) * (tTemp - bTemp)
  let b := bTemp - (cy - 1 / 2) * (tTemp - bTemp)
  let rTemp := tTemp * c.width / c.height
  let lTemp := bTemp * c.width / c.height
  let r := rTemp - (cx - 1 / 2) * (rTemp - lTemp)
  let l := lTemp - (cx - 1 / 2) * (rTemp - lTemp)
  (l, r, b, t)

/-- The method `Camera::computeProjectionMatrix(fov, cx, cy)`. -/
def Camera.computeProjectionMatrix (L : Libm) (c : Camera) (fov cx cy : ℚ) : Mat4 :=
  let lrbt := c.frustumBounds L fov cx cy
  frustum lrbt.1 lrbt.2.1 lrbt.2.2.1 lrbt.2.2.2 c.near c.far

/-- The first three components of a `dvec4`. -/
def Vec4.xyz (v : Vec4) : Vec3 := ⟨v.x, v.y, v.z⟩

/-- The body of the summation loop of `Camera::cameraCalibration_f` for one point: the
increment of `summedDistance`. -/
def summedDistanceStep (weighted : Bool) (lookM projM : Mat4) (viewport : Vec4)
    (acc : ℚ) (entry : Vec3 × Vec3 × ℚ) : ℚ :=
  let objectPoint := entry.1
  let imagePoint := entry.2.1
  let pointWeight := entry.2.2
  let projectedPoint := project objectPoint lookM projM viewport
  if weighted then
    acc + (pointWeight * (imagePoint.x - projectedPoint.x) ^ 2
      + (imagePoint.y - projectedPoint.y) ^ 2)
  else
    acc + ((imagePoint.x - projectedPoint.x) ^ 2 + (imagePoint.y - projectedPoint.y) ^ 2)

/-- The function `Camera::cameraCalibration_f(v, params)`; `params` is the camera, or `none`
for a null pointer. -/
def cameraCalibration_f (L : Libm) (v : Vec9) (params : Option Camera) : ℚ :=
  match params with
  | none => 0
  | some camera =>
    let fov := if camera.fovLocked then camera.fov else gsl_vector_get v 0
    let cx := if camera.principalPointLocked then camera.cx else gsl_vector_get v 1
    let cy := if camera.principalPointLocked then camera.cy else gsl_vector_get v 2
    if fov > 120 ∨ |cx - 1 / 2| > 1 ∨ |cy - 1 / 2| > 1 then DBL_MAX
    else
      let eye : Vec3 := ⟨gsl_vector_get v 3, gsl_vector_get v 4, gsl_vector_get v 5⟩
      let euler : Vec3 := ⟨gsl_vector_get v 6, gsl_vector_get v 7, gsl_vector_get v 8⟩
      let rotateMat := yawPitchRoll L euler.x euler.y euler.z
      let targetTmp := rotateMat.mulVec ⟨1, 0, 0, 0⟩
      let upTmp := rotateMat.mulVec ⟨0, 0, 1, 0⟩
      let target := targetTmp.xyz.add eye
      let up := upTmp.xyz
      let set := camera.calibrationPoints.filter (fun point => point.isSet)
      let objectPoints := set.map (fun point => point.world)
      let imagePoints : List Vec3 := set.map (fun point =>
        ⟨(point.screen.x + 1) / 2 * camera.width, (point.screen.y + 1) / 2 * camera.height, 0⟩)
      let pointsWeight := set.map (fun point => point.weight)
      let lookM := lookAt L eye target up
      let projM := camera.computeProjectionMatrix L fov cx cy
      let viewport : Vec4 := ⟨0, 0, camera.width, camera.height⟩
      let summedDistance :=
        (objectPoints.zip (imagePoints.zip pointsWeight)).foldl
          (summedDistanceStep camera.weightedCalibrationPoints lookM projM viewport) 0
      summedDistance / imagePoints.length

/-! ## The minimiser and the search of `Camera::doCalibration` -/

/-- The GSL simplex minimiser (`gsl_multimin_fminimizer`, type `nmsimplex2rand`) as the code
uses it; `σ` is the state of one minimiser object. -/
structure Gsl (σ : Type) where
  alloc : σ
  set : σ → (Vec9 → ℚ) → Vec9 → Vec9 → σ
  iterate : σ → Int × σ
  size : σ → ℚ
  minimum : σ → ℚ
  x : σ → Vec9

/-- The status `GSL_CONTINUE`. -/
def GSL_CONTINUE : Int := -2

/-- The status `GSL_SUCCESS`. -/
def GSL_SUCCESS : Int := 0

/-- The function `gsl_multimin_test_size` for a non-negative tolerance. -/
def gsl_multimin_test_size (size epsabs : ℚ) : Int :=
  if size < epsabs then GSL_SUCCESS else GSL_CONTINUE

/-- The `while` loop of one trial; the first argument counts the iterations that `iter < 10000`
still allows. Returns the minimiser and `localMinimum`. -/
def minimizeLoop {σ : Type} (G : Gsl σ) : Nat → σ → Int → ℚ → σ × ℚ
  | 0, minimizer, _, localMinimum => (minimizer, localMinimum)
  | fuel + 1, minimizer, status, localMinimum =>
    if status = GSL_CONTINUE ∧ localMinimum > 1 / 2 then
      let r := G.iterate minimizer
      if r.1 ≠ 0 then (r.2, localMinimum)
      else
        minimizeLoop G fuel r.2 (gsl_multimin_test_size (G.size r.2) (1 / 1000000))
          (G.minimum r.2)
    else (minimizer, localMinimum)

/-- The variables `minValue` and `selectedValues` shared by all trials. -/
structure Best where
  minValue : ℚ
  selectedValues : Vec9
deriving DecidableEq, Repr

/-- The reduction under `gslMutex` at the end of a trial. -/
def reduceBest {σ : Type} (G : Gsl σ) (best : Best) (minimizer : σ) (localMinimum : ℚ) : Best :=
  if localMinimum < best.minValue then ⟨localMinimum, G.x minimizer⟩ else best

/-- One trial run to its end: the loop from `GSL_CONTINUE` and `DBL_MAX`, then the reduction. -/
def runTrial {σ : Type} (G : Gsl σ) (best : Best) (minimizer : σ) : σ × Best :=
  let r := minimizeLoop G 10000 minimizer GSL_CONTINUE DBL_MAX
  (r.1, reduceBest G best r.1 r.2)

/-- The state a pool task of the first phase carries: its minimiser, the number of draws of
`rand()` so far and the shared best. -/
structure Coarse (σ : Type) where
  minimizer : σ
  draws : Nat
  best : Best

/-- The body of the `s`, `t` loops of the first phase. `rand k` is the value of
`(float)rand() / RAND_MAX` at the `k`-th draw. -/
def coarseTrial {σ : Type} (G : Gsl σ) (rand : Nat → ℚ) (f : Vec9 → ℚ) (eyeOriginal : Vec3)
    (st : Coarse σ) (st_grid : ℚ × ℚ) : Coarse σ :=
  let step : Vec9 := ⟨10, 1 / 10, 1 / 10, 1 / 10, 1 / 10, 1 / 10, 1 / 10, 1 / 10, 1 / 10⟩
  let k := st.draws
  let x : Vec9 :=
    ⟨35 + (rand k * 2 - 1) * 16, st_grid.1, st_grid.2,
      eyeOriginal.x, eyeOriginal.y, eyeOriginal.z,
      rand (k + 1) * 360, rand (k + 2) * 360, rand (k + 3) * 360⟩
  let r := runTrial G st.best (G.set st.minimizer f x step)
  ⟨r.1, k + 4, r.2⟩

/-- The values `0, 0.2, ..., 1` of the loops `for (double s = 0.0; s <= 1.0; s += 0.2)`. -/
def gridValues : List ℚ := [0, 1 / 5, 2 / 5, 3 / 5, 4 / 5, 1]

/-- The pairs `(s, t)` in the order of the nested loops. -/
def grid : List (ℚ × ℚ) := gridValues.flatMap (fun s => gridValues.map (fun t => (s, t)))

/-- One pool task of the first phase: a fresh minimiser, then the 36 trials of the grid. -/
def coarseTask {σ : Type} (G : Gsl σ) (rand : Nat → ℚ) (f : Vec9 → ℚ) (eyeOriginal : Vec3)
    (acc : Nat × Best) (_index : Nat) : Nat × Best :=
  let r := grid.foldl (coarseTrial G rand f eyeOriginal) ⟨G.alloc, acc.1, acc.2⟩
  (r.draws, r.best)

/-- The first phase: the four pool tasks, run one after the other (one of the schedules that
`gslMutex` allows), from `minValue = DBL_MAX` and `selectedValues` all zero. -/
def coarseSearch {σ : Type} (G : Gsl σ) (rand : Nat → ℚ) (f : Vec9 → ℚ) (eyeOriginal : Vec3) :
    Best :=
  ((List.range 4).foldl (coarseTask G rand f eyeOriginal)
    (0, ⟨DBL_MAX, ⟨0, 0, 0, 0, 0, 0, 0, 0, 0⟩⟩)).2

/-- One pass of the second phase. -/
def fineTrial {σ : Type} (G : Gsl σ) (f : Vec9 → ℚ) (best : Best) (_index : Nat) : Best :=
  let step : Vec9 := ⟨1, 1 / 20, 1 / 20, 1 / 100, 1 / 100, 1 / 100, 1 / 100, 1 / 100, 1 / 100⟩
  (runTrial G best (G.set G.alloc f best.selectedValues step)).2

/-- Both search phases of `Camera::doCalibration`. -/
def calibrationSearch {σ : Type} (G : Gsl σ) (rand : Nat → ℚ) (f : Vec9 → ℚ)
    (eyeOriginal : Vec3) : Best :=
  (List.range 8).foldl (fineTrial G f) (coarseSearch G rand f eyeOriginal)

/-- The count `pointsSet` at the head of `Camera::doCalibration`. -/
def Camera.pointsSet (c : Camera) : Nat :=
  c.calibrationPoints.foldl (fun n point => if point.isSet then n + 1 else n) 0

/-- The third step of `Camera::doCalibration`: the winning values become camera parameters. -/
def Camera.commit (L : Libm) (c : Camera) (selectedValues : Vec9) : Camera :=
  let fov := if !c.fovLocked then gsl_vector_get selectedValues 0 else c.fov
  let cx := if !c.principalPointLocked then gsl_vector_get selectedValues 1 else c.cx
  let cy := if !c.principalPointLocked then gsl_vector_get selectedValues 2 else c.cy
  let eye : Vec3 := ⟨gsl_vector_get selectedValues 3, gsl_vector_get selectedValues 4,
    gsl_vector_get selectedValues 5⟩
  let euler : Vec3 := ⟨gsl_vector_get selectedValues 6, gsl_vector_get selectedValues 7,
    gsl_vector_get selectedValues 8⟩
  let rotateMat := yawPitchRoll L euler.x euler.y euler.z
  let target := rotateMat.mulVec ⟨1, 0, 0, 0⟩
  let up := rotateMat.mulVec ⟨0, 0, 1, 0⟩
  { c with
    fov := fov, cx := cx, cy := cy, eye := eye
    target := target.xyz.add eye
    up := normalize L up.xyz
    updatedParams := true }

/-- The result of both search phases on a camera: the objective is
`Camera::cameraCalibration_f` with the camera as `params`, the start eye is the camera's. -/
def Camera.search {σ : Type} (L : Libm) (G : Gsl σ) (rand : Nat → ℚ) (c : Camera) : Best :=
  calibrationSearch G rand (fun v => cameraCalibration_f L v (some c)) c.eye

/-- The method `Camera::doCalibration`: the returned boolean and the camera afterwards. -/
def Camera.doCalibration {σ : Type} (L : Libm) (G : Gsl σ) (rand : Nat → ℚ) (c : Camera) :
    Bool × Camera :=
  if c.pointsSet < 6 then (false, c)
  else
    let c1 := { c with calibrationCalledOnce := true }
    let best := c1.search L G rand
    if best.minValue > 1000 then (true, c1)
    else (true, c1.commit L best.selectedValues)

/-! ## Values (`coretypes.h`) -/

/-- A `Value` holding a number or a list of values; string payloads are left out. -/
inductive Value where
  | i (n : Int)
  | l (n : Int)
  | f (x : ℚ)
  | v (vs : List Value)

/-- The type `Values` (`std::deque<Value>`). -/
abbrev Values := List Value

/-- Truncation toward zero, the conversion `(int)` of a floating value. -/
def truncToInt (x : ℚ) : Int := if 0 ≤ x then ⌊x⌋ else ⌈x⌉

/-- The conversion `(int)` of an `int64_t`: the low 32 bits, signed. -/
def wrapInt32 (n : Int) : Int := (n + 2 ^ 31) % 2 ^ 32 - 2 ^ 31

/-- The method `Value::asFloat`. -/
def Value.asFloat : Value → ℚ
  | .i n => n
  | .l n => n
  | .f x => x
  | .v _ => 0

/-- The method `Value::asInt`. -/
def Value.asInt : Value → Int
  | .i n => n
  | .l n => wrapInt32 n
  | .f x => truncToInt x
  | .v _ => 0

/-- The method `Value::asValues`. -/
def Value.asValues : Value → Values
  | .i n => [.i n]
  | .l n => [.l n]
  | .f x => [.f x]
  | .v vs => vs

/-! ## The calibration-point store -/

/-- The search loop of `Camera::addCalibrationPoint`: the first index, counted from `i`, of an
entry whose world coordinate is `world`. -/
def findWorld (world : Vec3) : List CalibrationPoint → Nat → Option Nat
  | [], _ => none
  | p :: ps, i => if p.world = world then some i else findWorld world ps (i + 1)

/-- The method `Camera::addCalibrationPoint`. -/
def Camera.addCalibrationPoint (c : Camera) (worldPoint : Values) : Bool × Camera :=
  match worldPoint with
  | a :: b :: d :: _ =>
    let world : Vec3 := ⟨a.asFloat, b.asFloat, d.asFloat⟩
    match findWorld world c.calibrationPoints 0 with
    | some i => (true, { c with selectedCalibrationPoint := (i : Int) })
    | none =>
      let points := c.calibrationPoints ++ [CalibrationPoint.ofWorld world]
      (true, { c with
        calibrationPoints := points
        selectedCalibrationPoint := (points.length : Int) - 1
        objects := c.objects.map (fun object => object.addCalibrationPoint world) })
  | _ => (false, c)

/-- The method `Camera::deselectCalibrationPoint`. -/
def Camera.deselectCalibrationPoint (c : Camera) : Camera :=
  { c with selectedCalibrationPoint := -1 }

/-- Replace the entry at an index, as an assignment through `operator[]` does. -/
def modifyAt {α : Type} (f : α → α) : Nat → List α → List α
  | _, [] => []
  | 0, a :: as => f a :: as
  | n + 1, a :: as => a :: modifyAt f n as

/-- The selected index as a position of the list, when `operator[]` is within bounds. -/
def Camera.selectedIndex (c : Camera) : Option Nat :=
  if 0 ≤ c.selectedCalibrationPoint ∧ c.selectedCalibrationPoint < c.calibrationPoints.length
  then some c.selectedCalibrationPoint.toNat else none

/-- The method `Camera::setCalibrationPoint`. -/
def Camera.setCalibrationPoint (c : Camera) (screenPoint : Values) : Option (Bool × Camera) :=
  if c.selectedCalibrationPoint = -1 then some (false, c)
  else
    match c.selectedIndex, screenPoint with
    | some idx, a :: b :: _ =>
      some (true, { c with
        calibrationPoints := modifyAt
          (fun p => { p with screen := ⟨a.asFloat, b.asFloat⟩, isSet := true }) idx
          c.calibrationPoints
        calibrationCalledOnce := false })
    | _, _ => none

/-- The update of the selected point in `Camera::moveCalibrationPoint`. -/
def movePoint (width height : Int) (dx dy : ℚ) (p : CalibrationPoint) : CalibrationPoint :=
  let screen : Vec2 := ⟨p.screen.x + dx / width, p.screen.y + dy / height⟩
  let screenX := 1 / 2 + 1 / 2 * screen.x
  let screenY := 1 / 2 + 1 / 2 * screen.y
  let distanceToBorder := min screenX (min screenY (min (1 - screenX) (1 - screenY)))
  { p with screen := screen, isSet := true, weight := 1 - distanceToBorder }

/-- The method `Camera::moveCalibrationPoint`. -/
def Camera.moveCalibrationPoint {σ : Type} (L : Libm) (G : Gsl σ) (rand : Nat → ℚ)
    (c : Camera) (dx dy : ℚ) : Option Camera :=
  if c.selectedCalibrationPoint = -1 then some c
  else
    match c.selectedIndex with
    | none => none
    | some idx =>
      let c1 := { c with
        calibrationPoints := modifyAt (movePoint c.width c.height dx dy) idx c.calibrationPoints }
      if c1.calibrationCalledOnce then some (c1.doCalibration L G rand).2 else some c1

/-- The search loop of the two-value form of `Camera::removeCalibrationPoint`: `minDist` and
`index` after the entries from position `i` on. -/
def nearestLoop (L : Libm) (lookM projM : Mat4) (viewport : Vec4) (screenPoint : Vec3) :
    List CalibrationPoint → Nat → ℚ × Int → ℚ × Int
  | [], _, acc => acc
  | p :: ps, i, acc =>
    let projected := project p.world lookM projM viewport
    let projectedPoint : Vec3 := ⟨projected.x, projected.y, 0⟩
    if length L (projectedPoint.sub screenPoint) < acc.1 then
      nearestLoop L lookM projM viewport screenPoint ps (i + 1)
        (length L (projectedPoint.sub screenPoint), (i : Int))
    else nearestLoop L lookM projM viewport screenPoint ps (i + 1) acc

/-- The loop of the three-value form of `Camera::removeCalibrationPoint`, from index `i`; the
first argument bounds the number of iterations (the list never grows and `i` only increases). -/
def removeWorldLoop (world : Vec3) (unlessSet : Bool) : Nat → Nat → Camera → Camera
  | 0, _, c => c
  | fuel + 1, i, c =>
    match c.calibrationPoints.get? i with
    | none => c
    | some p =>
      if p.world = world then
        if p.isSet = true ∧ unlessSet = true then removeWorldLoop world unlessSet fuel (i + 1) c
        else
          removeWorldLoop world unlessSet fuel (i + 1)
            { c with
              objects := c.objects.map (fun object => object.removeCalibrationPoint world)
              calibrationPoints := c.calibrationPoints.eraseIdx i
              selectedCalibrationPoint := -1 }
      else removeWorldLoop world unlessSet fuel (i + 1) c

/-- The method `Camera::removeCalibrationPoint`. -/
def Camera.removeCalibrationPoint (L : Libm) (c : Camera) (point : Values) (unlessSet : Bool) :
    Camera :=
  match point with
  | [a, b] =>
    let screenPoint : Vec3 := ⟨a.asFloat, b.asFloat, 0⟩
    let lookM := lookAt L c.eye c.target c.up
    let projM := c.computeProjectionMatrix L c.fov c.cx c.cy
    let viewport : Vec4 := ⟨0, 0, c.width, c.height⟩
    let found := nearestLoop L lookM projM viewport screenPoint c.calibrationPoints 0 (DBL_MAX, -1)
    if found.2 ≠ -1 then
      match c.calibrationPoints.get? found.2.toNat with
      | none => c
      | some p =>
        { c with
          objects := c.objects.map (fun object => object.removeCalibrationPoint p.world)
          calibrationPoints := c.calibrationPoints.eraseIdx found.2.toNat
          calibrationCalledOnce := false }
    else c
  | [a, b, d] =>
    let world : Vec3 := ⟨a.asFloat, b.asFloat, d.asFloat⟩
    { removeWorldLoop world unlessSet c.calibrationPoints.length 0 c with
      calibrationCalledOnce := false }
  | _ => c

/-- The method `Camera::sendCalibrationPointsToObjects`. -/
def Camera.sendCalibrationPointsToObjects (c : Camera) : Camera :=
  { c with
    objects := c.objects.map (fun object =>
      c.calibrationPoints.foldl (fun o point => o.addCalibrationPoint point.world) object) }

/-- The loop of the setter of the `calibrationPoints` attribute: every argument of type `v` is
read as a 6-tuple and pushed at the back of the list. -/
def pushCalibrationPoints : Values → List CalibrationPoint → Option (List CalibrationPoint)
  | [], points => some points
  | .v (w0 :: w1 :: w2 :: s0 :: s1 :: flag :: _) :: args, points =>
    pushCalibrationPoints args (points ++
      [{ CalibrationPoint.default with
          world := ⟨w0.asFloat, w1.asFloat, w2.asFloat⟩
          screen := ⟨s0.asFloat, s1.asFloat⟩
          isSet := decide (flag.asInt ≠ 0) }])
  | .v _ :: _, _ => none
  | _ :: args, points => pushCalibrationPoints args points

/-- The setter of the `calibrationPoints` attribute. -/
def Camera.setCalibrationPoints (c : Camera) (args : Values) : Option (Bool × Camera) :=
  match pushCalibrationPoints args c.calibrationPoints with
  | none => none
  | some points => some (true, { c with calibrationPoints := points }.sendCalibrationPointsToObjects)

/-- No two entries of the camera's list have the same world coordinate. -/
def Camera.uniqueWorld (c : Camera) : Prop :=
  (c.calibrationPoints.map (fun p => p.world)).Nodup

instance (c : Camera) : Decidable c.uniqueWorld := by
  unfold Camera.uniqueWorld; infer_instance

/-! ## Concrete inputs used by the evaluations -/

/-- The value of `M_PI` as a double. -/
def M_PI : ℚ := 884279719003555 / 281474976710656

/-- A table of the math library at the arguments the evaluations below reach, with the exact
values there: `tan (π/4) = 1`, `tan (-π/4) = -1`, `cos 0 = 1`, `sin 0 = 0`, `sqrt 1 = 1`. -/
def libmTable : Libm :=
  { tan := fun x => if x = 90 * M_PI / 360 then 1 else if x = -90 * M_PI / 360 then -1 else 0
    cos := fun x => if x = 0 then 1 else 0
    sin := fun _ => 0
    sqrt := fun x => if x = 1 then 1 else 0
    pi := M_PI }

/-- A minimiser whose every iteration reports an error (status `GSL_FAILURE = -1`). -/
def gslFailing : Gsl Vec9 :=
  { alloc := ⟨0, 0, 0, 0, 0, 0, 0, 0, 0⟩
    set := fun _ _ x _ => x
    iterate := fun m => (-1, m)
    size := fun _ => 1
    minimum := fun _ => 0
    x := fun m => m }

/-- A minimiser that reports, after one iteration, the residual 0 at the point with field of
view 50 and principal point (1/4, 3/4), whatever the start. -/
def gslPerfect : Gsl Vec9 :=
  { alloc := ⟨0, 0, 0, 0, 0, 0, 0, 0, 0⟩
    set := fun _ _ x _ => x
    iterate := fun _ => (0, ⟨50, 1 / 4, 3 / 4, 1, 2, 3, 0, 0, 0⟩)
    size := fun _ => 0
    minimum := fun _ => 0
    x := fun m => m }

/-- A set calibration point. -/
def setPoint (wx wy wz sx sy : ℚ) : CalibrationPoint :=
  { world := ⟨wx, wy, wz⟩, screen := ⟨sx, sy⟩, isSet := true, weight := 1 }

/-- The six set points of the end-to-end scenario of the specification. -/
def sixPoints : List CalibrationPoint :=
  [setPoint 0 0 0 (-1 / 2) (-1 / 2), setPoint 1 0 0 (1 / 2) (-1 / 2),
   setPoint 1 1 0 (1 / 2) (1 / 2), setPoint 0 1 0 (-1 / 2) (1 / 2),
   setPoint 0 0 1 (-1 / 2) 0, setPoint 1 1 1 (3 / 10) (3 / 10)]

/-- A camera with the given points and locks: field of view 35, principal point (1/2, 1/2),
eye (1, 0, 5), looking at the origin, 512 x 512. -/
def cameraWith (points : List CalibrationPoint) (fovLocked principalPointLocked : Bool) :
    Camera :=
  { fov := 35, cx := 1 / 2, cy := 1 / 2, near := 1 / 10, far := 100
    width := 512, height := 512
    eye := ⟨1, 0, 5⟩, target := ⟨0, 0, 0⟩, up := ⟨0, 0, 1⟩
    calibrationPoints := points
    selectedCalibrationPoint := -1
    calibrationCalledOnce := false
    updatedParams := false
    weightedCalibrationPoints := false
    fovLocked := fovLocked
    principalPointLocked := principalPointLocked
    objects := [] }

/-! ## The objective in the words of the specification -/

/-- The field of view a candidate is evaluated with: the camera's when the fov attribute is
locked, the candidate's component 0 otherwise. -/
def effectiveFov (camera : Camera) (v : Vec9) : ℚ :=
  if camera.fovLocked then camera.fov else v.x0

/-- The principal point x a candidate is evaluated with. -/
def effectiveCx (camera : Camera) (v : Vec9) : ℚ :=
  if camera.principalPointLocked then camera.cx else v.x1

/-- The principal point y a candidate is evaluated with. -/
def effectiveCy (camera : Camera) (v : Vec9) : ℚ :=
  if camera.principalPointLocked then camera.cy else v.x2

/-- The look-at matrix of a candidate: eye from components 3 to 5, target and up from the
canonical forward and up vectors rotated by yaw, pitch and roll (components 6 to 8). -/
def candidateLookAt (L : Libm) (v : Vec9) : Mat4 :=
  let eye : Vec3 := ⟨v.x3, v.x4, v.x5⟩
  let rotateMat := yawPitchRoll L v.x6 v.x7 v.x8
  lookAt L eye ((rotateMat.mulVec ⟨1, 0, 0, 0⟩).xyz.add eye) (rotateMat.mulVec ⟨0, 0, 1, 0⟩).xyz

/-- The frustum of a candidate, with the effective field of view and principal point. -/
def candidateFrustum (L : Libm) (camera : Camera) (v : Vec9) : Mat4 :=
  camera.computeProjectionMatrix L (effectiveFov camera v) (effectiveCx camera v)
    (effectiveCy camera v)

/-- The viewport projection `(px, py)` of a world coordinate under a candidate. -/
def candidatePixel (L : Libm) (camera : Camera) (v : Vec9) (world : Vec3) : Vec3 :=
  project world (candidateLookAt L v) (candidateFrustum L camera v)
    ⟨0, 0, camera.width, camera.height⟩

/-- The stored target `(u, v)` of a point in pixels. -/
def targetPixel (camera : Camera) (p : CalibrationPoint) : Vec2 :=
  ⟨(p.screen.x + 1) / 2 * camera.width, (p.screen.y + 1) / 2 * camera.height⟩

/-- The squared reprojection error in x of a point under a candidate. -/
def errX2 (L : Libm) (camera : Camera) (v : Vec9) (p : CalibrationPoint) : ℚ :=
  ((candidatePixel L camera v p.world).x - (targetPixel camera p).x) ^ 2

/-- The squared reprojection error in y of a point under a candidate. -/
def errY2 (L : Libm) (camera : Camera) (v : Vec9) (p : CalibrationPoint) : ℚ :=
  ((candidatePixel L camera v p.world).y - (targetPixel camera p).y) ^ 2

/-- The points of a camera with `isSet = true`. -/
def Camera.setPoints (camera : Camera) : List CalibrationPoint :=
  camera.calibrationPoints.filter (fun point => point.isSet)

/-- The mean over the set points of the squared reprojection error. -/
def meanSquaredError (L : Libm) (camera : Camera) (v : Vec9) : ℚ :=
  (camera.setPoints.map (fun p => errX2 L camera v p + errY2 L camera v p)).sum
    / camera.setPoints.length

/-- The objective of the specification: the mean over the set points of the weight times the
whole squared reprojection error. -/
def weightedMeanSquaredError (L : Libm) (camera : Camera) (v : Vec9) : ℚ :=
  (camera.setPoints.map (fun p => p.weight * (errX2 L camera v p + errY2 L camera v p))).sum
    / camera.setPoints.length

/-- The mean over the set points of the weight times the squared error in x, plus the squared
error in y. -/
def xWeightedMeanSquaredError (L : Libm) (camera : Camera) (v : Vec9) : ℚ :=
  (camera.setPoints.map (fun p => p.weight * errX2 L camera v p + errY2 L camera v p)).sum
    / camera.setPoints.length

/-- The candidate with field of view `fov`, the principal point at the centre, the eye at the
origin and no rotation. -/
def candidateAtOrigin (fov : ℚ) : Vec9 := ⟨fov, 1 / 2, 1 / 2, 0, 0, 0, 0, 0, 0⟩

/-- A camera with one set point, world (2, 1, 1), screen target (0, 0), and the weight 1/2
that `moveCalibrationPoint` gives a point at the centre of the screen. -/
def cameraOnePoint (weighted : Bool) : Camera :=
  { cameraWith [{ world := ⟨2, 1, 1⟩, screen := ⟨0, 0⟩, isSet := true, weight := 1 / 2 }]
      false false with
    weightedCalibrationPoints := weighted }

/-! ## The view matrix -/

/-- The method `Camera::computeViewMatrix`: the matrix and the camera afterwards (the fallback
target is written to `_target`). -/
def Camera.computeViewMatrix (L : Libm) (c : Camera) : Mat4 × Camera :=
  let c1 :=
    if c.eye = c.target then
      { c with target := ⟨c.eye.x + c.up.y, c.eye.y + c.up.z, c.eye.z + c.up.x⟩ }
    else c
  (lookAt L c1.eye c1.target c1.up, c1)

/-- A camera with one set point whose stored target is the projection of its world coordinate
(2, 1, 1) under the candidate at the origin with field of view 90: pixel (128, 384), that is
screen (-1/2, 1/2). -/
def cameraExactPoint (weighted : Bool) : Camera :=
  { cameraWith [{ world := ⟨2, 1, 1⟩, screen := ⟨-1 / 2, 1 / 2⟩, isSet := true, weight := 1 / 2 }]
      false false with
    weightedCalibrationPoints := weighted }

/-- A camera whose eye and target are both the origin, with up vector (1, 1, 1). -/
def cameraAtOriginUp111 : Camera :=
  { cameraWith [] false false with
    eye := ⟨0, 0, 0⟩
    target := ⟨0, 0, 0⟩
    up := ⟨1, 1, 1⟩ }

/-- A camera whose target is its eye (1, 0, 5), with up vector (0, 0, 1). -/
def cameraTargetAtEye : Camera :=
  { cameraWith [] false false with target := ⟨1, 0, 5⟩ }

/-! ## The blending map (`Camera::computeBlendingMap`)

Arrays (`camMap`, `isSet`, the data of the shared map) are functions from the index to the
entry, with the size kept apart: an access at an index that is not below the size is `none`.
Unsigned 16-bit arithmetic is modulo 2^16; the `int` product of the interpolation is wrapped
to 32 bits. -/

/-- A read-back RGBA pixel: the four `uint16_t` at `pixel[0]` to `pixel[3]`. -/
structure Pixel where
  r : Nat
  g : Nat
  b : Nat
  a : Nat
deriving DecidableEq, Repr

/-- The image read back by `glReadPixels`: its size and, for column `x` and row `y`, the pixel
at `&imgPtr[(x + y * width) * 4]`. -/
structure ReadBack where
  width : Nat
  height : Nat
  pixel : Nat → Nat → Pixel

/-- The two vectors local to `Camera::computeBlendingMap`. -/
structure BlendBuffers where
  camMap : Nat → Nat
  isSet : Nat → Bool

/-- The vectors as allocated: `camMap` all zero, `isSet` all false. -/
def BlendBuffers.init : BlendBuffers := ⟨fun _ => 0, fun _ => false⟩

/-- The decoded address `(destX, destY)` of a pixel. -/
def decodeDest (p : Pixel) (mapWidth mapHeight : Nat) : Nat × Nat :=
  (⌊((p.r : ℚ) + (p.g : ℚ) / 256) * (1 / 65536) * (mapWidth : ℚ)⌋₊,
   ⌊((p.b : ℚ) + (p.a : ℚ) / 256) * (1 / 65536) * (mapHeight : ℚ)⌋₊)

/-- The function `glm::clamp`. -/
def clamp (x minVal maxVal : ℚ) : ℚ := min (max x minVal) maxVal

/-- The normalised distance to the image border along one axis: `distX` for position `x` in
an image of width `size`. -/
def borderDist (blendWidth : ℚ) (size pos : Nat) : ℚ :=
  clamp (min (pos : ℚ) ((size : ℚ) - 1 - (pos : ℚ)) / (size : ℚ) / blendWidth) 0 1

/-- The expression `1.0 / (1.0 / distX + 1.0 / distY)` in IEEE arithmetic for distances that
are not negative: a zero distance gives `1.0 / 0 = +inf`, and `1.0 / +inf = 0`. -/
def harmonicWeight (distX distY : ℚ) : ℚ :=
  if distX = 0 ∨ distY = 0 then 0 else 1 / (1 / distX + 1 / distY)

/-- The value added to `blendAddition` before the bias, as an `int`: `blendValue` when the
blend width is positive, 256 otherwise. -/
def blendValue (blendWidth : ℚ) (imgWidth imgHeight x y : Nat) : Int :=
  let distX := borderDist blendWidth imgWidth x
  let distY := borderDist blendWidth imgHeight y
  if blendWidth > 0 then
    let weight := harmonicWeight distX distY
    let smoothDist := (min (max weight 0) 1) ^ 2 * 256
    truncToInt smoothDist
  else 256

/-- The `unsigned short blendAddition` written to `camMap`: the value above, then the bias
4096, each addition modulo 2^16. -/
def blendAddition (blendWidth : ℚ) (imgWidth imgHeight x y : Nat) : Nat :=
  ((((0 + blendValue blendWidth imgWidth imgHeight x y) % 65536).toNat) + 4096) % 65536

/-- The body of the decode loop for the pixel at column `x`, row `y`. -/
def decodeStep (blendWidth : ℚ) (img : ReadBack) (mapWidth mapHeight : Nat) (x y : Nat)
    (s : BlendBuffers) : Option BlendBuffers :=
  let dest := decodeDest (img.pixel x y) mapWidth mapHeight
  let idx := dest.2 * mapWidth + dest.1
  if idx < mapWidth * mapHeight then
    if s.isSet idx = true ∨ (dest.1 = 0 ∧ dest.2 = 0) then some s
    else
      some
        { isSet := Function.update s.isSet idx true
          camMap := Function.update s.camMap idx
            (blendAddition blendWidth img.width img.height x y) }
  else none

/-- The decode loops over the rows and columns of the read-back image. -/
def decodeLoop (blendWidth : ℚ) (img : ReadBack) (mapWidth mapHeight : Nat)
    (s : BlendBuffers) : Option BlendBuffers :=
  (List.range img.height).foldlM
    (fun s y => (List.range img.width).foldlM
      (fun s x => decodeStep blendWidth img mapWidth mapHeight x y s) s) s

/-- The variables of the hole-filling loop of one row. -/
structure FillState where
  buffers : BlendBuffers
  lastFilledPixel : Nat
  nextFilledPixel : Nat
  holeStart : Nat
  holeEnd : Nat
  hole : Bool

/-- The variables at the start of a row. -/
def FillState.start (buffers : BlendBuffers) : FillState :=
  ⟨buffers, 0, 0, 0, 0, false⟩

/-- The body of the search `for (xx = x + 2; xx < width; ++xx)`; `base` is `y * width`. -/
def holeEndStep (base : Nat) (s : FillState) (xx : Nat) : FillState :=
  if s.buffers.isSet (base + xx) = true then
    { s with nextFilledPixel := s.buffers.camMap (base + xx), holeEnd := xx, hole := true }
  else s

/-- The conversion of an `int` to `unsigned short`. -/
def toUInt16 (n : Int) : Nat := (n % 65536).toNat

/-- The filled value `pixelValue`: `lastFilledPixel + step`, with `step` the truncated `int`
quotient converted to `unsigned short`. -/
def pixelValue (s : FillState) (x : Nat) : Nat :=
  let product := wrapInt32 (((s.nextFilledPixel : Int) - (s.lastFilledPixel : Int))
    * (((x - s.holeStart : Nat) : Int)))
  let step := toUInt16 (Int.tdiv product ((s.holeEnd - s.holeStart : Nat) : Int))
  (s.lastFilledPixel + step) % 65536

/-- The loop over the columns of one row, from column `x`; `base` is `y * width`. The first
argument bounds the number of iterations; `none` when it is used up before the end of the row.
After `x -= 1; continue` the increment of the `for` brings `x` back to its value. -/
def fillRowLoop (width base : Nat) : Nat → Nat → FillState → Option FillState
  | 0, x, s => if width ≤ x then some s else none
  | fuel + 1, x, s =>
    if width ≤ x then some s
    else if s.buffers.isSet (base + x) = false ∧ s.hole = false then
      fillRowLoop width base fuel (x + 1) s
    else if s.buffers.isSet (base + x) = true ∧ s.hole = false then
      if x < width - 1 ∧ s.buffers.isSet (base + x + 1) = true then
        fillRowLoop width base fuel (x + 1) s
      else
        fillRowLoop width base fuel (x + 1)
          ((List.range' (x + 2) (width - (x + 2))).foldl (holeEndStep base)
            { s with lastFilledPixel := s.buffers.camMap (base + x), holeStart := x })
    else if s.buffers.isSet (base + x) = true ∧ s.hole = true then
      fillRowLoop width base fuel x { s with hole := false }
    else
      fillRowLoop width base fuel (x + 1)
        { s with
          buffers :=
            { camMap := Function.update s.buffers.camMap (base + x) (pixelValue s x)
              isSet := Function.update s.buffers.isSet (base + x) true } }

/-- The hole filling of row `y`: fresh variables, then the loop over the columns, which visits
a column at most twice. -/
def fillRow (width : Nat) (buffers : BlendBuffers) (y : Nat) : Option BlendBuffers :=
  (fillRowLoop width (y * width) (2 * width) 0 (FillState.start buffers)).map
    (fun s => s.buffers)

/-- The hole filling of all rows. -/
def fillHoles (width height : Nat) (buffers : BlendBuffers) : Option BlendBuffers :=
  (List.range height).foldlM (fillRow width) buffers

/-- The body of the merge loop: `imageMap[y + width * x] += camMap[y + width * x]`. -/
def mergeStep (width height : Nat) (camMap : Nat → Nat) (y : Nat) (imageMap : Nat → Nat)
    (x : Nat) : Option (Nat → Nat) :=
  let idx := y + width * x
  if idx < width * height then
    some (Function.update imageMap idx ((imageMap idx + camMap idx) % 65536))
  else none

/-- The merge loops. -/
def mergeLoop (width height : Nat) (camMap : Nat → Nat) (imageMap : Nat → Nat) :
    Option (Nat → Nat) :=
  (List.range height).foldlM
    (fun m y => (List.range width).foldlM (mergeStep width height camMap y) m) imageMap

/-- The shared blending map: its spec and its data as `uint16_t`. -/
structure BlendingMap where
  width : Nat
  height : Nat
  isUInt16 : Bool
  data : Nat → Nat

/-- What a camera contributes to `Camera::computeBlendingMap`: its blend width and the image
its render of the UV-encoded objects reads back. -/
structure BlendInput where
  blendWidth : ℚ
  img : ReadBack

/-- The camera's map after decoding and hole filling. -/
def cameraFilledMap (input : BlendInput) (width height : Nat) : Option BlendBuffers :=
  (decodeLoop input.blendWidth input.img width height BlendBuffers.init).bind
    (fillHoles width height)

/-- The method `Camera::computeBlendingMap`, from the read-back on. -/
def computeBlendingMap (input : BlendInput) (map : BlendingMap) : Option BlendingMap :=
  if map.isUInt16 = false then some map
  else
    (cameraFilledMap input map.width map.height).bind (fun filled =>
      (mergeLoop map.width map.height filled.camMap map.data).map
        (fun data => { map with data := data }))

/-- The loop of `Scene` over the cameras, each merging into the shared map. -/
def computeBlendingMaps (inputs : List BlendInput) (map : BlendingMap) : Option BlendingMap :=
  inputs.foldlM (fun m input => computeBlendingMap input m) map

/-- A read-back image of one pixel. -/
def readBackOf (p : Pixel) : ReadBack := ⟨1, 1, fun _ _ => p⟩

/-- The linear interpolation of the specification between the value `va` at column `a` and the
value `vb` at column `b`, at column `x`: `va + trunc((vb - va) * (x - a) / (b - a))`. -/
def interpolate (va vb : Nat) (a b x : Nat) : Int :=
  (va : Int) + Int.tdiv (((vb : Int) - (va : Int)) * ((x : Int) - (a : Int))) ((b : Int) - (a : Int))

/-- What the hole filling of the row at offset `base` does to column `j`: a set texel is kept;
an unset texel with no set texel on one of its sides is kept; an unset texel with set texels on
both sides is marked set and receives `pixelValue` computed from the nearest set texel on its
left (column `a`) and the last set texel of the row (column `e`). -/
def ColumnFilled (width base : Nat) (before after : BlendBuffers) (j : Nat) : Prop :=
  (before.isSet (base + j) = true ∧ after.isSet (base + j) = true
      ∧ after.camMap (base + j) = before.camMap (base + j))
    ∨ (before.isSet (base + j) = false ∧ after.isSet (base + j) = false
      ∧ after.camMap (base + j) = before.camMap (base + j)
      ∧ ((∀ a, a < j → before.isSet (base + a) = false)
        ∨ (∀ e, j < e → e < width → before.isSet (base + e) = false)))
    ∨ (before.isSet (base + j) = false
      ∧ ∃ a e, a < j ∧ j < e ∧ e < width
        ∧ before.isSet (base + a) = true ∧ before.isSet (base + e) = true
        ∧ (∀ i, a < i → i ≤ j → before.isSet (base + i) = false)
        ∧ (∀ i, e < i → i < width → before.isSet (base + i) = false)
        ∧ after.isSet (base + j) = true
        ∧ after.camMap (base + j)
            = pixelValue ⟨before, before.camMap (base + a), before.camMap (base + e), a, e, true⟩ j)

/-- What the hole filling of one row does to the buffers: nothing outside the row, and
`ColumnFilled` at every column of the row. -/
def RowFilled (width base : Nat) (before after : BlendBuffers) : Prop :=
  (∀ i, (i < base ∨ base + width ≤ i) →
      after.camMap i = before.camMap i ∧ after.isSet i = before.isSet i)
    ∧ ∀ j, j < width → ColumnFilled width base before after j

/-- The invariant of the column loop at column `x`: the columns from `x` on and the other rows
are untouched, the columns before `x` are filled, and the hole variables describe the texels
already seen. -/
def FillInv (width base : Nat) (before : BlendBuffers) (x : Nat) (s : FillState) : Prop :=
  (∀ i, (i < base ∨ base + x ≤ i) →
      s.buffers.camMap i = before.camMap i ∧ s.buffers.isSet i = before.isSet i)
    ∧ (∀ j, j < x → ColumnFilled width base before s.buffers j)
    ∧ (s.hole = true →
        s.holeStart < x ∧ x ≤ s.holeEnd ∧ s.holeEnd < width
          ∧ before.isSet (base + s.holeStart) = true ∧ before.isSet (base + s.holeEnd) = true
          ∧ (∀ i, s.holeStart < i → i < x → before.isSet (base + i) = false)
          ∧ (∀ i, s.holeEnd < i → i < width → before.isSet (base + i) = false)
          ∧ s.lastFilledPixel = before.camMap (base + s.holeStart)
          ∧ s.nextFilledPixel = before.camMap (base + s.holeEnd))
    ∧ (s.hole = false →
        (∀ j, j < x → before.isSet (base + j) = false)
          ∨ (∀ j, x ≤ j → j < width → before.isSet (base + j) = false)
          ∨ (x < width ∧ before.isSet (base + x) = true))

/-- The buffers of a one-row map given by its texels: `none` for an unset texel (value 0),
`some v` for a set texel of value `v`. -/
def buffersOfRow (row : List (Option Nat)) : BlendBuffers :=
  { camMap := fun i => (row.getD i none).getD 0
    isSet := fun i => (row.getD i none).isSome }

/-- The row `[10, _, _, _, 50]` of the specification. -/
def rowTenFifty : BlendBuffers := buffersOfRow [some 10, none, none, none, some 50]

/-- A row with three set texels: `[10, _, _, _, 50, _, _, _, 10]`. -/
def rowThreeSet : BlendBuffers :=
  buffersOfRow [some 10, none, none, none, some 50, none, none, none, some 10]

/-- A camera map of six texels with the values 1 to 6. -/
def camMapOneToSix : Nat → Nat := fun i => [1, 2, 3, 4, 5, 6].getD i 0

/-- Every pixel of the read-back image decodes to an address inside the raster. -/
def AddressesInRange (img : ReadBack) (mapWidth mapHeight : Nat) : Prop :=
  ∀ x y, x < img.width → y < img.height →
    (decodeDest (img.pixel x y) mapWidth mapHeight).1 < mapWidth
      ∧ (decodeDest (img.pixel x y) mapWidth mapHeight).2 < mapHeight

/-- The packing of a camera's map: an unset texel holds 0, a set texel holds the bias 4096
plus a blend value of at most 256. -/
def Packed (s : BlendBuffers) : Prop :=
  ∀ i, (s.isSet i = false ∧ s.camMap i = 0)
    ∨ (s.isSet i = true ∧ 4096 ≤ s.camMap i ∧ s.camMap i ≤ 4352)

/-- Whether texel `i` is set in the filled map of a camera, for a square map of side `n`. -/
def texelSetBy (input : BlendInput) (n i : Nat) : Bool :=
  match cameraFilledMap input n n with
  | some filled => filled.isSet i
  | none => false

/-- The value of texel `i` in the filled map of a camera, for a square map of side `n`. -/
def texelValueBy (input : BlendInput) (n i : Nat) : Nat :=
  match cameraFilledMap input n n with
  | some filled => filled.camMap i
  | none => 0

/-- The invariant of the merge loops on a square map of side `n`, before column `c` of row
`y`: the index `i = y' + n * x'` was increased exactly when its pair `(y', x') = (i % n, i / n)`
was visited, that is `y' < y`, or `y' = y` and `x' < c`. -/
def MergeInv (n : Nat) (camMap imageMap : Nat → Nat) (y c : Nat) (out : Nat → Nat) : Prop :=
  ∀ i, out i =
    if i < n * n ∧ (i % n < y ∨ (i % n = y ∧ i / n < c)) then (imageMap i + camMap i) % 65536
    else imageMap i

/-- A square map of side 4, of type UINT16, set to zero. -/
def zeroMap4 : BlendingMap := ⟨4, 4, true, fun _ => 0⟩

/-- Two cameras whose read-back is the single pixel (R=0, G=0, B=32768, A=0), which decodes
to column 0 of row 2 of a map of side 4; the first blends over 1/20, the second not at all. -/
def twoCameras : List BlendInput :=
  [⟨1 / 20, readBackOf ⟨0, 0, 32768, 0⟩⟩, ⟨0, readBackOf ⟨0, 0, 32768, 0⟩⟩]

/-! ## The blending state machine of `Scene` (`src/src/scene.cpp`) -/

/-- The flags of a `Scene` that drive the blending on the GPU path: the three members, the two
`static` locals of `Scene::renderBlending`, and the OpenGL version. -/
structure Scene where
  glMajor : Int
  glMinor : Int
  isBlendingComputed : Bool
  computeBlending : Bool
  computeBlendingOnce : Bool
  blendComputedInPreviousFrame : Bool
  blendComputedOnce : Bool
deriving DecidableEq, Repr

/-- The test `(_glVersion[0] == 4 && _glVersion[1] >= 3) || _glVersion[0] > 4`. -/
def Scene.gpuPath (s : Scene) : Bool :=
  (s.glMajor == 4 && decide (s.glMinor ≥ 3)) || decide (s.glMajor > 4)

/-- The method `Scene::activateBlendingMap`, as far as the flags go (on the path without
compute shaders the blending map is computed here, by `computeBlendingMaps`). -/
def Scene.activateBlendingMap (s : Scene) (once : Bool) : Scene :=
  if s.isBlendingComputed then s
  else
    let s1 := { s with isBlendingComputed := true }
    if s1.gpuPath then { s1 with computeBlending := true, computeBlendingOnce := once }
    else { s1 with computeBlending := true }

/-- The method `Scene::deactivateBlendingMap`, as far as the flags go. -/
def Scene.deactivateBlendingMap (s : Scene) : Scene :=
  let s1 := { s with isBlendingComputed := false }
  if s1.gpuPath then { s1 with computeBlending := false, computeBlendingOnce := true }
  else { s1 with computeBlending := false }

/-- The method `Scene::computeBlendingMap(mode)`. -/
def Scene.computeBlendingMap (s : Scene) (mode : String) : Scene :=
  if mode = "once" then s.activateBlendingMap true
  else if mode = "continuous" then s.activateBlendingMap false
  else s.deactivateBlendingMap

/-- The getter of the `calibrationPoints` attribute: one 6-tuple per point, the coordinates
as floating values and the flag `isSet` as an integer. -/
def Camera.getCalibrationPoints (c : Camera) : Values :=
  c.calibrationPoints.map (fun p =>
    Value.v [.f p.world.x, .f p.world.y, .f p.world.z, .f p.screen.x, .f p.screen.y,
      .i (if p.isSet then 1 else 0)])

/-- What the `calibrationPoints` attribute carries of a point: world, screen, `isSet`. -/
def CalibrationPoint.stored (p : CalibrationPoint) : Vec3 × Vec2 × Bool :=
  (p.world, p.screen, p.isSet)

/-- The point the setter of `calibrationPoints` builds from the 6-tuple the getter wrote for
`p`: a default-constructed point with the world, screen and flag of `p`. -/
def CalibrationPoint.restored (p : CalibrationPoint) : CalibrationPoint :=
  { CalibrationPoint.default with world := p.world, screen := p.screen, isSet := p.isSet }

/-- The members of a `ResizableArray<T>`: the allocated buffer, `_size` and `_shift`. -/
structure ResizableArray (α : Type) where
  _buffer : List α
  _size : Nat
  _shift : Nat
deriving DecidableEq, Repr

/-- The constructor `ResizableArray(T* start, T* end)` on a non-empty range holding `l`. -/
def ResizableArray.ofList {α : Type} (l : List α) : ResizableArray α :=
  ⟨l, l.length, 0⟩

/-- The method `ResizableArray::data`, as the offset of the returned pointer from the start
of the buffer. -/
def ResizableArray.data {α : Type} (a : ResizableArray α) : Nat := a._shift

/-- The element that `data()[i]` reads; `none` outside of the allocated buffer. -/
def ResizableArray.read {α : Type} (a : ResizableArray α) (i : Nat) : Option α :=
  a._buffer[a.data + i]?

/-- The method `ResizableArray::shift`. -/
def ResizableArray.shift {α : Type} (a : ResizableArray α) (shift : Nat) : ResizableArray α :=
  if shift < a._size then { a with _shift := shift, _size := a._size - shift } else a

/-- The method `ResizableArray::size`: the difference of two `size_t`, modulo `2^64`. -/
def ResizableArray.size {α : Type} (a : ResizableArray α) : Nat :=
  (((a._size : Int) - (a._shift : Int)) % 2 ^ 64).toNat

/-! ## The selection attributes of the camera -/

/-- The attribute `selectNextCalibrationPoint`: the `int` sum is converted to `size_t` for the
remainder by `size()` and back to `int`; on an empty list the remainder is undefined. -/
def Camera.selectNextCalibrationPoint (c : Camera) : Option Camera :=
  if c.calibrationPoints.length = 0 then none
  else
    some { c with
      selectedCalibrationPoint :=
        wrapInt32 (((c.selectedCalibrationPoint + 1) % 2 ^ 64) % (c.calibrationPoints.length : Int)) }

/-- The attribute `selectPreviousCalibrationPoint`. -/
def Camera.selectPreviousCalibrationPoint (c : Camera) : Camera :=
  if c.selectedCalibrationPoint = 0 then
    { c with
      selectedCalibrationPoint := wrapInt32 (((c.calibrationPoints.length : Int) - 1) % 2 ^ 64) }
  else { c with selectedCalibrationPoint := c.selectedCalibrationPoint - 1 }

/-- The selected index is -1 or a position of the list. -/
def Camera.selectionValid (c : Camera) : Prop :=
  c.selectedCalibrationPoint = -1
    ∨ (0 ≤ c.selectedCalibrationPoint ∧ c.selectedCalibrationPoint < c.calibrationPoints.length)

instance (c : Camera) : Decidable c.selectionValid := by
  unfold Camera.selectionValid; infer_instance

/-- The camera with one point, that point being selected. -/
def cameraOnePointSelected : Camera :=
  { cameraOnePoint false with selectedCalibrationPoint := 0 }

/-- A minimiser whose first iteration succeeds with the residual 1 and whose second iteration
reports an error; its state counts the iterations. -/
def gslLateError : Gsl Nat :=
  { alloc := 0
    set := fun _ _ _ _ => 0
    iterate := fun n => (if n = 0 then 0 else -1, n + 1)
    size := fun _ => 1
    minimum := fun _ => 1
    x := fun _ => ⟨35, 1 / 2, 1 / 2, 0, 0, 0, 0, 0, 0⟩ }

/-- The shared best before any trial: `DBL_MAX` and a zero vector. -/
def bestInitial : Best := ⟨DBL_MAX, ⟨0, 0, 0, 0, 0, 0, 0, 0, 0⟩⟩

/-- The specification's description of the merge on a map of `n * n` texels: the plain
row-major element-wise addition modulo 2^16; texels outside of the map are left alone. -/
def rowMajorAdd (n : Nat) (camMap imageMap : Nat → Nat) : Nat → Nat :=
  fun i => if i < n * n then (imageMap i + camMap i) % 65536 else imageMap i

/-- What the specification says of the hole filling at column `j` of row `y`: a texel set
before is kept; an unset texel with a set texel of its row on each side is marked set, with
a value between any bounds `lo`, `hi` of the set values of the row (for a row at most 32768
wide holding 16-bit values, where the `int` product of the interpolation is defined); an unset
texel with no set texel on one of its sides stays unset and keeps its value (0, as
allocated). -/
def TexelHoleFilled (width : Nat) (before after : BlendBuffers) (y j : Nat) : Prop :=
  (before.isSet (y * width + j) = true →
      after.isSet (y * width + j) = true
        ∧ after.camMap (y * width + j) = before.camMap (y * width + j))
    ∧ (before.isSet (y * width + j) = false →
        (∃ a e, a < j ∧ j < e ∧ e < width
          ∧ before.isSet (y * width + a) = true ∧ before.isSet (y * width + e) = true) →
        after.isSet (y * width + j) = true
          ∧ (width ≤ 32768 → (∀ x, x < width → before.camMap (y * width + x) < 65536) →
              ∀ lo hi,
                (∀ x, x < width → before.isSet (y * width + x) = true →
                  lo ≤ before.camMap (y * width + x) ∧ before.camMap (y * width + x) ≤ hi) →
                lo ≤ after.camMap (y * width + j) ∧ after.camMap (y * width + j) ≤ hi))
    ∧ (before.isSet (y * width + j) = false →
        ((∀ a, a < j → before.isSet (y * width + a) = false)
          ∨ (∀ e, j < e → e < width → before.isSet (y * width + e) = false)) →
        after.isSet (y * width + j) = false
          ∧ after.camMap (y * width + j) = before.camMap (y * width + j))

/-- The invariant of the loop over the rows at row `k`: the rows from `k` on are untouched,
and every column of the rows before `k` is filled from the original row. -/
def RowsInv (width : Nat) (before : BlendBuffers) (k : Nat) (t : BlendBuffers) : Prop :=
  (∀ i, k * width ≤ i → t.camMap i = before.camMap i ∧ t.isSet i = before.isSet i)
    ∧ ∀ y, y < k → ∀ j, j < width → ColumnFilled width (y * width) before t j

/-- A row with unset texels on both sides of its set texels: `[_, 10, _, _, 50, _]`. -/
def rowWithMargins : BlendBuffers := buffersOfRow [none, some 10, none, none, some 50, none]

/-! ## The orientation of a committed calibration -/

/-- The canonical forward vector (1, 0, 0) rotated by `yawPitchRoll` of the angles of `v`. -/
def rotatedForward (L : Libm) (v : Vec9) : Vec3 :=
  ((yawPitchRoll L v.x6 v.x7 v.x8).mulVec ⟨1, 0, 0, 0⟩).xyz

/-- The canonical up vector (0, 0, 1) rotated by `yawPitchRoll` of the angles of `v`. -/
def rotatedUp (L : Libm) (v : Vec9) : Vec3 :=
  ((yawPitchRoll L v.x6 v.x7 v.x8).mulVec ⟨0, 0, 1, 0⟩).xyz

/-- The math library is exact at the angle `a`: `cos² a + sin² a = 1`. -/
def Libm.Pythagorean (L : Libm) (a : ℚ) : Prop := L.cos a ^ 2 + L.sin a ^ 2 = 1

/-- The winning vector of the search that `Camera::doCalibration` runs on the camera. -/
def Camera.winning {σ : Type} (L : Libm) (G : Gsl σ) (rand : Nat → ℚ) (c : Camera) : Best :=
  { c with calibrationCalledOnce := true }.search L G rand

/-- The vector the minimiser `gslPerfect` reports. -/
def perfectValues : Vec9 := ⟨50, 1 / 4, 3 / 4, 1, 2, 3, 0, 0, 0⟩

/-- The minimiser after `k` iterations, whatever their status. -/
def iterates {σ : Type} (G : Gsl σ) : Nat → σ → σ
  | 0, m => m
  | k + 1, m => iterates G k (G.iterate m).2

/-- A math library given by a table that is exact, in the sense `cos² + sin² = 1`, at the
arguments 1, 2 and 3, with the values of the Pythagorean triples 3-4-5, 5-12-13 and 8-15-17;
`sqrt 1 = 1`. -/
def libmTriples : Libm :=
  { tan := fun _ => 1
    cos := fun x => if x = 1 then 3 / 5 else if x = 2 then 5 / 13 else if x = 3 then 8 / 17 else 1
    sin := fun x =>
      if x = 1 then 4 / 5 else if x = 2 then 12 / 13 else if x = 3 then 15 / 17 else 0
    sqrt := fun x => if x = 1 then 1 else 0
    pi := M_PI }

/-- A winning vector with three different non-zero angles: field of view 50, principal point
(1/4, 3/4), eye (1, 2, 3), yaw 1, pitch 2, roll 3. -/
def rotatedValues : Vec9 := ⟨50, 1 / 4, 3 / 4, 1, 2, 3, 1, 2, 3⟩

/-- A minimiser that reports, after one iteration, the residual 0 at `rotatedValues`, whatever
the start. -/
def gslRotated : Gsl Vec9 :=
  { alloc := ⟨0, 0, 0, 0, 0, 0, 0, 0, 0⟩
    set := fun _ _ x _ => x
    iterate := fun _ => (0, rotatedValues)
    size := fun _ => 0
    minimum := fun _ => 0
    x := fun m => m }

/-! # Theorems -/

/-! ## Lemmas on the search -/

/-- The count of `Camera::doCalibration` is the number of set points. -/
theorem pointsSet_eq_countP (c : Camera) :
    c.pointsSet = c.calibrationPoints.countP (fun point => point.isSet) := by
  unfold Camera.pointsSet
  suffices h : ∀ (l : List CalibrationPoint) (n : Nat),
      l.foldl (fun n point => if point.isSet then n + 1 else n) n
        = n + l.countP (fun point => point.isSet) by
    simpa using h c.calibrationPoints 0
  intro l
  induction l with
  | nil => intro n; simp
  | cons p ps ih =>
    intro n
    cases hp : p.isSet <;> (simp [List.foldl, List.countP_cons, hp, ih]; try omega)

/-- The sentinel is above the residual 0.5 at which a trial stops. -/
theorem DBL_MAX_gt_half : DBL_MAX > 1 / 2 := by
  norm_num [DBL_MAX]

/-- A trial whose first iteration reports an error leaves `localMinimum` at `DBL_MAX`. -/
theorem minimizeLoop_first_error {σ : Type} (G : Gsl σ) (fuel : Nat) (m : σ)
    (h : (G.iterate m).1 ≠ 0) :
    minimizeLoop G (fuel + 1) m GSL_CONTINUE DBL_MAX = ((G.iterate m).2, DBL_MAX) := by
  rw [minimizeLoop, if_pos ⟨rfl, DBL_MAX_gt_half⟩]
  dsimp only
  rw [if_pos h]

/-- With a minimiser that always fails, a trial does not change a best whose value is
`DBL_MAX`. -/
theorem runTrial_failing {σ : Type} (G : Gsl σ) (h : ∀ m, (G.iterate m).1 ≠ 0) (best : Best)
    (m : σ) (hb : best.minValue = DBL_MAX) : (runTrial G best m).2 = best := by
  unfold runTrial
  rw [show (10000 : Nat) = 9999 + 1 from rfl, minimizeLoop_first_error G 9999 m (h m)]
  simp [reduceBest, hb]

/-- With a minimiser that always fails, the trials of one task leave the best untouched. -/
theorem coarse_foldl_failing {σ : Type} (G : Gsl σ) (h : ∀ m, (G.iterate m).1 ≠ 0)
    (rand : Nat → ℚ) (f : Vec9 → ℚ) (eye : Vec3) (l : List (ℚ × ℚ)) (st : Coarse σ)
    (hb : st.best.minValue = DBL_MAX) :
    (l.foldl (coarseTrial G rand f eye) st).best = st.best := by
  induction l generalizing st with
  | nil => rfl
  | cons a l ih =>
    have h1 : (coarseTrial G rand f eye st a).best = st.best := by
      simp only [coarseTrial]
      exact runTrial_failing G h _ _ hb
    rw [List.foldl_cons, ih _ (by rw [h1]; exact hb), h1]

/-- With a minimiser that always fails, the tasks of the first phase leave the best untouched. -/
theorem coarseTask_foldl_failing {σ : Type} (G : Gsl σ) (h : ∀ m, (G.iterate m).1 ≠ 0)
    (rand : Nat → ℚ) (f : Vec9 → ℚ) (eye : Vec3) (l : List Nat) (acc : Nat × Best)
    (hb : acc.2.minValue = DBL_MAX) :
    (l.foldl (coarseTask G rand f eye) acc).2 = acc.2 := by
  induction l generalizing acc with
  | nil => rfl
  | cons a l ih =>
    have h1 : (coarseTask G rand f eye acc a).2 = acc.2 := by
      simp only [coarseTask]
      exact coarse_foldl_failing G h rand f eye grid _ hb
    rw [List.foldl_cons, ih _ (by rw [h1]; exact hb), h1]

/-- With a minimiser that always fails, the second phase leaves the best untouched. -/
theorem fine_foldl_failing {σ : Type} (G : Gsl σ) (h : ∀ m, (G.iterate m).1 ≠ 0)
    (f : Vec9 → ℚ) (l : List Nat) (best : Best) (hb : best.minValue = DBL_MAX) :
    l.foldl (fineTrial G f) best = best := by
  induction l generalizing best with
  | nil => rfl
  | cons a l ih =>
    have h1 : fineTrial G f best a = best := by
      simp only [fineTrial]
      exact runTrial_failing G h _ _ hb
    rw [List.foldl_cons, h1, ih _ hb]

/-- With a minimiser that always fails, the search ends where it started: `minValue` is
`DBL_MAX` and `selectedValues` is all zero. -/
theorem calibrationSearch_failing {σ : Type} (G : Gsl σ) (h : ∀ m, (G.iterate m).1 ≠ 0)
    (rand : Nat → ℚ) (f : Vec9 → ℚ) (eye : Vec3) :
    calibrationSearch G rand f eye = ⟨DBL_MAX, ⟨0, 0, 0, 0, 0, 0, 0, 0, 0⟩⟩ := by
  have h1 : coarseSearch G rand f eye = ⟨DBL_MAX, ⟨0, 0, 0, 0, 0, 0, 0, 0, 0⟩⟩ := by
    unfold coarseSearch
    rw [coarseTask_foldl_failing G h rand f eye _ _ rfl]
  unfold calibrationSearch
  rw [h1, fine_foldl_failing G h f _ _ rfl]

/-- The failing minimiser fails at every iteration. -/
theorem gslFailing_error : ∀ m, (gslFailing.iterate m).1 ≠ 0 := by
  intro m; simp [gslFailing]

/-- The six points of the scenario are all set. -/
theorem sixPoints_countP (a b : Bool) :
    (cameraWith sixPoints a b).calibrationPoints.countP (fun point => point.isSet) = 6 := by
  simp [cameraWith, sixPoints, setPoint]

/-- A locked fov survives the commit. -/
theorem commit_fov_locked (L : Libm) (c : Camera) (sel : Vec9) (h : c.fovLocked = true) :
    (c.commit L sel).fov = c.fov := by
  simp [Camera.commit, h]

/-- A locked principal point survives the commit. -/
theorem commit_principalPoint_locked (L : Libm) (c : Camera) (sel : Vec9)
    (h : c.principalPointLocked = true) :
    (c.commit L sel).cx = c.cx ∧ (c.commit L sel).cy = c.cy := by
  simp [Camera.commit, h]

/-- The three outcomes of `Camera::doCalibration`. -/
theorem doCalibration_cases {σ : Type} (L : Libm) (G : Gsl σ) (rand : Nat → ℚ) (c : Camera) :
    c.doCalibration L G rand = (false, c)
      ∨ c.doCalibration L G rand = (true, { c with calibrationCalledOnce := true })
      ∨ ∃ sel, c.doCalibration L G rand
          = (true, { c with calibrationCalledOnce := true }.commit L sel) := by
  unfold Camera.doCalibration
  by_cases h1 : c.pointsSet < 6
  · left; rw [if_pos h1]
  · right
    rw [if_neg h1]
    by_cases h2 : ({ c with calibrationCalledOnce := true }.search L G rand).minValue > 1000
    · left; exact if_pos h2
    · right; exact ⟨_, if_neg h2⟩

/-- With at least 6 set points and a best residual above 1000, `Camera::doCalibration` returns
true and only raises the calibration-called-once flag. -/
theorem doCalibration_rejected {σ : Type} (L : Libm) (G : Gsl σ) (rand : Nat → ℚ)
    (c : Camera) (h6 : 6 ≤ c.calibrationPoints.countP (fun point => point.isSet))
    (hbad : ({ c with calibrationCalledOnce := true }.search L G rand).minValue > 1000) :
    c.doCalibration L G rand = (true, { c with calibrationCalledOnce := true }) := by
  unfold Camera.doCalibration
  rw [if_neg (by rw [pointsSet_eq_countP]; omega)]
  exact if_pos hbad

/-- With a minimiser that always fails the best residual of a camera's search is above 1000. -/
theorem search_failing_rejected {σ : Type} (L : Libm) (G : Gsl σ)
    (h : ∀ m, (G.iterate m).1 ≠ 0) (rand : Nat → ℚ) (c : Camera) :
    (c.search L G rand).minValue > 1000 := by
  unfold Camera.search
  rw [calibrationSearch_failing G h]
  norm_num [DBL_MAX]

/-! ## C1 to C4: `Camera::doCalibration` -/

/-- C1: with fewer than 6 calibration points that have `isSet = true`,
`Camera::doCalibration` returns false and the camera afterwards is the camera before, in every
field (fov, cx, cy, eye, target, up, the point list, the selected index, the
calibration-called-once flag and all the others). -/
theorem C1_doCalibration_rejects_below_six {σ : Type} (L : Libm) (G : Gsl σ) (rand : Nat → ℚ)
    (c : Camera) (h : c.calibrationPoints.countP (fun point => point.isSet) < 6) :
    c.doCalibration L G rand = (false, c) := by
  unfold Camera.doCalibration
  rw [if_pos (by rw [pointsSet_eq_countP]; exact h)]

/-- C1 at a camera with five set points. -/
theorem C1_doCalibration_rejects_below_six_witness :
    (cameraWith (sixPoints.take 5) false false).calibrationPoints.countP
        (fun point => point.isSet) < 6
      ∧ (cameraWith (sixPoints.take 5) false false).doCalibration libmTable gslPerfect
          (fun _ => 1 / 2) = (false, cameraWith (sixPoints.take 5) false false) :=
  ⟨by simp [cameraWith, sixPoints, setPoint],
   C1_doCalibration_rejects_below_six libmTable gslPerfect (fun _ => 1 / 2)
     (cameraWith (sixPoints.take 5) false false) (by simp [cameraWith, sixPoints, setPoint])⟩

/-- C2: for every point set and every behaviour of the minimiser, when the fov attribute is
locked the fov after `Camera::doCalibration` is the fov before, and when the principalPoint
attribute is locked cx and cy after the call are cx and cy before. -/
theorem C2_locked_parameters_unchanged {σ : Type} (L : Libm) (G : Gsl σ) (rand : Nat → ℚ)
    (c : Camera) :
    (c.fovLocked = true → (c.doCalibration L G rand).2.fov = c.fov)
      ∧ (c.principalPointLocked = true →
          (c.doCalibration L G rand).2.cx = c.cx ∧ (c.doCalibration L G rand).2.cy = c.cy) := by
  rcases doCalibration_cases L G rand c with h | h | ⟨sel, h⟩
  · rw [h]; exact ⟨fun _ => rfl, fun _ => ⟨rfl, rfl⟩⟩
  · rw [h]; exact ⟨fun _ => rfl, fun _ => ⟨rfl, rfl⟩⟩
  · rw [h]
    exact ⟨fun hl => commit_fov_locked L { c with calibrationCalledOnce := true } sel hl,
      fun hl => commit_principalPoint_locked L { c with calibrationCalledOnce := true } sel hl⟩

/-- C2 at a camera with both attributes locked. -/
theorem C2_locked_parameters_unchanged_witness :
    (cameraWith sixPoints true true).fovLocked = true
      ∧ (cameraWith sixPoints true true).principalPointLocked = true
      ∧ ((cameraWith sixPoints true true).doCalibration libmTable gslPerfect
          (fun _ => 1 / 2)).2.fov = (cameraWith sixPoints true true).fov
      ∧ ((cameraWith sixPoints true true).doCalibration libmTable gslPerfect
          (fun _ => 1 / 2)).2.cx = (cameraWith sixPoints true true).cx
      ∧ ((cameraWith sixPoints true true).doCalibration libmTable gslPerfect
          (fun _ => 1 / 2)).2.cy = (cameraWith sixPoints true true).cy :=
  ⟨rfl, rfl,
   (C2_locked_parameters_unchanged libmTable gslPerfect (fun _ => 1 / 2)
     (cameraWith sixPoints true true)).1 rfl,
   ((C2_locked_parameters_unchanged libmTable gslPerfect (fun _ => 1 / 2)
     (cameraWith sixPoints true true)).2 rfl).1,
   ((C2_locked_parameters_unchanged libmTable gslPerfect (fun _ => 1 / 2)
     (cameraWith sixPoints true true)).2 rfl).2⟩

/-- C3: with at least 6 set points, when the best residual after both search phases is above
1000 the camera after `Camera::doCalibration` has the fov, cx, cy, eye, target and up it had
before, and its parameters-updated flag is the one it had before. -/
theorem C3_rejected_result_not_committed {σ : Type} (L : Libm) (G : Gsl σ) (rand : Nat → ℚ)
    (c : Camera) (h6 : 6 ≤ c.calibrationPoints.countP (fun point => point.isSet))
    (hbad : ({ c with calibrationCalledOnce := true }.search L G rand).minValue > 1000) :
    (c.doCalibration L G rand).2 = { c with calibrationCalledOnce := true }
      ∧ (c.doCalibration L G rand).2.fov = c.fov
      ∧ (c.doCalibration L G rand).2.cx = c.cx
      ∧ (c.doCalibration L G rand).2.cy = c.cy
      ∧ (c.doCalibration L G rand).2.eye = c.eye
      ∧ (c.doCalibration L G rand).2.target = c.target
      ∧ (c.doCalibration L G rand).2.up = c.up
      ∧ (c.doCalibration L G rand).2.updatedParams = c.updatedParams := by
  rw [doCalibration_rejected L G rand c h6 hbad]
  exact ⟨rfl, rfl, rfl, rfl, rfl, rfl, rfl, rfl⟩

/-- C3 at the six points of the scenario with a minimiser that always fails: the best
residual stays at `DBL_MAX`. -/
theorem C3_rejected_result_not_committed_witness :
    (6 ≤ (cameraWith sixPoints false false).calibrationPoints.countP (fun point => point.isSet))
      ∧ ({ cameraWith sixPoints false false with calibrationCalledOnce := true }.search
          libmTable gslFailing (fun _ => 1 / 2)).minValue > 1000
      ∧ ((cameraWith sixPoints false false).doCalibration libmTable gslFailing
          (fun _ => 1 / 2)).2.fov = (cameraWith sixPoints false false).fov :=
  ⟨le_of_eq (sixPoints_countP false false).symm,
   search_failing_rejected libmTable gslFailing gslFailing_error _ _,
   (C3_rejected_result_not_committed libmTable gslFailing (fun _ => 1 / 2)
    (cameraWith sixPoints false false) (le_of_eq (sixPoints_countP false false).symm)
    (search_failing_rejected libmTable gslFailing gslFailing_error _ _)).2.1⟩

/-- C4, the code at a failing input: six set points and a minimiser that always fails. The
best residual is `DBL_MAX`, above 1000, nothing is committed, and the call returns true. -/
theorem C4_rejected_calibration_returns_true :
    ({ cameraWith sixPoints false false with calibrationCalledOnce := true }.search
        libmTable gslFailing (fun _ => 1 / 2)).minValue > 1000
      ∧ (cameraWith sixPoints false false).doCalibration libmTable gslFailing (fun _ => 1 / 2)
        = (true, { cameraWith sixPoints false false with calibrationCalledOnce := true }) :=
  ⟨search_failing_rejected libmTable gslFailing gslFailing_error _ _,
   doCalibration_rejected libmTable gslFailing (fun _ => 1 / 2) (cameraWith sixPoints false false)
     (le_of_eq (sixPoints_countP false false).symm)
     (search_failing_rejected libmTable gslFailing gslFailing_error _ _)⟩

/-! ## Lemmas on the calibration-point store -/

/-- What the search loop of `addCalibrationPoint` returns is the first position of the world
coordinate. -/
theorem findWorld_some (w : Vec3) (l : List CalibrationPoint) (k i : Nat)
    (h : findWorld w l k = some i) :
    k ≤ i ∧ i - k < l.length ∧ (∃ p, l[i - k]? = some p ∧ p.world = w)
      ∧ ∀ j p, j < i - k → l[j]? = some p → p.world ≠ w := by
  induction l generalizing k with
  | nil => simp [findWorld] at h
  | cons q qs ih =>
    unfold findWorld at h
    by_cases hq : q.world = w
    · rw [if_pos hq] at h
      cases h
      refine ⟨le_refl _, by simp, ⟨q, by simp, hq⟩, ?_⟩
      intro j p hj
      simp at hj
    · rw [if_neg hq] at h
      obtain ⟨h1, h2, ⟨p, hp, hpw⟩, h4⟩ := ih (k + 1) h
      have e : i - k = (i - (k + 1)) + 1 := by omega
      refine ⟨by omega, by simp only [List.length_cons]; omega, ⟨p, by rw [e]; simpa using hp, hpw⟩, ?_⟩
      intro j p' hj hget
      cases j with
      | zero =>
        simp at hget
        rw [← hget]; exact hq
      | succ j =>
        simp at hget
        exact h4 j p' (by omega) hget

/-- The search loop finds nothing exactly when the world coordinate is absent. -/
theorem findWorld_none (w : Vec3) (l : List CalibrationPoint) (k : Nat) :
    findWorld w l k = none ↔ w ∉ l.map (fun p => p.world) := by
  induction l generalizing k with
  | nil => simp [findWorld]
  | cons q qs ih =>
    unfold findWorld
    by_cases hq : q.world = w
    · simp [hq]
    · rw [if_neg hq, ih]
      simp only [List.map_cons, List.mem_cons, not_or]
      exact ⟨fun h => ⟨fun e => hq e.symm, h⟩, fun h => h.2⟩

/-- After a new point was pushed at the back, the search loop finds it at the last position. -/
theorem findWorld_append_new (w : Vec3) (l : List CalibrationPoint) (k : Nat)
    (h : findWorld w l k = none) :
    findWorld w (l ++ [CalibrationPoint.ofWorld w]) k = some (k + l.length) := by
  induction l generalizing k with
  | nil => simp [findWorld, CalibrationPoint.ofWorld]
  | cons q qs ih =>
    unfold findWorld at h
    by_cases hq : q.world = w
    · simp [hq] at h
    · rw [if_neg hq] at h
      show findWorld w (q :: (qs ++ [CalibrationPoint.ofWorld w])) k = _
      rw [findWorld, if_neg hq, ih (k + 1) h, List.length_cons]
      congr 1
      omega

/-- An assignment through `operator[]` that keeps the world coordinate keeps the list of world
coordinates. -/
theorem map_world_modifyAt (f : CalibrationPoint → CalibrationPoint)
    (hf : ∀ p, (f p).world = p.world) (i : Nat) (l : List CalibrationPoint) :
    (modifyAt f i l).map (fun p => p.world) = l.map (fun p => p.world) := by
  induction l generalizing i with
  | nil => cases i <;> rfl
  | cons q qs ih =>
    cases i with
    | zero => simp [modifyAt, hf]
    | succ i => simp [modifyAt, ih]

/-- The loop of the three-value removal leaves a sublist of the points. -/
theorem removeWorldLoop_sublist (w : Vec3) (unlessSet : Bool) (fuel i : Nat) (c : Camera) :
    (removeWorldLoop w unlessSet fuel i c).calibrationPoints.Sublist c.calibrationPoints := by
  induction fuel generalizing i c with
  | zero => exact List.Sublist.refl _
  | succ fuel ih =>
    unfold removeWorldLoop
    split
    · exact List.Sublist.refl _
    · split
      · split
        · exact ih _ _
        · exact (ih _ _).trans (List.eraseIdx_sublist _ _)
      · exact ih _ _

/-- The method `Camera::doCalibration` never touches the point list. -/
theorem doCalibration_calibrationPoints {σ : Type} (L : Libm) (G : Gsl σ) (rand : Nat → ℚ)
    (c : Camera) : (c.doCalibration L G rand).2.calibrationPoints = c.calibrationPoints := by
  rcases doCalibration_cases L G rand c with h | h | ⟨sel, h⟩
  · rw [h]
  · rw [h]
  · rw [h]; rfl

/-- Uniqueness of world coordinates is kept by `Camera::addCalibrationPoint`. -/
theorem addCalibrationPoint_uniqueWorld (c : Camera) (worldPoint : Values)
    (h : c.uniqueWorld) : (c.addCalibrationPoint worldPoint).2.uniqueWorld := by
  unfold Camera.addCalibrationPoint
  split
  · dsimp only
    split
    · exact h
    · rename_i hnone
      unfold Camera.uniqueWorld at *
      simp only [List.map_append, List.map_cons, List.map_nil]
      rw [List.nodup_append]
      refine ⟨h, List.nodup_singleton _, ?_⟩
      intro x hx hx'
      simp only [List.mem_singleton] at hx'
      subst hx'
      exact (findWorld_none _ _ 0).1 hnone hx
  · exact h

/-- Uniqueness of world coordinates is kept by `Camera::removeCalibrationPoint`. -/
theorem removeCalibrationPoint_uniqueWorld (L : Libm) (c : Camera) (point : Values)
    (unlessSet : Bool) (h : c.uniqueWorld) :
    (c.removeCalibrationPoint L point unlessSet).uniqueWorld := by
  unfold Camera.removeCalibrationPoint
  split
  · dsimp only
    split
    · split
      · exact h
      · exact h.sublist ((List.eraseIdx_sublist _ _).map _)
    · exact h
  · exact h.sublist ((removeWorldLoop_sublist _ _ _ _ _).map _)
  · exact h

/-- Uniqueness of world coordinates is kept by `Camera::setCalibrationPoint`. -/
theorem setCalibrationPoint_uniqueWorld (c : Camera) (screenPoint : Values) (r : Bool × Camera)
    (h : c.uniqueWorld) (hr : c.setCalibrationPoint screenPoint = some r) : r.2.uniqueWorld := by
  unfold Camera.setCalibrationPoint at hr
  split at hr
  · cases hr; exact h
  · split at hr
    · cases hr
      unfold Camera.uniqueWorld at *
      dsimp only
      rw [map_world_modifyAt]
      · exact h
      · intro p; rfl
    · cases hr

/-- Uniqueness of world coordinates is kept by `Camera::moveCalibrationPoint`. -/
theorem moveCalibrationPoint_uniqueWorld {σ : Type} (L : Libm) (G : Gsl σ) (rand : Nat → ℚ)
    (c : Camera) (dx dy : ℚ) (c' : Camera) (h : c.uniqueWorld)
    (hr : c.moveCalibrationPoint L G rand dx dy = some c') : c'.uniqueWorld := by
  unfold Camera.moveCalibrationPoint at hr
  split at hr
  · cases hr; exact h
  · split at hr
    · cases hr
    · dsimp only at hr
      split at hr
      · cases hr
        unfold Camera.uniqueWorld at *
        rw [doCalibration_calibrationPoints]
        dsimp only
        rw [map_world_modifyAt]
        · exact h
        · intro p; rfl
      · cases hr
        unfold Camera.uniqueWorld at *
        dsimp only
        rw [map_world_modifyAt]
        · exact h
        · intro p; rfl

/-! ## C5 and C6: the calibration-point list -/

/-- C5: for every camera and every world coordinate, a second `addCalibrationPoint` with the
same coordinate returns true and changes nothing: the point list (length, entries, order,
each entry's screen, isSet and weight) and every other field are as after the first call, and
the selected index is the first position whose world coordinate is the given one. -/
theorem C5_addCalibrationPoint_idempotent (c : Camera) (a b d : Value) (rest : Values) :
    (c.addCalibrationPoint (a :: b :: d :: rest)).2.addCalibrationPoint (a :: b :: d :: rest)
        = (true, (c.addCalibrationPoint (a :: b :: d :: rest)).2)
      ∧ ∃ i : Nat,
        ((c.addCalibrationPoint (a :: b :: d :: rest)).2.addCalibrationPoint
            (a :: b :: d :: rest)).2.selectedCalibrationPoint = (i : Int)
          ∧ i < (c.addCalibrationPoint (a :: b :: d :: rest)).2.calibrationPoints.length
          ∧ (∃ p, (c.addCalibrationPoint (a :: b :: d :: rest)).2.calibrationPoints[i]? = some p
              ∧ p.world = ⟨a.asFloat, b.asFloat, d.asFloat⟩)
          ∧ ∀ j p, j < i →
              (c.addCalibrationPoint (a :: b :: d :: rest)).2.calibrationPoints[j]? = some p →
              p.world ≠ ⟨a.asFloat, b.asFloat, d.asFloat⟩ := by
  -- the state after the first call, and where the search loop finds the coordinate in it
  have key : ∃ i : Nat,
      findWorld ⟨a.asFloat, b.asFloat, d.asFloat⟩
          (c.addCalibrationPoint (a :: b :: d :: rest)).2.calibrationPoints 0 = some i
        ∧ (c.addCalibrationPoint (a :: b :: d :: rest)).2.selectedCalibrationPoint = (i : Int) := by
    simp only [Camera.addCalibrationPoint]
    cases hf : findWorld ⟨a.asFloat, b.asFloat, d.asFloat⟩ c.calibrationPoints 0 with
    | some i => exact ⟨i, hf, rfl⟩
    | none =>
      refine ⟨c.calibrationPoints.length, ?_, ?_⟩
      · simpa using findWorld_append_new _ _ 0 hf
      · simp
  obtain ⟨i, hfind, hsel⟩ := key
  have hsecond :
      (c.addCalibrationPoint (a :: b :: d :: rest)).2.addCalibrationPoint (a :: b :: d :: rest)
        = (true, (c.addCalibrationPoint (a :: b :: d :: rest)).2) := by
    generalize (c.addCalibrationPoint (a :: b :: d :: rest)).2 = c1 at hfind hsel ⊢
    simp only [Camera.addCalibrationPoint, hfind]
    rw [← hsel]
  refine ⟨hsecond, i, ?_, ?_⟩
  · rw [hsecond]; exact hsel
  · obtain ⟨_, h2, h3, h4⟩ := findWorld_some _ _ 0 i hfind
    exact ⟨by simpa using h2, by simpa using h3, by simpa using h4⟩

/-- C6, the code at a failing input: on a camera whose only point has world coordinate
(0, 0, 0), so that world coordinates are unique, setting the `calibrationPoints` attribute to
the single tuple (0, 0, 0, 0, 0, 0) succeeds and leaves two entries with world coordinate
(0, 0, 0). -/
theorem C6_calibrationPoints_setter_duplicates :
    (cameraWith [CalibrationPoint.ofWorld ⟨0, 0, 0⟩] false false).uniqueWorld
      ∧ ∃ c', (cameraWith [CalibrationPoint.ofWorld ⟨0, 0, 0⟩] false false).setCalibrationPoints
            [.v [.f 0, .f 0, .f 0, .f 0, .f 0, .i 0]] = some (true, c')
          ∧ c'.calibrationPoints.map (fun p => p.world) = [⟨0, 0, 0⟩, ⟨0, 0, 0⟩]
          ∧ ¬ c'.uniqueWorld := by
  refine ⟨by simp [Camera.uniqueWorld, cameraWith], _, rfl, ?_, ?_⟩
  · simp [cameraWith, Camera.sendCalibrationPointsToObjects, CalibrationPoint.default,
      CalibrationPoint.ofWorld, Value.asFloat]
  · simp [Camera.uniqueWorld, cameraWith, Camera.sendCalibrationPointsToObjects,
      CalibrationPoint.default, CalibrationPoint.ofWorld, Value.asFloat]

/-! ## Lemmas on the objective -/

/-- The look-at matrix of the candidate at the origin, with the table of exact values. -/
theorem candidateLookAt_atOrigin (fov : ℚ) :
    candidateLookAt libmTable (candidateAtOrigin fov)
      = ⟨⟨0, 0, -1, 0⟩, ⟨-1, 0, 0, 0⟩, ⟨0, 1, 0, 0⟩, ⟨0, 0, 0, 1⟩⟩ := by
  simp [candidateLookAt, candidateAtOrigin, lookAt, yawPitchRoll, normalize, libmTable,
    Mat4.mulVec, Vec4.smul, Vec4.add, Vec4.xyz, Vec3.add, Vec3.sub, Vec3.smul, Vec3.dot,
    Vec3.cross]

/-- The summation loop of the objective adds up the increments of its body. -/
theorem foldl_summedDistanceStep (weighted : Bool) (lookM projM : Mat4) (viewport : Vec4)
    (img : CalibrationPoint → Vec3) (pts : List CalibrationPoint) (acc : ℚ) :
    ((pts.map (fun p => p.world)).zip ((pts.map img).zip (pts.map (fun p => p.weight)))).foldl
        (summedDistanceStep weighted lookM projM viewport) acc
      = acc + (pts.map (fun p =>
          summedDistanceStep weighted lookM projM viewport 0 (p.world, img p, p.weight))).sum := by
  induction pts generalizing acc with
  | nil => simp
  | cons q qs ih =>
    simp only [List.map_cons, List.zip_cons_cons, List.foldl_cons, List.sum_cons]
    rw [ih]
    have e : summedDistanceStep weighted lookM projM viewport acc (q.world, img q, q.weight)
        = acc + summedDistanceStep weighted lookM projM viewport 0 (q.world, img q, q.weight) := by
      unfold summedDistanceStep
      cases weighted <;> simp
    rw [e, add_assoc]

/-- Outside the rejected region the objective is the mean of the loop's increments: the squared
error in x and y without weighting, and with weighting the weight times the squared error in x
plus the squared error in y. -/
theorem objective_in_range (L : Libm) (c : Camera) (v : Vec9)
    (hr : ¬ (effectiveFov c v > 120 ∨ |effectiveCx c v - 1 / 2| > 1
      ∨ |effectiveCy c v - 1 / 2| > 1)) :
    cameraCalibration_f L v (some c)
      = if c.weightedCalibrationPoints then xWeightedMeanSquaredError L c v
        else meanSquaredError L c v := by
  unfold cameraCalibration_f
  dsimp only
  rw [if_neg (show ¬ ((if c.fovLocked = true then c.fov else gsl_vector_get v 0) > 120
      ∨ |(if c.principalPointLocked = true then c.cx else gsl_vector_get v 1) - 1 / 2| > 1
      ∨ |(if c.principalPointLocked = true then c.cy else gsl_vector_get v 2) - 1 / 2| > 1)
    from hr), foldl_summedDistanceStep, zero_add, List.length_map]
  cases hw : c.weightedCalibrationPoints
  · simp only [Bool.false_eq_true, if_false]
    unfold meanSquaredError Camera.setPoints
    congr 2
    apply List.map_congr_left
    intro p _
    simp only [summedDistanceStep, Bool.false_eq_true, if_false, errX2, errY2, candidatePixel,
      targetPixel, candidateLookAt, candidateFrustum, effectiveFov, effectiveCx, effectiveCy,
      gsl_vector_get]
    ring
  · simp only [if_true]
    unfold xWeightedMeanSquaredError Camera.setPoints
    congr 2
    apply List.map_congr_left
    intro p _
    simp only [summedDistanceStep, if_true, errX2, errY2, candidatePixel,
      targetPixel, candidateLookAt, candidateFrustum, effectiveFov, effectiveCx, effectiveCy,
      gsl_vector_get]
    ring

/-- The one-point camera is unlocked, so the effective parameters of the candidate at the
origin are the candidate's own. -/
theorem effective_atOrigin (weighted : Bool) (fov : ℚ) :
    effectiveFov (cameraOnePoint weighted) (candidateAtOrigin fov) = fov
      ∧ effectiveCx (cameraOnePoint weighted) (candidateAtOrigin fov) = 1 / 2
      ∧ effectiveCy (cameraOnePoint weighted) (candidateAtOrigin fov) = 1 / 2 := by
  simp [effectiveFov, effectiveCx, effectiveCy, cameraOnePoint, cameraWith, candidateAtOrigin]

/-- The candidate at the origin is outside the rejected region when its fov is at most 120. -/
theorem atOrigin_in_range (weighted : Bool) (fov : ℚ) (h : fov ≤ 120) :
    ¬ (effectiveFov (cameraOnePoint weighted) (candidateAtOrigin fov) > 120
      ∨ |effectiveCx (cameraOnePoint weighted) (candidateAtOrigin fov) - 1 / 2| > 1
      ∨ |effectiveCy (cameraOnePoint weighted) (candidateAtOrigin fov) - 1 / 2| > 1) := by
  obtain ⟨h1, h2, h3⟩ := effective_atOrigin weighted fov
  rw [h1, h2, h3]
  norm_num
  exact h

/-- The pixel of the world point (2, 1, 1) under the candidate at the origin with fov 90. -/
theorem candidatePixel_fov90 (weighted : Bool) :
    (candidatePixel libmTable (cameraOnePoint weighted) (candidateAtOrigin 90) ⟨2, 1, 1⟩).x = 128
      ∧ (candidatePixel libmTable (cameraOnePoint weighted) (candidateAtOrigin 90) ⟨2, 1, 1⟩).y
          = 384 := by
  obtain ⟨h1, h2, h3⟩ := effective_atOrigin weighted 90
  simp only [candidatePixel, candidateLookAt_atOrigin, candidateFrustum, h1, h2, h3]
  norm_num [Camera.computeProjectionMatrix, Camera.frustumBounds, frustum, project, libmTable,
    cameraOnePoint, cameraWith, Mat4.mulVec, Vec4.smul, Vec4.add, M_PI]

/-- The pixel of the world point (2, 1, 1) under the candidate at the origin with fov -90. -/
theorem candidatePixel_fovMinus90 (weighted : Bool) :
    (candidatePixel libmTable (cameraOnePoint weighted) (candidateAtOrigin (-90)) ⟨2, 1, 1⟩).x
        = 384
      ∧ (candidatePixel libmTable (cameraOnePoint weighted) (candidateAtOrigin (-90)) ⟨2, 1, 1⟩).y
          = 128 := by
  obtain ⟨h1, h2, h3⟩ := effective_atOrigin weighted (-90)
  simp only [candidatePixel, candidateLookAt_atOrigin, candidateFrustum, h1, h2, h3]
  norm_num [Camera.computeProjectionMatrix, Camera.frustumBounds, frustum, project, libmTable,
    cameraOnePoint, cameraWith, Mat4.mulVec, Vec4.smul, Vec4.add, M_PI]

/-- The set points of the one-point camera. -/
theorem cameraOnePoint_setPoints (weighted : Bool) :
    (cameraOnePoint weighted).setPoints
      = [{ world := ⟨2, 1, 1⟩, screen := ⟨0, 0⟩, isSet := true, weight := 1 / 2 }] := by
  simp [Camera.setPoints, cameraOnePoint, cameraWith]

/-- The squared errors of the one-point camera under the candidate with fov 90: the target
pixel is (256, 256), the projection (128, 384). -/
theorem errors_fov90 (weighted : Bool) :
    errX2 libmTable (cameraOnePoint weighted) (candidateAtOrigin 90)
        { world := ⟨2, 1, 1⟩, screen := ⟨0, 0⟩, isSet := true, weight := 1 / 2 } = 16384
      ∧ errY2 libmTable (cameraOnePoint weighted) (candidateAtOrigin 90)
        { world := ⟨2, 1, 1⟩, screen := ⟨0, 0⟩, isSet := true, weight := 1 / 2 } = 16384 := by
  obtain ⟨hx, hy⟩ := candidatePixel_fov90 weighted
  simp only [errX2, errY2, hx, hy, targetPixel]
  norm_num [cameraOnePoint, cameraWith]

/-- The squared errors of the one-point camera under the candidate with fov -90: the target
pixel is (256, 256), the projection (384, 128). -/
theorem errors_fovMinus90 (weighted : Bool) :
    errX2 libmTable (cameraOnePoint weighted) (candidateAtOrigin (-90))
        { world := ⟨2, 1, 1⟩, screen := ⟨0, 0⟩, isSet := true, weight := 1 / 2 } = 16384
      ∧ errY2 libmTable (cameraOnePoint weighted) (candidateAtOrigin (-90))
        { world := ⟨2, 1, 1⟩, screen := ⟨0, 0⟩, isSet := true, weight := 1 / 2 } = 16384 := by
  obtain ⟨hx, hy⟩ := candidatePixel_fovMinus90 weighted
  simp only [errX2, errY2, hx, hy, targetPixel]
  norm_num [cameraOnePoint, cameraWith]

/-! ## C7 to C10: `Camera::cameraCalibration_f` -/

/-- C7, as stated, fails: the candidate with field of view -90 (unlocked camera, principal
point at the centre) has an effective fov outside (0, 120], and the objective returns the
mean squared error 32768 of the one set point, not the sentinel. -/
theorem C7_nonpositive_fov_not_rejected :
    effectiveFov (cameraOnePoint false) (candidateAtOrigin (-90)) ≤ 0
      ∧ cameraCalibration_f libmTable (candidateAtOrigin (-90)) (some (cameraOnePoint false))
          = 32768
      ∧ cameraCalibration_f libmTable (candidateAtOrigin (-90)) (some (cameraOnePoint false))
          ≠ DBL_MAX := by
  have hval : cameraCalibration_f libmTable (candidateAtOrigin (-90))
      (some (cameraOnePoint false)) = 32768 := by
    rw [objective_in_range _ _ _ (atOrigin_in_range false (-90) (by norm_num))]
    obtain ⟨hx, hy⟩ := errors_fovMinus90 false
    simp only [meanSquaredError, cameraOnePoint_setPoints, List.map_cons, List.map_nil, hx, hy]
    norm_num [cameraOnePoint, cameraWith]
  refine ⟨?_, hval, ?_⟩
  · rw [(effective_atOrigin false (-90)).1]; norm_num
  · rw [hval]; norm_num [DBL_MAX]

/-- C7, amended: the objective returns the sentinel `DBL_MAX` for every candidate whose
effective field of view is above 120 or whose effective cx or cy lies outside [-0.5, 1.5]. -/
theorem C7_out_of_range_sentinel (L : Libm) (c : Camera) (v : Vec9)
    (h : effectiveFov c v > 120
      ∨ (effectiveCx c v < -1 / 2 ∨ effectiveCx c v > 3 / 2)
      ∨ (effectiveCy c v < -1 / 2 ∨ effectiveCy c v > 3 / 2)) :
    cameraCalibration_f L v (some c) = DBL_MAX := by
  have hcond : effectiveFov c v > 120 ∨ |effectiveCx c v - 1 / 2| > 1
      ∨ |effectiveCy c v - 1 / 2| > 1 := by
    rcases h with h | h | h
    · exact Or.inl h
    · refine Or.inr (Or.inl ?_)
      rw [gt_iff_lt, lt_abs]
      rcases h with h | h
      · right; linarith
      · left; linarith
    · refine Or.inr (Or.inr ?_)
      rw [gt_iff_lt, lt_abs]
      rcases h with h | h
      · right; linarith
      · left; linarith
  unfold cameraCalibration_f
  exact if_pos hcond

/-- C7 amended, at the candidate with field of view 121. -/
theorem C7_out_of_range_sentinel_witness :
    effectiveFov (cameraOnePoint false) (candidateAtOrigin 121) > 120
      ∧ cameraCalibration_f libmTable (candidateAtOrigin 121) (some (cameraOnePoint false))
          = DBL_MAX :=
  ⟨by rw [(effective_atOrigin false 121).1]; norm_num,
   C7_out_of_range_sentinel libmTable (cameraOnePoint false) (candidateAtOrigin 121)
     (Or.inl (by rw [(effective_atOrigin false 121).1]; norm_num))⟩

/-- C8: when the fov attribute is locked, two candidates that differ only in component 0 get
the same value, which is the value of the candidate with the camera's fov in component 0; when
the principalPoint attribute is locked, two candidates that differ only in components 1 and 2
get the same value, which is the value with the camera's cx and cy in components 1 and 2. -/
theorem C8_lock_by_substitution (L : Libm) (c : Camera) (v v' : Vec9) :
    (c.fovLocked = true → (∀ i : Fin 9, i ≠ 0 → gsl_vector_get v i = gsl_vector_get v' i) →
        cameraCalibration_f L v (some c) = cameraCalibration_f L v' (some c)
          ∧ cameraCalibration_f L v (some c)
              = cameraCalibration_f L { v with x0 := c.fov } (some c))
      ∧ (c.principalPointLocked = true →
          (∀ i : Fin 9, i ≠ 1 → i ≠ 2 → gsl_vector_get v i = gsl_vector_get v' i) →
        cameraCalibration_f L v (some c) = cameraCalibration_f L v' (some c)
          ∧ cameraCalibration_f L v (some c)
              = cameraCalibration_f L { v with x1 := c.cx, x2 := c.cy } (some c)) := by
  constructor
  · intro hl h
    have h1 := h 1 (by decide)
    have h2 := h 2 (by decide)
    have h3 := h 3 (by decide)
    have h4 := h 4 (by decide)
    have h5 := h 5 (by decide)
    have h6 := h 6 (by decide)
    have h7 := h 7 (by decide)
    have h8 := h 8 (by decide)
    simp only [gsl_vector_get] at h1 h2 h3 h4 h5 h6 h7 h8
    simp only [cameraCalibration_f, gsl_vector_get, hl, if_true, h1, h2, h3, h4, h5, h6, h7, h8,
      and_self]
  · intro hl h
    have h0 := h 0 (by decide) (by decide)
    have h3 := h 3 (by decide) (by decide)
    have h4 := h 4 (by decide) (by decide)
    have h5 := h 5 (by decide) (by decide)
    have h6 := h 6 (by decide) (by decide)
    have h7 := h 7 (by decide) (by decide)
    have h8 := h 8 (by decide) (by decide)
    simp only [gsl_vector_get] at h0 h3 h4 h5 h6 h7 h8
    simp only [cameraCalibration_f, gsl_vector_get, hl, if_true, h0, h3, h4, h5, h6, h7, h8,
      and_self]

/-- C8 at the six-point camera with both attributes locked: the candidates with field of view
10 and 200 get the same value, and so do the candidates with principal point (1/2, 1/2) and
(7, -3). -/
theorem C8_lock_by_substitution_witness :
    (cameraWith sixPoints true true).fovLocked = true
      ∧ (cameraWith sixPoints true true).principalPointLocked = true
      ∧ cameraCalibration_f libmTable (candidateAtOrigin 10) (some (cameraWith sixPoints true true))
          = cameraCalibration_f libmTable (candidateAtOrigin 200)
              (some (cameraWith sixPoints true true))
      ∧ cameraCalibration_f libmTable (candidateAtOrigin 10) (some (cameraWith sixPoints true true))
          = cameraCalibration_f libmTable { candidateAtOrigin 10 with x1 := 7, x2 := -3 }
              (some (cameraWith sixPoints true true)) :=
  ⟨rfl, rfl,
   ((C8_lock_by_substitution libmTable (cameraWith sixPoints true true) (candidateAtOrigin 10)
      (candidateAtOrigin 200)).1 rfl
      (by intro i hi; fin_cases i <;> first | exact absurd rfl hi | rfl)).1,
   ((C8_lock_by_substitution libmTable (cameraWith sixPoints true true) (candidateAtOrigin 10)
      { candidateAtOrigin 10 with x1 := 7, x2 := -3 }).2 rfl
      (by intro i h1 h2; fin_cases i <;> first | exact absurd rfl h1 | exact absurd rfl h2 | rfl)).1⟩

/-- The objective reads the point list only through its set points. -/
theorem objective_depends_on_setPoints (L : Libm) (c : Camera) (v : Vec9)
    (points : List CalibrationPoint)
    (h : points.filter (fun point => point.isSet)
      = c.calibrationPoints.filter (fun point => point.isSet)) :
    cameraCalibration_f L v (some { c with calibrationPoints := points })
      = cameraCalibration_f L v (some c) := by
  simp only [cameraCalibration_f, h, Camera.computeProjectionMatrix, Camera.frustumBounds]

/-- C9: with point weighting disabled and the effective parameters in the accepted range (fov
at most 120, cx and cy in [-0.5, 1.5]), the objective is the mean over the points with
`isSet = true` of `(px - u)^2 + (py - v)^2`, with `(u, v)` the stored target in pixels and
`(px, py)` the viewport projection of the world coordinate under the candidate; and a camera
that differs only in its unset points (the same set points in the same order) gets the same
value. -/
theorem C9_unweighted_objective_is_mean (L : Libm) (c : Camera) (v : Vec9)
    (hw : c.weightedCalibrationPoints = false)
    (hfov : effectiveFov c v ≤ 120)
    (hcx : -1 / 2 ≤ effectiveCx c v ∧ effectiveCx c v ≤ 3 / 2)
    (hcy : -1 / 2 ≤ effectiveCy c v ∧ effectiveCy c v ≤ 3 / 2) :
    cameraCalibration_f L v (some c)
        = (c.setPoints.map (fun p =>
            ((candidatePixel L c v p.world).x - (targetPixel c p).x) ^ 2
              + ((candidatePixel L c v p.world).y - (targetPixel c p).y) ^ 2)).sum
          / c.setPoints.length
      ∧ ∀ points : List CalibrationPoint,
          points.filter (fun point => point.isSet)
            = c.calibrationPoints.filter (fun point => point.isSet) →
          cameraCalibration_f L v (some { c with calibrationPoints := points })
            = cameraCalibration_f L v (some c) := by
  have hr : ¬ (effectiveFov c v > 120 ∨ |effectiveCx c v - 1 / 2| > 1
      ∨ |effectiveCy c v - 1 / 2| > 1) := by
    rintro (h | h | h)
    · linarith
    · rw [gt_iff_lt, lt_abs] at h
      rcases h with h | h <;> linarith [hcx.1, hcx.2]
    · rw [gt_iff_lt, lt_abs] at h
      rcases h with h | h <;> linarith [hcy.1, hcy.2]
  refine ⟨?_, fun points h => objective_depends_on_setPoints L c v points h⟩
  rw [objective_in_range L c v hr, hw]
  rfl

/-- C9 at the one-point camera without weighting and the candidate with field of view 90: the
value is 32768, and an added unset point does not change it. -/
theorem C9_unweighted_objective_is_mean_witness :
    (cameraOnePoint false).weightedCalibrationPoints = false
      ∧ effectiveFov (cameraOnePoint false) (candidateAtOrigin 90) ≤ 120
      ∧ cameraCalibration_f libmTable (candidateAtOrigin 90) (some (cameraOnePoint false))
          = ((cameraOnePoint false).setPoints.map (fun p =>
              ((candidatePixel libmTable (cameraOnePoint false) (candidateAtOrigin 90) p.world).x
                  - (targetPixel (cameraOnePoint false) p).x) ^ 2
                + ((candidatePixel libmTable (cameraOnePoint false) (candidateAtOrigin 90)
                    p.world).y - (targetPixel (cameraOnePoint false) p).y) ^ 2)).sum
            / (cameraOnePoint false).setPoints.length
      ∧ cameraCalibration_f libmTable (candidateAtOrigin 90)
          (some { cameraOnePoint false with
            calibrationPoints :=
              CalibrationPoint.ofWorld ⟨5, 5, 5⟩ :: (cameraOnePoint false).calibrationPoints })
          = cameraCalibration_f libmTable (candidateAtOrigin 90) (some (cameraOnePoint false)) :=
  have hfov : effectiveFov (cameraOnePoint false) (candidateAtOrigin 90) ≤ 120 := by
    rw [(effective_atOrigin false 90).1]; norm_num
  have hcx : -1 / 2 ≤ effectiveCx (cameraOnePoint false) (candidateAtOrigin 90)
      ∧ effectiveCx (cameraOnePoint false) (candidateAtOrigin 90) ≤ 3 / 2 := by
    rw [(effective_atOrigin false 90).2.1]; norm_num
  have hcy : -1 / 2 ≤ effectiveCy (cameraOnePoint false) (candidateAtOrigin 90)
      ∧ effectiveCy (cameraOnePoint false) (candidateAtOrigin 90) ≤ 3 / 2 := by
    rw [(effective_atOrigin false 90).2.2]; norm_num
  ⟨rfl, hfov,
   (C9_unweighted_objective_is_mean libmTable (cameraOnePoint false) (candidateAtOrigin 90) rfl
      hfov hcx hcy).1,
   (C9_unweighted_objective_is_mean libmTable (cameraOnePoint false) (candidateAtOrigin 90) rfl
      hfov hcx hcy).2 _ rfl⟩

/-- The unweighted objective of the one-point camera at the candidate with fov 90 is 32768. -/
theorem objective_unweighted_fov90 :
    cameraCalibration_f libmTable (candidateAtOrigin 90) (some (cameraOnePoint false))
      = 32768 := by
  rw [objective_in_range _ _ _ (atOrigin_in_range false 90 (by norm_num))]
  obtain ⟨hx, hy⟩ := errors_fov90 false
  simp only [meanSquaredError, cameraOnePoint_setPoints, List.map_cons, List.map_nil, hx, hy]
  norm_num [cameraOnePoint, cameraWith]

/-- C10, the code at a failing input: weighting enabled, one set point of weight 1/2 whose
squared reprojection error is 16384 in x and 16384 in y, parameters in range. The objective
returns 24576 = 1/2 * 16384 + 16384, the weight applied to the x component only; the mean of
weight times the whole squared error is 16384. -/
theorem C10_weight_applied_to_x_only :
    (cameraOnePoint true).weightedCalibrationPoints = true
      ∧ cameraCalibration_f libmTable (candidateAtOrigin 90) (some (cameraOnePoint true)) = 24576
      ∧ weightedMeanSquaredError libmTable (cameraOnePoint true) (candidateAtOrigin 90) = 16384
      ∧ cameraCalibration_f libmTable (candidateAtOrigin 90) (some (cameraOnePoint true))
          ≠ weightedMeanSquaredError libmTable (cameraOnePoint true) (candidateAtOrigin 90) := by
  obtain ⟨hx, hy⟩ := errors_fov90 true
  have hcode : cameraCalibration_f libmTable (candidateAtOrigin 90) (some (cameraOnePoint true))
      = 24576 := by
    rw [objective_in_range _ _ _ (atOrigin_in_range true 90 (by norm_num))]
    simp only [xWeightedMeanSquaredError, cameraOnePoint_setPoints, List.map_cons, List.map_nil,
      hx, hy]
    norm_num [cameraOnePoint, cameraWith]
  have hspec : weightedMeanSquaredError libmTable (cameraOnePoint true) (candidateAtOrigin 90)
      = 16384 := by
    simp only [weightedMeanSquaredError, cameraOnePoint_setPoints, List.map_cons, List.map_nil,
      hx, hy]
    norm_num
  refine ⟨rfl, hcode, hspec, ?_⟩
  rw [hcode, hspec]
  norm_num

/-! ## C11 to C13: objective at exact correspondences, frustum, view matrix -/

/-- A sum of a list of non-negative rationals is non-negative. -/
theorem sum_map_nonneg {α : Type} (f : α → ℚ) (l : List α) (h : ∀ a ∈ l, 0 ≤ f a) :
    0 ≤ (l.map f).sum := by
  induction l with
  | nil => simp
  | cons a l ih =>
    rw [List.map_cons, List.sum_cons]
    exact add_nonneg (h a (List.mem_cons_self a l))
      (ih (fun b hb => h b (List.mem_cons_of_mem a hb)))

/-- The sentinel is not negative. -/
theorem DBL_MAX_nonneg : 0 ≤ DBL_MAX := by
  unfold DBL_MAX
  exact Nat.cast_nonneg _

/-- C11: for every candidate in the accepted range and every camera with at least one set
point, when each set point's stored pixel target is the viewport projection of its world
coordinate under the candidate, the objective is 0, with and without weighting; and without
weighting the objective is never negative, whatever the candidate and the points. -/
theorem C11_exact_correspondences_zero (L : Libm) (c : Camera) (v : Vec9) :
    (c.setPoints ≠ [] →
      effectiveFov c v ≤ 120 →
      (-1 / 2 ≤ effectiveCx c v ∧ effectiveCx c v ≤ 3 / 2) →
      (-1 / 2 ≤ effectiveCy c v ∧ effectiveCy c v ≤ 3 / 2) →
      (∀ p ∈ c.setPoints, (candidatePixel L c v p.world).x = (targetPixel c p).x
        ∧ (candidatePixel L c v p.world).y = (targetPixel c p).y) →
      cameraCalibration_f L v (some c) = 0)
    ∧ (c.weightedCalibrationPoints = false → 0 ≤ cameraCalibration_f L v (some c)) := by
  constructor
  · intro _ hfov hcx hcy hexact
    have hr : ¬ (effectiveFov c v > 120 ∨ |effectiveCx c v - 1 / 2| > 1
        ∨ |effectiveCy c v - 1 / 2| > 1) := by
      rintro (h | h | h)
      · linarith
      · rw [gt_iff_lt, lt_abs] at h
        rcases h with h | h <;> linarith [hcx.1, hcx.2]
      · rw [gt_iff_lt, lt_abs] at h
        rcases h with h | h <;> linarith [hcy.1, hcy.2]
    rw [objective_in_range L c v hr]
    have hx : ∀ p ∈ c.setPoints, errX2 L c v p = 0 := by
      intro p hp
      simp [errX2, (hexact p hp).1]
    have hy : ∀ p ∈ c.setPoints, errY2 L c v p = 0 := by
      intro p hp
      simp [errY2, (hexact p hp).2]
    have h1 : c.setPoints.map (fun p => errX2 L c v p + errY2 L c v p)
        = c.setPoints.map (fun _ => (0 : ℚ)) :=
      List.map_congr_left (fun p hp => by rw [hx p hp, hy p hp, add_zero])
    have h2 : c.setPoints.map (fun p => p.weight * errX2 L c v p + errY2 L c v p)
        = c.setPoints.map (fun _ => (0 : ℚ)) :=
      List.map_congr_left (fun p hp => by rw [hx p hp, hy p hp, mul_zero, add_zero])
    have h0 : (c.setPoints.map (fun _ => (0 : ℚ))).sum = 0 := by simp
    split
    · rw [xWeightedMeanSquaredError, h2, h0, zero_div]
    · rw [meanSquaredError, h1, h0, zero_div]
  · intro hw
    by_cases hr : effectiveFov c v > 120 ∨ |effectiveCx c v - 1 / 2| > 1
        ∨ |effectiveCy c v - 1 / 2| > 1
    · have hs : cameraCalibration_f L v (some c) = DBL_MAX := by
        unfold cameraCalibration_f
        exact if_pos hr
      rw [hs]
      exact DBL_MAX_nonneg
    · rw [objective_in_range L c v hr, hw]
      simp only [Bool.false_eq_true, if_false]
      unfold meanSquaredError
      apply div_nonneg
      · apply sum_map_nonneg
        intro p _
        exact add_nonneg (sq_nonneg _) (sq_nonneg _)
      · exact Nat.cast_nonneg _

/-- The exact-correspondence camera is unlocked: the effective parameters of the candidate at
the origin are the candidate's own. -/
theorem effective_exactPoint (weighted : Bool) (fov : ℚ) :
    effectiveFov (cameraExactPoint weighted) (candidateAtOrigin fov) = fov
      ∧ effectiveCx (cameraExactPoint weighted) (candidateAtOrigin fov) = 1 / 2
      ∧ effectiveCy (cameraExactPoint weighted) (candidateAtOrigin fov) = 1 / 2 := by
  simp [effectiveFov, effectiveCx, effectiveCy, cameraExactPoint, cameraWith, candidateAtOrigin]

/-- The set points of the exact-correspondence camera. -/
theorem cameraExactPoint_setPoints (weighted : Bool) :
    (cameraExactPoint weighted).setPoints
      = [{ world := ⟨2, 1, 1⟩, screen := ⟨-1 / 2, 1 / 2⟩, isSet := true, weight := 1 / 2 }] := by
  simp [Camera.setPoints, cameraExactPoint, cameraWith]

/-- The stored target of the exact-correspondence camera is the projection (128, 384) of its
world point under the candidate at the origin with field of view 90. -/
theorem cameraExactPoint_exact (weighted : Bool) :
    ∀ p ∈ (cameraExactPoint weighted).setPoints,
      (candidatePixel libmTable (cameraExactPoint weighted) (candidateAtOrigin 90) p.world).x
          = (targetPixel (cameraExactPoint weighted) p).x
        ∧ (candidatePixel libmTable (cameraExactPoint weighted) (candidateAtOrigin 90) p.world).y
          = (targetPixel (cameraExactPoint weighted) p).y := by
  intro p hp
  rw [cameraExactPoint_setPoints, List.mem_singleton] at hp
  subst hp
  obtain ⟨h1, h2, h3⟩ := effective_exactPoint weighted 90
  simp only [candidatePixel, candidateLookAt_atOrigin, candidateFrustum, h1, h2, h3, targetPixel]
  norm_num [Camera.computeProjectionMatrix, Camera.frustumBounds, frustum, project, libmTable,
    cameraExactPoint, cameraWith, Mat4.mulVec, Vec4.smul, Vec4.add, M_PI]

/-- C11 at the exact-correspondence camera and the candidate with field of view 90: the
objective is 0 with weighting and without, and the unweighted objective of the one-point
camera of the other evaluations is not negative. -/
theorem C11_exact_correspondences_zero_witness :
    (cameraExactPoint true).setPoints ≠ []
      ∧ cameraCalibration_f libmTable (candidateAtOrigin 90) (some (cameraExactPoint true)) = 0
      ∧ cameraCalibration_f libmTable (candidateAtOrigin 90) (some (cameraExactPoint false)) = 0
      ∧ 0 ≤ cameraCalibration_f libmTable (candidateAtOrigin 90) (some (cameraOnePoint false)) :=
  have hne : ∀ weighted, (cameraExactPoint weighted).setPoints ≠ [] := by
    intro weighted; rw [cameraExactPoint_setPoints]; exact List.cons_ne_nil _ _
  have hfov : ∀ weighted,
      effectiveFov (cameraExactPoint weighted) (candidateAtOrigin 90) ≤ 120 := by
    intro weighted; rw [(effective_exactPoint weighted 90).1]; norm_num
  have hcx : ∀ weighted,
      -1 / 2 ≤ effectiveCx (cameraExactPoint weighted) (candidateAtOrigin 90)
        ∧ effectiveCx (cameraExactPoint weighted) (candidateAtOrigin 90) ≤ 3 / 2 := by
    intro weighted; rw [(effective_exactPoint weighted 90).2.1]; norm_num
  have hcy : ∀ weighted,
      -1 / 2 ≤ effectiveCy (cameraExactPoint weighted) (candidateAtOrigin 90)
        ∧ effectiveCy (cameraExactPoint weighted) (candidateAtOrigin 90) ≤ 3 / 2 := by
    intro weighted; rw [(effective_exactPoint weighted 90).2.2]; norm_num
  ⟨hne true,
   (C11_exact_correspondences_zero libmTable (cameraExactPoint true) (candidateAtOrigin 90)).1
     (hne true) (hfov true) (hcx true) (hcy true) (cameraExactPoint_exact true),
   (C11_exact_correspondences_zero libmTable (cameraExactPoint false) (candidateAtOrigin 90)).1
     (hne false) (hfov false) (hcx false) (hcy false) (cameraExactPoint_exact false),
   (C11_exact_correspondences_zero libmTable (cameraOnePoint false) (candidateAtOrigin 90)).2
     rfl⟩

/-- C12: for every field of view, near plane and viewport size (and every math library), with
cx = cy = 0.5 the frustum bounds of `Camera::computeProjectionMatrix` satisfy left = -right and
bottom = -top; and when moreover the tangent of fov * M_PI / 360 is 1 (fov = 90) and width =
height (not zero), top = near and right = near. -/
theorem C12_frustum_symmetric (L : Libm) (c : Camera) (fov : ℚ) :
    ((c.frustumBounds L fov (1 / 2) (1 / 2)).1 = -(c.frustumBounds L fov (1 / 2) (1 / 2)).2.1
      ∧ (c.frustumBounds L fov (1 / 2) (1 / 2)).2.2.1
          = -(c.frustumBounds L fov (1 / 2) (1 / 2)).2.2.2)
    ∧ (L.tan (fov * L.pi / 360) = 1 → c.width = c.height → c.height ≠ 0 →
        (c.frustumBounds L fov (1 / 2) (1 / 2)).2.2.2 = c.near
          ∧ (c.frustumBounds L fov (1 / 2) (1 / 2)).2.1 = c.near) := by
  refine ⟨⟨?_, ?_⟩, ?_⟩
  · simp only [Camera.frustumBounds]
    ring
  · simp only [Camera.frustumBounds]
    ring
  · intro ht hw hh
    have hh' : (c.height : ℚ) ≠ 0 := by exact_mod_cast hh
    simp only [Camera.frustumBounds, ht, hw]
    constructor
    · ring
    · field_simp

/-- C12 at fov = 90 on the 512 x 512 camera with near plane 1/10: the bounds are
(-1/10, 1/10, -1/10, 1/10). -/
theorem C12_frustum_symmetric_witness :
    libmTable.tan (90 * libmTable.pi / 360) = 1
      ∧ (cameraWith [] false false).width = (cameraWith [] false false).height
      ∧ (cameraWith [] false false).height ≠ 0
      ∧ ((cameraWith [] false false).frustumBounds libmTable 90 (1 / 2) (1 / 2)).2.2.2
          = (cameraWith [] false false).near
      ∧ ((cameraWith [] false false).frustumBounds libmTable 90 (1 / 2) (1 / 2)).2.1
          = (cameraWith [] false false).near
      ∧ ((cameraWith [] false false).frustumBounds libmTable 90 (1 / 2) (1 / 2)).1
          = -((cameraWith [] false false).frustumBounds libmTable 90 (1 / 2) (1 / 2)).2.1 :=
  have ht : libmTable.tan (90 * libmTable.pi / 360) = 1 := by simp [libmTable]
  have hw : (cameraWith [] false false).width = (cameraWith [] false false).height := rfl
  have hh : (cameraWith [] false false).height ≠ 0 := by simp [cameraWith]
  ⟨ht, hw, hh,
   ((C12_frustum_symmetric libmTable (cameraWith [] false false) 90).2 ht hw hh).1,
   ((C12_frustum_symmetric libmTable (cameraWith [] false false) 90).2 ht hw hh).2,
   (C12_frustum_symmetric libmTable (cameraWith [] false false) 90).1.1⟩

/-- Three rationals whose squares are the products of the two others are equal. -/
theorem eq_of_cyclic_squares (x y z : ℚ) (h1 : z * z - y * x = 0) (h2 : x * x - z * y = 0)
    (h3 : y * y - x * z = 0) : x = y ∧ y = z := by
  have a : (x - y) ^ 2 = 0 := by
    nlinarith [sq_nonneg (x - y), sq_nonneg (y - z), sq_nonneg (z - x)]
  have b : (y - z) ^ 2 = 0 := by
    nlinarith [sq_nonneg (x - y), sq_nonneg (y - z), sq_nonneg (z - x)]
  constructor
  · have := (pow_eq_zero_iff two_ne_zero).1 a
    linarith
  · have := (pow_eq_zero_iff two_ne_zero).1 b
    linarith

/-- C13, as stated, fails: with eye = target = (0, 0, 0) and the non-zero up vector (1, 1, 1)
the fallback target is (1, 1, 1); it differs from eye, but target - eye is parallel to up
(their cross product is zero), so the look-at matrix is degenerate. -/
theorem C13_fallback_parallel_to_up :
    (cameraAtOriginUp111.up ≠ ⟨0, 0, 0⟩)
      ∧ (cameraAtOriginUp111.computeViewMatrix libmTable).2.target = ⟨1, 1, 1⟩
      ∧ (((cameraAtOriginUp111.computeViewMatrix libmTable).2.target.sub ⟨0, 0, 0⟩).cross
            ⟨1, 1, 1⟩) = ⟨0, 0, 0⟩ := by
  refine ⟨by simp [cameraAtOriginUp111], ?_, ?_⟩
  · simp [Camera.computeViewMatrix, cameraAtOriginUp111, cameraWith]
  · simp [Camera.computeViewMatrix, cameraAtOriginUp111, cameraWith, Vec3.sub, Vec3.cross]

/-- C13, amended: for every eye and every non-zero up, when target equals eye
`Camera::computeViewMatrix` replaces target by eye + (up.y, up.z, up.x), which differs from
eye, and target - eye is not parallel to up provided the three components of up are not all
equal; eye and up are unchanged. When target differs from eye the camera is unchanged. -/
theorem C13_fallback_target (L : Libm) (c : Camera) :
    (c.eye = c.target → c.up ≠ ⟨0, 0, 0⟩ →
      (c.computeViewMatrix L).2.target = ⟨c.eye.x + c.up.y, c.eye.y + c.up.z, c.eye.z + c.up.x⟩
        ∧ (c.computeViewMatrix L).2.target ≠ (c.computeViewMatrix L).2.eye
        ∧ (¬ (c.up.x = c.up.y ∧ c.up.y = c.up.z) →
            ((c.computeViewMatrix L).2.target.sub (c.computeViewMatrix L).2.eye).cross
              (c.computeViewMatrix L).2.up ≠ ⟨0, 0, 0⟩)
        ∧ (c.computeViewMatrix L).2.eye = c.eye
        ∧ (c.computeViewMatrix L).2.up = c.up)
    ∧ (c.eye ≠ c.target → (c.computeViewMatrix L).2 = c) := by
  constructor
  · intro he hup
    have hc : (c.computeViewMatrix L).2
        = { c with target := ⟨c.eye.x + c.up.y, c.eye.y + c.up.z, c.eye.z + c.up.x⟩ } := by
      simp only [Camera.computeViewMatrix, if_pos he]
    rw [hc]
    refine ⟨rfl, ?_, ?_, rfl, rfl⟩
    · intro h
      apply hup
      have hx := congrArg Vec3.x h
      have hy := congrArg Vec3.y h
      have hz := congrArg Vec3.z h
      simp only at hx hy hz
      have e : c.up = ⟨c.up.x, c.up.y, c.up.z⟩ := rfl
      rw [e]
      congr 1 <;> linarith
    · intro hne h
      apply hne
      have hx := congrArg Vec3.x h
      have hy := congrArg Vec3.y h
      have hz := congrArg Vec3.z h
      simp only [Vec3.sub, Vec3.cross] at hx hy hz
      apply eq_of_cyclic_squares
      · linarith
      · linarith
      · linarith
  · intro hne
    simp only [Camera.computeViewMatrix, if_neg hne]

/-- C13 amended, at eye = target = (1, 0, 5) and up = (0, 0, 1): the fallback target is
(1, 1, 5). -/
theorem C13_fallback_target_witness :
    cameraTargetAtEye.eye
        = cameraTargetAtEye.target
      ∧ cameraTargetAtEye.up ≠ ⟨0, 0, 0⟩
      ∧ (cameraTargetAtEye.computeViewMatrix
          libmTable).2.target = ⟨1 + 0, 0 + 1, 5 + 0⟩
      ∧ (cameraTargetAtEye.computeViewMatrix
          libmTable).2.target
          ≠ (cameraTargetAtEye.computeViewMatrix
              libmTable).2.eye :=
  have he : cameraTargetAtEye.eye
      = cameraTargetAtEye.target := rfl
  have hup : cameraTargetAtEye.up ≠ ⟨0, 0, 0⟩ := by
    simp [cameraTargetAtEye, cameraWith]
  ⟨he, hup,
   ((C13_fallback_target libmTable cameraTargetAtEye).1
      he hup).1,
   ((C13_fallback_target libmTable cameraTargetAtEye).1
      he hup).2.1⟩

/-! ## C14 to C16: decoding a pixel and its blend value -/

/-- The decoded address in integer arithmetic: with `n = 256 * hi + lo` the 24-bit number
formed by the two channels, the coordinate is `n * size / 2^24`, rounded down. -/
theorem decodeDest_eq (p : Pixel) (mapWidth mapHeight : Nat) :
    decodeDest p mapWidth mapHeight
      = ((256 * p.r + p.g) * mapWidth / 16777216, (256 * p.b + p.a) * mapHeight / 16777216) := by
  unfold decodeDest
  have key : ∀ hi lo size : Nat,
      ⌊((hi : ℚ) + (lo : ℚ) / 256) * (1 / 65536) * (size : ℚ)⌋₊
        = (256 * hi + lo) * size / 16777216 := by
    intro hi lo size
    rw [← @Nat.floor_div_eq_div ℚ _ _ ((256 * hi + lo) * size) 16777216]
    congr 1
    push_cast
    ring
  rw [key, key]

/-- C14, as stated, fails: the pixel (R=0, G=0, B=128, A=0) with a 256 x 256 map decodes to
destX = 0, destY = 0 (128 * 2^-16 * 256 = 1/2), the degenerate address, and the decode step
skips it: texel (0, 128) stays unset and keeps the value 0. -/
theorem C14_pixel_128_decodes_to_origin :
    decodeDest ⟨0, 0, 128, 0⟩ 256 256 = (0, 0)
      ∧ (decodeStep (1 / 20) (readBackOf ⟨0, 0, 128, 0⟩) 256 256 0 0 BlendBuffers.init).map
          (fun s => (s.isSet (128 * 256 + 0), s.camMap (128 * 256 + 0))) = some (false, 0) := by
  have h : decodeDest ⟨0, 0, 128, 0⟩ 256 256 = (0, 0) := by
    rw [decodeDest_eq]
    rfl
  refine ⟨h, ?_⟩
  simp [decodeStep, readBackOf, h, BlendBuffers.init]

/-- C14, amended: the pixel (R=0, G=0, B=32768, A=0) with a 256 x 256 map decodes to
destX = 0, destY = 128, and when that texel is not yet set by this camera the decode step
marks it set and writes the pixel's blend addition there, leaving every other texel (texel
(0, 0) among them) as it was. -/
theorem C14_pixel_32768_decodes_to_row_128 (blendWidth : ℚ) (img : ReadBack) (x y : Nat)
    (s : BlendBuffers) (hp : img.pixel x y = ⟨0, 0, 32768, 0⟩)
    (hs : s.isSet (128 * 256 + 0) = false) :
    decodeDest (img.pixel x y) 256 256 = (0, 128)
      ∧ ∃ s', decodeStep blendWidth img 256 256 x y s = some s'
          ∧ s'.isSet (128 * 256 + 0) = true
          ∧ s'.camMap (128 * 256 + 0) = blendAddition blendWidth img.width img.height x y
          ∧ ∀ i, i ≠ 128 * 256 + 0 → s'.isSet i = s.isSet i ∧ s'.camMap i = s.camMap i := by
  have h : decodeDest (img.pixel x y) 256 256 = (0, 128) := by
    rw [hp, decodeDest_eq]
    rfl
  refine ⟨h, ?_⟩
  unfold decodeStep
  rw [h]
  dsimp only
  rw [if_pos (by norm_num), if_neg (by rw [hs]; simp)]
  refine ⟨_, rfl, ?_, ?_, ?_⟩
  · simp
  · simp
  · intro i hi
    simp [Function.update_noteq hi]

/-- C14 amended, on the one-pixel image and fresh buffers. -/
theorem C14_pixel_32768_decodes_to_row_128_witness :
    (readBackOf ⟨0, 0, 32768, 0⟩).pixel 0 0 = ⟨0, 0, 32768, 0⟩
      ∧ BlendBuffers.init.isSet (128 * 256 + 0) = false
      ∧ decodeDest ((readBackOf ⟨0, 0, 32768, 0⟩).pixel 0 0) 256 256 = (0, 128) :=
  ⟨rfl, rfl,
   (C14_pixel_32768_decodes_to_row_128 (1 / 20) (readBackOf ⟨0, 0, 32768, 0⟩) 0 0
      BlendBuffers.init rfl rfl).1⟩

/-- C15, as stated, fails: the pixel with all four channels at 65535 and a 256 x 256 map
decodes to destX = 256 and destY = 256, outside the raster, and the index
destY * mapWidth + destX = 65792 used for `isSet` is out of bounds. -/
theorem C15_full_scale_pixel_out_of_range :
    decodeDest ⟨65535, 65535, 65535, 65535⟩ 256 256 = (256, 256)
      ∧ ¬ (256 * 256 + 256 < 256 * 256)
      ∧ (decodeStep (1 / 20) (readBackOf ⟨65535, 65535, 65535, 65535⟩) 256 256 0 0
          BlendBuffers.init).isNone = true := by
  have h : decodeDest ⟨65535, 65535, 65535, 65535⟩ 256 256 = (256, 256) := by
    rw [decodeDest_eq]
    rfl
  refine ⟨h, by norm_num, ?_⟩
  simp [decodeStep, readBackOf, h]

/-- C15, amended: for every pixel with R + G/256 < 65536 and B + A/256 < 65536 and every
non-empty map, the decoded address lies inside the raster, 0 <= destX < mapWidth and
0 <= destY < mapHeight, and the index destY * mapWidth + destX is within bounds. -/
theorem C15_decode_in_range (p : Pixel) (mapWidth mapHeight : Nat)
    (hw : 0 < mapWidth) (hh : 0 < mapHeight)
    (hx : (p.r : ℚ) + (p.g : ℚ) / 256 < 65536)
    (hy : (p.b : ℚ) + (p.a : ℚ) / 256 < 65536) :
    0 ≤ (decodeDest p mapWidth mapHeight).1
      ∧ (decodeDest p mapWidth mapHeight).1 < mapWidth
      ∧ 0 ≤ (decodeDest p mapWidth mapHeight).2
      ∧ (decodeDest p mapWidth mapHeight).2 < mapHeight
      ∧ (decodeDest p mapWidth mapHeight).2 * mapWidth + (decodeDest p mapWidth mapHeight).1
          < mapWidth * mapHeight := by
  have key : ∀ hi lo size : Nat, 0 < size → (hi : ℚ) + (lo : ℚ) / 256 < 65536 →
      (256 * hi + lo) * size / 16777216 < size := by
    intro hi lo size hsize h
    have h' : 256 * hi + lo < 16777216 := by
      have : ((256 * hi + lo : Nat) : ℚ) < 16777216 := by
        push_cast
        linarith
      exact_mod_cast this
    rw [Nat.div_lt_iff_lt_mul (by norm_num)]
    exact Nat.mul_lt_mul_of_lt_of_le h' (le_refl _) hsize |>.trans_eq (Nat.mul_comm _ _)
  rw [decodeDest_eq]
  have h1 := key p.r p.g mapWidth hw hx
  have h2 := key p.b p.a mapHeight hh hy
  refine ⟨Nat.zero_le _, h1, Nat.zero_le _, h2, ?_⟩
  dsimp only
  calc (256 * p.b + p.a) * mapHeight / 16777216 * mapWidth
        + (256 * p.r + p.g) * mapWidth / 16777216
      < (256 * p.b + p.a) * mapHeight / 16777216 * mapWidth + mapWidth := by omega
    _ = ((256 * p.b + p.a) * mapHeight / 16777216 + 1) * mapWidth := by ring
    _ ≤ mapHeight * mapWidth := Nat.mul_le_mul_right _ h2
    _ = mapWidth * mapHeight := Nat.mul_comm _ _

/-- C15 amended, at the pixel (65535, 255, 65535, 255) and a 256 x 256 map: the address is
(255, 255). -/
theorem C15_decode_in_range_witness :
    (0 < 256) ∧ (((65535 : Nat) : ℚ) + ((255 : Nat) : ℚ) / 256 < 65536)
      ∧ (decodeDest ⟨65535, 255, 65535, 255⟩ 256 256).1 < 256
      ∧ (decodeDest ⟨65535, 255, 65535, 255⟩ 256 256).2 < 256 :=
  ⟨by norm_num, by norm_num,
   (C15_decode_in_range ⟨65535, 255, 65535, 255⟩ 256 256 (by norm_num) (by norm_num)
      (by norm_num) (by norm_num)).2.1,
   (C15_decode_in_range ⟨65535, 255, 65535, 255⟩ 256 256 (by norm_num) (by norm_num)
      (by norm_num) (by norm_num)).2.2.2.1⟩

/-- A clamped distance lies in [0, 1]. -/
theorem borderDist_range (blendWidth : ℚ) (size pos : Nat) :
    0 ≤ borderDist blendWidth size pos ∧ borderDist blendWidth size pos ≤ 1 := by
  unfold borderDist clamp
  exact ⟨le_min (le_max_right _ _) zero_le_one, min_le_right _ _⟩

/-- The harmonic combination of two distances in [0, 1] lies in [0, 1/2]. -/
theorem harmonicWeight_range (distX distY : ℚ) (hx : 0 ≤ distX ∧ distX ≤ 1)
    (hy : 0 ≤ distY ∧ distY ≤ 1) :
    0 ≤ harmonicWeight distX distY ∧ harmonicWeight distX distY ≤ 1 / 2 := by
  unfold harmonicWeight
  split
  · norm_num
  · rename_i h
    push_neg at h
    have hx0 : 0 < distX := lt_of_le_of_ne hx.1 (Ne.symm h.1)
    have hy0 : 0 < distY := lt_of_le_of_ne hy.1 (Ne.symm h.2)
    have h1 : 1 ≤ 1 / distX := by rw [le_div_iff₀ hx0]; linarith [hx.2]
    have h2 : 1 ≤ 1 / distY := by rw [le_div_iff₀ hy0]; linarith [hy.2]
    have hs : 0 < 1 / distX + 1 / distY := by linarith
    constructor
    · exact le_of_lt (one_div_pos.2 hs)
    · rw [div_le_iff₀ hs]
      linarith

/-- With a positive blend width the value added is the floor of 256 times the squared
harmonic weight: the clamp of the weight to [0, 1] changes nothing. -/
theorem blendValue_of_pos (blendWidth : ℚ) (w h x y : Nat) (hb : 0 < blendWidth) :
    blendValue blendWidth w h x y
      = ⌊256 * harmonicWeight (borderDist blendWidth w x) (borderDist blendWidth h y) ^ 2⌋ := by
  obtain ⟨hw0, hw1⟩ := harmonicWeight_range _ _ (borderDist_range blendWidth w x)
    (borderDist_range blendWidth h y)
  unfold blendValue
  dsimp only
  rw [if_pos hb, max_eq_left hw0, min_eq_left (by linarith)]
  unfold truncToInt
  rw [if_pos (by positivity), mul_comm]

/-- With a positive blend width the value added lies in [0, 64]. -/
theorem blendValue_of_pos_range (blendWidth : ℚ) (w h x y : Nat) (hb : 0 < blendWidth) :
    0 ≤ blendValue blendWidth w h x y ∧ blendValue blendWidth w h x y ≤ 64 := by
  obtain ⟨hw0, hw1⟩ := harmonicWeight_range _ _ (borderDist_range blendWidth w x)
    (borderDist_range blendWidth h y)
  have hsq : harmonicWeight (borderDist blendWidth w x) (borderDist blendWidth h y) ^ 2
      ≤ 1 / 4 := by nlinarith
  rw [blendValue_of_pos blendWidth w h x y hb]
  constructor
  · exact Int.floor_nonneg.2 (by positivity)
  · have : ⌊256 * harmonicWeight (borderDist blendWidth w x) (borderDist blendWidth h y) ^ 2⌋
        < 65 := by
      rw [Int.floor_lt]
      push_cast
      linarith
    omega

/-- Without a positive blend width the value added is 256. -/
theorem blendValue_of_nonpos (blendWidth : ℚ) (w h x y : Nat) (hb : ¬ 0 < blendWidth) :
    blendValue blendWidth w h x y = 256 := by
  unfold blendValue
  dsimp only
  rw [if_neg hb]

/-- C16: for every pixel position of a read-back image, when blendWidth > 0 the blend value
added is trunc(256 * weight^2), where weight = 1 / (1/distX + 1/distY) when both distances are
not zero and weight = 0 when one of them is zero, distX = clamp(min(x, w-1-x) / w / blendWidth,
0, 1) and distY likewise from y and h; this value lies in [0, 256). When blendWidth = 0 the
blend value is 256. -/
theorem C16_blend_value (blendWidth : ℚ) (w h x y : Nat) :
    (0 < blendWidth →
      ∃ distX distY weight : ℚ,
        distX = min (max (min (x : ℚ) ((w : ℚ) - 1 - x) / w / blendWidth) 0) 1
          ∧ distY = min (max (min (y : ℚ) ((h : ℚ) - 1 - y) / h / blendWidth) 0) 1
          ∧ (distX = 0 ∨ distY = 0 → weight = 0)
          ∧ (distX ≠ 0 → distY ≠ 0 → weight = 1 / (1 / distX + 1 / distY))
          ∧ blendValue blendWidth w h x y = ⌊256 * weight ^ 2⌋
          ∧ 0 ≤ blendValue blendWidth w h x y
          ∧ blendValue blendWidth w h x y < 256)
    ∧ (blendWidth = 0 → blendValue blendWidth w h x y = 256) := by
  constructor
  · intro hb
    obtain ⟨h0, h1⟩ := blendValue_of_pos_range blendWidth w h x y hb
    refine ⟨borderDist blendWidth w x, borderDist blendWidth h y,
      harmonicWeight (borderDist blendWidth w x) (borderDist blendWidth h y), rfl, rfl, ?_, ?_,
      blendValue_of_pos blendWidth w h x y hb, h0, by omega⟩
    · intro h0
      unfold harmonicWeight
      rw [if_pos h0]
    · intro h1 h2
      unfold harmonicWeight
      rw [if_neg (by push_neg; exact ⟨h1, h2⟩)]
  · intro hb
    exact blendValue_of_nonpos blendWidth w h x y (by rw [hb]; exact lt_irrefl 0)

/-- C16 at blendWidth = 1/20 and the pixel (10, 256) of a 512 x 512 image. -/
theorem C16_blend_value_witness :
    (0 : ℚ) < 1 / 20
      ∧ 0 ≤ blendValue (1 / 20) 512 512 10 256
      ∧ blendValue (1 / 20) 512 512 10 256 < 256
      ∧ blendValue 0 512 512 10 256 = 256 :=
  ⟨by norm_num,
   ((C16_blend_value (1 / 20) 512 512 10 256).1 (by norm_num)).choose_spec.choose_spec.choose_spec.2.2.2.2.2.1,
   ((C16_blend_value (1 / 20) 512 512 10 256).1 (by norm_num)).choose_spec.choose_spec.choose_spec.2.2.2.2.2.2,
   (C16_blend_value 0 512 512 10 256).2 rfl⟩

/-- The value written to `camMap` by the decode step lies in [4096, 4352]. -/
theorem blendAddition_range (blendWidth : ℚ) (w h x y : Nat) :
    4096 ≤ blendAddition blendWidth w h x y ∧ blendAddition blendWidth w h x y ≤ 4352 := by
  have hv : 0 ≤ blendValue blendWidth w h x y ∧ blendValue blendWidth w h x y ≤ 256 := by
    by_cases hb : 0 < blendWidth
    · obtain ⟨h0, h1⟩ := blendValue_of_pos_range blendWidth w h x y hb
      exact ⟨h0, by omega⟩
    · rw [blendValue_of_nonpos blendWidth w h x y hb]
      norm_num
  unfold blendAddition
  omega

/-! ## The hole filling of one row -/

/-- The search of the end of a hole over the columns `start, ..., start + n - 1`: the buffers,
`lastFilledPixel` and `holeStart` are kept; when no column of the range is set the hole flag is
as before, and otherwise the hole is flagged with its end at the last set column of the range
(the loop has no `break`). -/
theorem holeEnd_foldl (base start : Nat) (s : FillState) (hs : s.hole = false) (n : Nat) :
    ((List.range' start n).foldl (holeEndStep base) s).buffers = s.buffers
      ∧ ((List.range' start n).foldl (holeEndStep base) s).lastFilledPixel = s.lastFilledPixel
      ∧ ((List.range' start n).foldl (holeEndStep base) s).holeStart = s.holeStart
      ∧ ((((List.range' start n).foldl (holeEndStep base) s).hole = false
          ∧ ∀ j, start ≤ j → j < start + n → s.buffers.isSet (base + j) = false)
        ∨ (((List.range' start n).foldl (holeEndStep base) s).hole = true
          ∧ start ≤ ((List.range' start n).foldl (holeEndStep base) s).holeEnd
          ∧ ((List.range' start n).foldl (holeEndStep base) s).holeEnd < start + n
          ∧ s.buffers.isSet
              (base + ((List.range' start n).foldl (holeEndStep base) s).holeEnd) = true
          ∧ (∀ j, ((List.range' start n).foldl (holeEndStep base) s).holeEnd < j →
              j < start + n → s.buffers.isSet (base + j) = false)
          ∧ ((List.range' start n).foldl (holeEndStep base) s).nextFilledPixel
              = s.buffers.camMap
                  (base + ((List.range' start n).foldl (holeEndStep base) s).holeEnd))) := by
  induction n with
  | zero =>
    refine ⟨rfl, rfl, rfl, Or.inl ⟨hs, ?_⟩⟩
    intro j h1 h2
    omega
  | succ n ih =>
    rw [List.range'_concat, List.foldl_append, List.foldl_cons, List.foldl_nil]
    generalize (List.range' start n).foldl (holeEndStep base) s = t at ih ⊢
    obtain ⟨hb, hl, hh, hcase⟩ := ih
    rw [Nat.one_mul]
    unfold holeEndStep
    rw [hb]
    by_cases hset : s.buffers.isSet (base + (start + n)) = true
    · rw [if_pos hset]
      refine ⟨rfl, hl, hh, Or.inr ⟨rfl, ?_, ?_, hset, ?_, rfl⟩⟩
      · exact Nat.le_add_right _ _
      · show start + n < start + (n + 1)
        omega
      · intro j h1 h2
        have h1' : start + n < j := h1
        omega
    · rw [if_neg hset]
      have hunset : s.buffers.isSet (base + (start + n)) = false := by
        cases h : s.buffers.isSet (base + (start + n))
        · rfl
        · exact absurd h hset
      refine ⟨hb, hl, hh, ?_⟩
      rcases hcase with ⟨h1, h2⟩ | ⟨h1, h2, h3, h4, h5, h6⟩
      · refine Or.inl ⟨h1, ?_⟩
        intro j hj1 hj2
        by_cases hj : j = start + n
        · rw [hj]; exact hunset
        · exact h2 j hj1 (by omega)
      · refine Or.inr ⟨h1, h2, by omega, h4, ?_, h6⟩
        intro j hj1 hj2
        by_cases hj : j = start + n
        · rw [hj]; exact hunset
        · exact h5 j hj1 (by omega)

/-- At the end of the row the invariant is the specification of the row. -/
theorem rowFilled_of_fillInv (width base : Nat) (before : BlendBuffers) (s : FillState)
    (h : FillInv width base before width s) : RowFilled width base before s.buffers :=
  ⟨fun i hi => h.1 i hi, fun j hj => h.2.1 j hj⟩

/-- A Boolean that is not true is false. -/
theorem bool_eq_false_of_ne_true (b : Bool) (h : ¬ b = true) : b = false := by
  cases b
  · rfl
  · exact absurd rfl h

/-- The invariant passes an unset column outside a hole. -/
theorem fillInv_skip_unset (width base : Nat) (before : BlendBuffers) (x : Nat) (s : FillState)
    (hinv : FillInv width base before x s)
    (hsx : s.buffers.isSet (base + x) = false) (hh : s.hole = false) :
    FillInv width base before (x + 1) s := by
  obtain ⟨hfr, hproc, _, hnohole⟩ := hinv
  have hx := hfr (base + x) (Or.inr (le_refl _))
  have hb : before.isSet (base + x) = false := by rw [← hx.2]; exact hsx
  refine ⟨fun i hi => hfr i (by omega), ?_, ?_, ?_⟩
  · intro j hj
    by_cases hjx : j = x
    · subst hjx
      refine Or.inr (Or.inl ⟨hb, hsx, hx.1, ?_⟩)
      rcases hnohole hh with h1 | h2 | h3
      · exact Or.inl h1
      · exact Or.inr (fun e he1 he2 => h2 e (le_of_lt he1) he2)
      · rw [hb] at h3
        exact absurd h3.2 (by simp)
    · exact hproc j (by omega)
  · intro h
    rw [hh] at h
    exact absurd h (by simp)
  · intro _
    rcases hnohole hh with h1 | h2 | h3
    · refine Or.inl (fun j hj => ?_)
      by_cases hjx : j = x
      · rw [hjx]; exact hb
      · exact h1 j (by omega)
    · exact Or.inr (Or.inl (fun j hj1 hj2 => h2 j (by omega) hj2))
    · rw [hb] at h3
      exact absurd h3.2 (by simp)

/-- The invariant passes a set column whose right neighbour is set too. -/
theorem fillInv_skip_set (width base : Nat) (before : BlendBuffers) (x : Nat) (s : FillState)
    (hinv : FillInv width base before x s)
    (hsx : s.buffers.isSet (base + x) = true) (hh : s.hole = false)
    (hnext : x < width - 1 ∧ s.buffers.isSet (base + x + 1) = true) :
    FillInv width base before (x + 1) s := by
  obtain ⟨hfr, hproc, _, _⟩ := hinv
  have hx := hfr (base + x) (Or.inr (le_refl _))
  have hb : before.isSet (base + x) = true := by rw [← hx.2]; exact hsx
  have hx1 := hfr (base + x + 1) (Or.inr (by omega))
  refine ⟨fun i hi => hfr i (by omega), ?_, ?_, ?_⟩
  · intro j hj
    by_cases hjx : j = x
    · subst hjx
      exact Or.inl ⟨hb, hsx, hx.1⟩
    · exact hproc j (by omega)
  · intro h
    rw [hh] at h
    exact absurd h (by simp)
  · intro _
    refine Or.inr (Or.inr ⟨by omega, ?_⟩)
    have e : base + (x + 1) = base + x + 1 := by omega
    rw [e, ← hx1.2]
    exact hnext.2

/-- The invariant passes a set column that starts a search for the end of a hole. -/
theorem fillInv_search (width base : Nat) (before : BlendBuffers) (x : Nat) (s : FillState)
    (hinv : FillInv width base before x s) (hxw : x < width)
    (hsx : s.buffers.isSet (base + x) = true) (hh : s.hole = false)
    (hnext : ¬ (x < width - 1 ∧ s.buffers.isSet (base + x + 1) = true)) :
    FillInv width base before (x + 1)
      ((List.range' (x + 2) (width - (x + 2))).foldl (holeEndStep base)
        { s with lastFilledPixel := s.buffers.camMap (base + x), holeStart := x }) := by
  obtain ⟨hfr, hproc, _, _⟩ := hinv
  have hx := hfr (base + x) (Or.inr (le_refl _))
  have hb : before.isSet (base + x) = true := by rw [← hx.2]; exact hsx
  obtain ⟨e1, e2, e3, hcase⟩ := holeEnd_foldl base (x + 2)
    { s with lastFilledPixel := s.buffers.camMap (base + x), holeStart := x } hh
    (width - (x + 2))
  generalize (List.range' (x + 2) (width - (x + 2))).foldl (holeEndStep base)
    { s with lastFilledPixel := s.buffers.camMap (base + x), holeStart := x } = t
    at e1 e2 e3 hcase ⊢
  have e1' : t.buffers = s.buffers := e1
  have e2' : t.lastFilledPixel = s.buffers.camMap (base + x) := e2
  have e3' : t.holeStart = x := e3
  have hafter : ∀ j, x + 2 ≤ j → j < width → before.isSet (base + j) = s.buffers.isSet (base + j) :=
    fun j hj1 _ => ((hfr (base + j) (Or.inr (by omega))).2).symm
  refine ⟨?_, ?_, ?_, ?_⟩
  · intro i hi
    rw [e1']
    exact hfr i (by omega)
  · intro j hj
    rw [e1']
    by_cases hjx : j = x
    · subst hjx
      exact Or.inl ⟨hb, hsx, hx.1⟩
    · exact hproc j (by omega)
  · intro ht
    rcases hcase with ⟨h1, _⟩ | ⟨_, h2, h3, h4, h5, h6⟩
    · rw [ht] at h1
      exact absurd h1 (by simp)
    · have h2' : x + 2 ≤ t.holeEnd := h2
      have h3' : t.holeEnd < width := by omega
      have h4' : s.buffers.isSet (base + t.holeEnd) = true := h4
      have h6' : t.nextFilledPixel = s.buffers.camMap (base + t.holeEnd) := h6
      have hend := hfr (base + t.holeEnd) (Or.inr (by omega))
      refine ⟨by omega, by omega, h3', ?_, ?_, ?_, ?_, ?_, ?_⟩
      · rw [e3']; exact hb
      · rw [hend.2] at h4'; exact h4'
      · intro i hi1 hi2
        omega
      · intro i hi1 hi2
        rw [hafter i (by omega) hi2]
        exact h5 i hi1 (by omega)
      · rw [e2', e3']; exact hx.1
      · rw [h6']; exact hend.1
  · intro ht
    rcases hcase with ⟨_, h2⟩ | ⟨h1, _⟩
    · refine Or.inr (Or.inl ?_)
      intro j hj1 hj2
      by_cases hj : j = x + 1
      · subst hj
        have hx1 := hfr (base + (x + 1)) (Or.inr (by omega))
        rw [← hx1.2]
        apply bool_eq_false_of_ne_true
        intro hset
        exact hnext ⟨by omega, hset⟩
      · rw [hafter j (by omega) hj2]
        exact h2 j (by omega) (by omega)
    · rw [ht] at h1
      exact absurd h1 (by simp)

/-- The invariant at a set column that ends a hole: the hole flag is dropped and the column is
looked at again. -/
theorem fillInv_close (width base : Nat) (before : BlendBuffers) (x : Nat) (s : FillState)
    (hinv : FillInv width base before x s) (hxw : x < width)
    (hsx : s.buffers.isSet (base + x) = true) :
    FillInv width base before x { s with hole := false } := by
  obtain ⟨hfr, hproc, _, _⟩ := hinv
  have hx := hfr (base + x) (Or.inr (le_refl _))
  refine ⟨hfr, hproc, ?_, ?_⟩
  · intro h
    exact absurd h (by simp)
  · intro _
    refine Or.inr (Or.inr ⟨hxw, ?_⟩)
    rw [← hx.2]
    exact hsx

/-- A column that is not written keeps its description. -/
theorem columnFilled_congr (width base : Nat) (before after after' : BlendBuffers) (j : Nat)
    (hc : after'.camMap (base + j) = after.camMap (base + j))
    (hs : after'.isSet (base + j) = after.isSet (base + j))
    (h : ColumnFilled width base before after j) : ColumnFilled width base before after' j := by
  unfold ColumnFilled at *
  rw [hc, hs]
  exact h

/-- The invariant passes an unset column inside a hole, which is filled. -/
theorem fillInv_fill (width base : Nat) (before : BlendBuffers) (x : Nat) (s : FillState)
    (hinv : FillInv width base before x s)
    (hsx : s.buffers.isSet (base + x) = false) (hh : s.hole = true) :
    FillInv width base before (x + 1)
      { s with
        buffers :=
          { camMap := Function.update s.buffers.camMap (base + x) (pixelValue s x)
            isSet := Function.update s.buffers.isSet (base + x) true } } := by
  obtain ⟨hfr, hproc, hhole, _⟩ := hinv
  have hx := hfr (base + x) (Or.inr (le_refl _))
  have hb : before.isSet (base + x) = false := by rw [← hx.2]; exact hsx
  obtain ⟨g1, g2, g3, g4, g5, g6, g7, g8, g9⟩ := hhole hh
  have hlt : x < s.holeEnd := by
    rcases Nat.lt_or_ge x s.holeEnd with h | h
    · exact h
    · have : x = s.holeEnd := by omega
      rw [← this, hb] at g5
      exact absurd g5 (by simp)
  refine ⟨?_, ?_, ?_, ?_⟩
  · intro i hi
    have hne : i ≠ base + x := by omega
    show Function.update s.buffers.camMap (base + x) (pixelValue s x) i = before.camMap i
      ∧ Function.update s.buffers.isSet (base + x) true i = before.isSet i
    rw [Function.update_noteq hne, Function.update_noteq hne]
    exact hfr i (by omega)
  · intro j hj
    by_cases hjx : j = x
    · subst hjx
      refine Or.inr (Or.inr ⟨hb, s.holeStart, s.holeEnd, g1, hlt, g3, g4, g5, ?_, g7, ?_, ?_⟩)
      · intro i hi1 hi2
        by_cases hi : i = j
        · rw [hi]; exact hb
        · exact g6 i hi1 (by omega)
      · show Function.update s.buffers.isSet (base + j) true (base + j) = true
        rw [Function.update_same]
      · show Function.update s.buffers.camMap (base + j) (pixelValue s j) (base + j) = _
        rw [Function.update_same]
        unfold pixelValue
        dsimp only
        rw [g8, g9]
    · have hne : base + j ≠ base + x := by omega
      apply columnFilled_congr width base before s.buffers _ j _ _ (hproc j (by omega))
      · show Function.update s.buffers.camMap (base + x) (pixelValue s x) (base + j) = _
        rw [Function.update_noteq hne]
      · show Function.update s.buffers.isSet (base + x) true (base + j) = _
        rw [Function.update_noteq hne]
  · intro _
    refine ⟨Nat.lt_succ_of_lt g1, Nat.succ_le_of_lt hlt, g3, g4, g5, ?_, g7, g8, g9⟩
    intro i hi1 hi2
    have hi1' : s.holeStart < i := hi1
    by_cases hi : i = x
    · rw [hi]; exact hb
    · exact g6 i hi1 (by omega)
  · intro h
    have : s.hole = false := h
    rw [hh] at this
    exact absurd this (by simp)

/-- The column loop, started in a state that satisfies the invariant with enough iterations
left (two per remaining column, one more inside a hole), ends and leaves the row filled as
`RowFilled` describes. -/
theorem fillRowLoop_spec (width base : Nat) (before : BlendBuffers) :
    ∀ (fuel x : Nat) (s : FillState), FillInv width base before x s → x ≤ width →
      2 * (width - x) + (if s.hole = true then 1 else 0) ≤ fuel →
      ∃ s', fillRowLoop width base fuel x s = some s'
        ∧ RowFilled width base before s'.buffers := by
  intro fuel
  induction fuel with
  | zero =>
    intro x s hinv hx hf
    have hxw : x = width := by omega
    subst hxw
    exact ⟨s, by simp [fillRowLoop], rowFilled_of_fillInv x base before s hinv⟩
  | succ fuel ih =>
    intro x s hinv hx hf
    rw [fillRowLoop]
    by_cases hxw : width ≤ x
    · have hxw' : x = width := by omega
      subst hxw'
      rw [if_pos (le_refl _)]
      exact ⟨s, rfl, rowFilled_of_fillInv x base before s hinv⟩
    · rw [if_neg hxw]
      have hlt : x < width := by omega
      rcases Bool.eq_false_or_eq_true s.hole with hh | hh
      · -- inside a hole
        have hf' : 2 * (width - x) + 1 ≤ fuel + 1 := by simpa [hh] using hf
        rcases Bool.eq_false_or_eq_true (s.buffers.isSet (base + x)) with hsx | hsx
        · rw [if_neg (by rintro ⟨h1, h2⟩; simp_all), if_neg (by rintro ⟨h1, h2⟩; simp_all),
            if_pos ⟨hsx, hh⟩]
          exact ih x _ (fillInv_close width base before x s hinv hlt hsx) hx
            (by simp only [Bool.false_eq_true, if_false]; omega)
        · rw [if_neg (by rintro ⟨h1, h2⟩; simp_all), if_neg (by rintro ⟨h1, h2⟩; simp_all),
            if_neg (by rintro ⟨h1, h2⟩; simp_all)]
          apply ih (x + 1) _ (fillInv_fill width base before x s hinv hsx hh) (by omega)
          split <;> omega
      · -- outside a hole
        have hf' : 2 * (width - x) ≤ fuel + 1 := by simpa [hh] using hf
        rcases Bool.eq_false_or_eq_true (s.buffers.isSet (base + x)) with hsx | hsx
        · rw [if_neg (by rintro ⟨h1, h2⟩; simp_all), if_pos ⟨hsx, hh⟩]
          by_cases hnext : x < width - 1 ∧ s.buffers.isSet (base + x + 1) = true
          · rw [if_pos hnext]
            apply ih (x + 1) s (fillInv_skip_set width base before x s hinv hsx hh hnext)
              (by omega)
            split <;> omega
          · rw [if_neg hnext]
            apply ih (x + 1) _ (fillInv_search width base before x s hinv hlt hsx hh hnext)
              (by omega)
            split <;> omega
        · rw [if_pos ⟨hsx, hh⟩]
          apply ih (x + 1) s (fillInv_skip_unset width base before x s hinv hsx hh) (by omega)
          split <;> omega

/-- The hole filling of a row ends (a column is visited at most twice) and leaves the row
filled as `RowFilled` describes. -/
theorem fillRow_spec (width : Nat) (before : BlendBuffers) (y : Nat) :
    ∃ after, fillRow width before y = some after ∧ RowFilled width (y * width) before after := by
  have hinv : FillInv width (y * width) before 0 (FillState.start before) := by
    refine ⟨fun i _ => ⟨rfl, rfl⟩, ?_, ?_, ?_⟩
    · intro j hj
      omega
    · intro h
      exact absurd h (by simp [FillState.start])
    · intro _
      exact Or.inl (fun j hj => by omega)
  obtain ⟨s', h1, h2⟩ := fillRowLoop_spec width (y * width) before (2 * width) 0
    (FillState.start before) hinv (Nat.zero_le _) (by simp [FillState.start])
  exact ⟨s'.buffers, by rw [fillRow, h1]; rfl, h2⟩

/-- The 32-bit wrap leaves an `int` value unchanged. -/
theorem wrapInt32_of_range (n : Int) (h1 : -2147483648 ≤ n) (h2 : n < 2147483648) :
    wrapInt32 n = n := by
  unfold wrapInt32
  omega

/-- The truncated quotient of `d * k` by `n`, for `0 ≤ k ≤ n` and `0 < n`, lies between 0 and
`d`. -/
theorem tdiv_mul_between (d k n : Int) (hk : 0 ≤ k) (hkn : k ≤ n) (hn : 0 < n) :
    (0 ≤ d → 0 ≤ Int.tdiv (d * k) n ∧ Int.tdiv (d * k) n ≤ d)
      ∧ (d ≤ 0 → d ≤ Int.tdiv (d * k) n ∧ Int.tdiv (d * k) n ≤ 0) := by
  have pos : ∀ e : Int, 0 ≤ e → 0 ≤ Int.tdiv (e * k) n ∧ Int.tdiv (e * k) n ≤ e := by
    intro e he
    rw [Int.tdiv_eq_ediv (mul_nonneg he hk) (le_of_lt hn)]
    exact ⟨Int.ediv_nonneg (mul_nonneg he hk) (le_of_lt hn),
      Int.ediv_le_of_le_mul hn (mul_le_mul_of_nonneg_left hkn he)⟩
  constructor
  · exact pos d
  · intro hd
    have h := pos (-d) (by omega)
    rw [neg_mul, Int.neg_tdiv] at h
    omega

/-- The filled value of the code is the interpolation of the specification, and lies between
the two bounding values: for 16-bit bounding values, a column strictly inside the hole and an
`int` product that does not overflow. -/
theorem pixelValue_eq_interpolate (s : FillState) (x : Nat)
    (hl : s.lastFilledPixel < 65536) (hn : s.nextFilledPixel < 65536)
    (h1 : s.holeStart < x) (h2 : x < s.holeEnd)
    (hov : -2147483648 ≤ ((s.nextFilledPixel : Int) - (s.lastFilledPixel : Int))
          * ((x : Int) - (s.holeStart : Int))
      ∧ ((s.nextFilledPixel : Int) - (s.lastFilledPixel : Int))
          * ((x : Int) - (s.holeStart : Int)) < 2147483648) :
    ((pixelValue s x : Nat) : Int)
        = interpolate s.lastFilledPixel s.nextFilledPixel s.holeStart s.holeEnd x
      ∧ min s.lastFilledPixel s.nextFilledPixel ≤ pixelValue s x
      ∧ pixelValue s x ≤ max s.lastFilledPixel s.nextFilledPixel := by
  have c1 : ((x - s.holeStart : Nat) : Int) = (x : Int) - (s.holeStart : Int) :=
    Nat.cast_sub (le_of_lt h1)
  have c2 : ((s.holeEnd - s.holeStart : Nat) : Int) = (s.holeEnd : Int) - (s.holeStart : Int) :=
    Nat.cast_sub (by omega)
  obtain ⟨hp, hm⟩ := tdiv_mul_between ((s.nextFilledPixel : Int) - (s.lastFilledPixel : Int))
    ((x : Int) - (s.holeStart : Int)) ((s.holeEnd : Int) - (s.holeStart : Int))
    (by omega) (by omega) (by omega)
  unfold pixelValue interpolate toUInt16
  dsimp only
  rw [c1, c2, wrapInt32_of_range _ hov.1 hov.2]
  generalize Int.tdiv (((s.nextFilledPixel : Int) - (s.lastFilledPixel : Int))
    * ((x : Int) - (s.holeStart : Int))) ((s.holeEnd : Int) - (s.holeStart : Int)) = q at hp hm ⊢
  rcases le_total (0 : Int) ((s.nextFilledPixel : Int) - (s.lastFilledPixel : Int)) with hd | hd
  · have := hp hd
    omega
  · have := hm hd
    omega

/-- The `int` product `d * k` of the interpolation does not overflow when `|d| * K` is below
2^31 for a bound `K` of the column offset `k`. -/
theorem product_no_overflow (d k K : Int) (hk0 : 0 ≤ k) (hk : k ≤ K)
    (h : |d| * K < 2147483648) :
    -2147483648 ≤ d * k ∧ d * k < 2147483648 := by
  have h1 : |d * k| ≤ |d| * K := by
    rw [abs_mul, abs_of_nonneg hk0]
    exact mul_le_mul_of_nonneg_left hk (abs_nonneg d)
  have h2 : |d * k| < 2147483648 := lt_of_le_of_lt h1 h
  rw [abs_lt] at h2
  exact ⟨by omega, h2.2⟩

/-- In a row at most 32768 wide the `int` product of the interpolation between two 16-bit
values cannot overflow. -/
theorem no_overflow_of_width (width a b va vb : Nat) (hw : width ≤ 32768) (hab : a < b)
    (hb : b < width) (hva : va < 65536) (hvb : vb < 65536) :
    |((vb : Nat) : Int) - ((va : Nat) : Int)| * ((b : Int) - (a : Int) - 1) < 2147483648 := by
  have hd : |((vb : Nat) : Int) - ((va : Nat) : Int)| ≤ 65535 := by
    rw [abs_le]
    constructor <;> omega
  have hk : (b : Int) - (a : Int) - 1 ≤ 32766 := by omega
  have hk0 : 0 ≤ (b : Int) - (a : Int) - 1 := by omega
  calc |((vb : Nat) : Int) - ((va : Nat) : Int)| * ((b : Int) - (a : Int) - 1)
      ≤ 65535 * 32766 := mul_le_mul hd hk hk0 (by norm_num)
    _ < 2147483648 := by norm_num


/-! ## C18 and C19: hole filling -/

/-- C18: for every row whose set texels are exactly the two at columns a < b with b >= a + 2,
with 16-bit values va and vb (and the `int` product (vb - va) * (x - a) without overflow:
|vb - va| * (b - a - 1) < 2^31, which holds for every row at most 32768 wide), the hole
filling ends, marks every column x with a < x < b set, with the value
va + trunc((vb - va) * (x - a) / (b - a)), and leaves columns a, b, the columns outside [a, b]
and the other rows as they were. -/
theorem C18_hole_filling_two_set_texels (width y : Nat) (before : BlendBuffers) (a b : Nat)
    (hab : a + 2 ≤ b) (hb : b < width)
    (hva : before.camMap (y * width + a) < 65536)
    (hvb : before.camMap (y * width + b) < 65536)
    (hov : |((before.camMap (y * width + b) : Nat) : Int)
          - ((before.camMap (y * width + a) : Nat) : Int)| * ((b : Int) - (a : Int) - 1)
        < 2147483648)
    (hset : ∀ x, x < width → (before.isSet (y * width + x) = true ↔ x = a ∨ x = b)) :
    ∃ after, fillRow width before y = some after
      ∧ (∀ x, a < x → x < b →
          after.isSet (y * width + x) = true
            ∧ ((after.camMap (y * width + x) : Nat) : Int)
                = interpolate (before.camMap (y * width + a)) (before.camMap (y * width + b))
                    a b x)
      ∧ (∀ x, x < width → (x ≤ a ∨ b ≤ x) →
          after.isSet (y * width + x) = before.isSet (y * width + x)
            ∧ after.camMap (y * width + x) = before.camMap (y * width + x))
      ∧ (∀ i, (i < y * width ∨ y * width + width ≤ i) →
          after.camMap i = before.camMap i ∧ after.isSet i = before.isSet i) := by
  obtain ⟨after, hrun, hframe, hcols⟩ := fillRow_spec width before y
  have hsa : before.isSet (y * width + a) = true := (hset a (by omega)).2 (Or.inl rfl)
  have hsb : before.isSet (y * width + b) = true := (hset b hb).2 (Or.inr rfl)
  -- the two bounding texels of a filled column are the texels at `a` and `b`
  have hends : ∀ x a' e', x < width → before.isSet (y * width + x) = false → a' < x → x < e' →
      e' < width → before.isSet (y * width + a') = true →
      before.isSet (y * width + e') = true → a' = a ∧ e' = b ∧ a < x ∧ x < b := by
    intro x a' e' _ _ h1 h2 h3 h4 h5
    have ha' := (hset a' (by omega)).1 h4
    have he' := (hset e' h3).1 h5
    omega
  refine ⟨after, hrun, ?_, ?_, hframe⟩
  · intro x hx1 hx2
    have hxw : x < width := by omega
    have hux : before.isSet (y * width + x) = false := by
      apply bool_eq_false_of_ne_true
      intro h
      have := (hset x hxw).1 h
      omega
    rcases hcols x hxw with ⟨h, _⟩ | ⟨_, _, _, h | h⟩ | ⟨_, a', e', h1, h2, h3, h4, h5, _, _, h8, h9⟩
    · rw [hux] at h
      exact absurd h (by simp)
    · rw [h a hx1] at hsa
      exact absurd hsa (by simp)
    · rw [h b hx2 hb] at hsb
      exact absurd hsb (by simp)
    · obtain ⟨ea, eb, _, _⟩ := hends x a' e' hxw hux h1 h2 h3 h4 h5
      subst ea
      subst eb
      refine ⟨h8, ?_⟩
      rw [h9]
      exact (pixelValue_eq_interpolate
        ⟨before, before.camMap (y * width + a'), before.camMap (y * width + e'), a', e', true⟩ x
        hva hvb hx1 hx2
        (product_no_overflow _ ((x : Int) - (a' : Int)) ((e' : Int) - (a' : Int) - 1)
          (by omega) (by omega) hov)).1
  · intro x hxw hout
    rcases hcols x hxw with ⟨h1, h2, h3⟩ | ⟨h1, h2, h3, _⟩ | ⟨hux, a', e', h1, h2, h3, h4, h5, _⟩
    · exact ⟨by rw [h1, h2], h3⟩
    · exact ⟨by rw [h1, h2], h3⟩
    · obtain ⟨_, _, h6, h7⟩ := hends x a' e' hxw hux h1 h2 h3 h4 h5
      omega

/-- C18 on the row `[10, _, _, _, 50]` of the specification: the three middle texels become
20, 30 and 40. -/
theorem C18_hole_filling_two_set_texels_witness :
    (∀ x, x < 5 → (rowTenFifty.isSet (0 * 5 + x) = true ↔ x = 0 ∨ x = 4))
      ∧ ∃ after, fillRow 5 rowTenFifty 0 = some after
          ∧ ((after.camMap 1 : Nat) : Int) = 20
          ∧ ((after.camMap 2 : Nat) : Int) = 30
          ∧ ((after.camMap 3 : Nat) : Int) = 40
          ∧ after.camMap 0 = 10 ∧ after.camMap 4 = 50 := by
  have hset : ∀ x, x < 5 → (rowTenFifty.isSet (0 * 5 + x) = true ↔ x = 0 ∨ x = 4) := by
    intro x hx
    interval_cases x <;> simp [rowTenFifty, buffersOfRow]
  obtain ⟨after, h1, h2, h3, _⟩ := C18_hole_filling_two_set_texels 5 0 rowTenFifty 0 4
    (by norm_num) (by norm_num) (by simp [rowTenFifty, buffersOfRow])
    (by simp [rowTenFifty, buffersOfRow]) (by simp [rowTenFifty, buffersOfRow]) hset
  refine ⟨hset, after, h1, ?_, ?_, ?_, ?_, ?_⟩
  · have := (h2 1 (by norm_num) (by norm_num)).2
    simpa [rowTenFifty, buffersOfRow, interpolate] using this
  · have := (h2 2 (by norm_num) (by norm_num)).2
    simpa [rowTenFifty, buffersOfRow, interpolate] using this
  · have := (h2 3 (by norm_num) (by norm_num)).2
    simpa [rowTenFifty, buffersOfRow, interpolate] using this
  · have := (h3 0 (by norm_num) (Or.inl (le_refl _))).2
    simpa [rowTenFifty, buffersOfRow] using this
  · have := (h3 4 (by norm_num) (Or.inr (le_refl _))).2
    simpa [rowTenFifty, buffersOfRow] using this

/-- C19, the code at a failing input: the row `[10, _, _, _, 50, _, _, _, 10]`. The run of
unset texels at columns 1 to 3 is bounded by the set texels at columns 0 (value 10) and 4
(value 50), the nearest on its right, and linear interpolation between them gives 20, 30, 40;
the code searches the end of the hole without stopping at the first set texel, takes the last
set texel of the row (column 8, value 10) as the end, and fills 10, 10, 10. -/
theorem C19_hole_end_is_last_set_texel :
    (fillRow 9 rowThreeSet 0).map (fun after => (List.range 9).map after.camMap)
        = some [10, 10, 10, 10, 50, 40, 30, 20, 10]
      ∧ (List.range' 1 3).map (fun x => interpolate 10 50 0 4 x) = [20, 30, 40] := by
  constructor
  · decide
  · decide

/-! ## C20: the merge loop -/

/-- C20, the code at failing inputs. On a map 2 wide and 3 high the loop visits the indices
y + 2 * x: texel 2 is increased twice (3 + 3 = 6) and texel 5 never. On a map 3 wide and 2
high the third column of the first row is index 0 + 3 * 2 = 6, outside [0, 6): the access is
out of bounds. -/
theorem C20_merge_transposed_on_non_square :
    (mergeLoop 2 3 camMapOneToSix (fun _ => 0)).map (fun out => (List.range 6).map out)
        = some [1, 2, 6, 4, 5, 0]
      ∧ (List.range 6).map (fun i => ((fun _ => 0) i + camMapOneToSix i) % 65536)
          = [1, 2, 3, 4, 5, 6]
      ∧ (mergeLoop 3 2 camMapOneToSix (fun _ => 0)).isNone = true := by
  refine ⟨by decide, by decide, by decide⟩

/-! ## Loops as folds -/

/-- A loop `for (k = 0; k < n; ++k)` whose body keeps an invariant and never fails ends with
the invariant at `n`. -/
theorem foldlM_range_inv {σ : Type} (f : σ → Nat → Option σ) (P : Nat → σ → Prop) (n : Nat)
    (s0 : σ) (h0 : P 0 s0)
    (hstep : ∀ k s, k < n → P k s → ∃ s', f s k = some s' ∧ P (k + 1) s') :
    ∃ s', (List.range n).foldlM f s0 = some s' ∧ P n s' := by
  induction n with
  | zero => exact ⟨s0, rfl, h0⟩
  | succ n ih =>
    obtain ⟨s1, h1, hP1⟩ := ih (fun k s hk hP => hstep k s (by omega) hP)
    obtain ⟨s2, h2, hP2⟩ := hstep n s1 (by omega) hP1
    refine ⟨s2, ?_, hP2⟩
    rw [List.range_succ, List.foldlM_append, h1]
    simp [h2]

/-! ## The packing of a camera's map -/

/-- The freshly allocated buffers are packed. -/
theorem packed_init : Packed BlendBuffers.init :=
  fun _ => Or.inl ⟨rfl, rfl⟩

/-- The decode step, at an address inside the raster, does not fail and keeps the packing. -/
theorem decodeStep_packed (blendWidth : ℚ) (img : ReadBack) (mapWidth mapHeight x y : Nat)
    (s : BlendBuffers) (hs : Packed s)
    (hx : (decodeDest (img.pixel x y) mapWidth mapHeight).1 < mapWidth)
    (hy : (decodeDest (img.pixel x y) mapWidth mapHeight).2 < mapHeight) :
    ∃ s', decodeStep blendWidth img mapWidth mapHeight x y s = some s' ∧ Packed s' := by
  have hidx : (decodeDest (img.pixel x y) mapWidth mapHeight).2 * mapWidth
      + (decodeDest (img.pixel x y) mapWidth mapHeight).1 < mapWidth * mapHeight := by
    calc (decodeDest (img.pixel x y) mapWidth mapHeight).2 * mapWidth
          + (decodeDest (img.pixel x y) mapWidth mapHeight).1
        < (decodeDest (img.pixel x y) mapWidth mapHeight).2 * mapWidth + mapWidth := by omega
      _ = ((decodeDest (img.pixel x y) mapWidth mapHeight).2 + 1) * mapWidth := by ring
      _ ≤ mapHeight * mapWidth := Nat.mul_le_mul_right _ hy
      _ = mapWidth * mapHeight := Nat.mul_comm _ _
  unfold decodeStep
  dsimp only
  rw [if_pos hidx]
  split
  · exact ⟨s, rfl, hs⟩
  · refine ⟨_, rfl, ?_⟩
    intro i
    by_cases hi : i = (decodeDest (img.pixel x y) mapWidth mapHeight).2 * mapWidth
        + (decodeDest (img.pixel x y) mapWidth mapHeight).1
    · subst hi
      refine Or.inr ⟨?_, ?_⟩
      · show Function.update s.isSet _ true _ = true
        rw [Function.update_same]
      · show 4096 ≤ Function.update s.camMap _ _ _ ∧ Function.update s.camMap _ _ _ ≤ 4352
        rw [Function.update_same]
        exact blendAddition_range _ _ _ _ _
    · show (Function.update s.isSet _ true i = false ∧ Function.update s.camMap _ _ i = 0)
        ∨ (Function.update s.isSet _ true i = true ∧ 4096 ≤ Function.update s.camMap _ _ i
          ∧ Function.update s.camMap _ _ i ≤ 4352)
      rw [Function.update_noteq hi, Function.update_noteq hi]
      exact hs i

/-- The decode loops, when every pixel decodes inside the raster, do not fail and keep the
packing. -/
theorem decodeLoop_packed (blendWidth : ℚ) (img : ReadBack) (mapWidth mapHeight : Nat)
    (s : BlendBuffers) (hs : Packed s) (hr : AddressesInRange img mapWidth mapHeight) :
    ∃ s', decodeLoop blendWidth img mapWidth mapHeight s = some s' ∧ Packed s' := by
  unfold decodeLoop
  apply foldlM_range_inv _ (fun _ t => Packed t) img.height s hs
  intro y t hy ht
  apply foldlM_range_inv _ (fun _ u => Packed u) img.width t ht
  intro x u hx hu
  exact decodeStep_packed blendWidth img mapWidth mapHeight x y u hu (hr x y hx hy).1
    (hr x y hx hy).2

/-- The hole filling of a row of a packed map leaves a packed map: a filled texel lies between
its two bounding texels. -/
theorem rowFilled_packed (width base : Nat) (before after : BlendBuffers)
    (hw : width ≤ 65535) (hp : Packed before) (h : RowFilled width base before after) :
    Packed after := by
  obtain ⟨hframe, hcols⟩ := h
  intro i
  by_cases hi : i < base ∨ base + width ≤ i
  · rw [(hframe i hi).1, (hframe i hi).2]
    exact hp i
  · have hj : i = base + (i - base) := by omega
    have hjw : i - base < width := by omega
    generalize i - base = j at hj hjw
    subst hj
    rcases hcols j hjw with ⟨h1, h2, h3⟩ | ⟨h1, h2, h3, _⟩ | ⟨_, a, e, h1, h2, h3, h4, h5, _, _, h8, h9⟩
    · rcases hp (base + j) with ⟨g1, _⟩ | ⟨_, g2⟩
      · rw [h1] at g1
        exact absurd g1 (by simp)
      · exact Or.inr ⟨h2, by rw [h3]; exact g2⟩
    · rcases hp (base + j) with ⟨_, g2⟩ | ⟨g1, _⟩
      · exact Or.inl ⟨h2, by rw [h3]; exact g2⟩
      · rw [h1] at g1
        exact absurd g1 (by simp)
    · have ga : 4096 ≤ before.camMap (base + a) ∧ before.camMap (base + a) ≤ 4352 := by
        rcases hp (base + a) with ⟨g1, _⟩ | ⟨_, g2⟩
        · rw [h4] at g1
          exact absurd g1 (by simp)
        · exact g2
      have ge : 4096 ≤ before.camMap (base + e) ∧ before.camMap (base + e) ≤ 4352 := by
        rcases hp (base + e) with ⟨g1, _⟩ | ⟨_, g2⟩
        · rw [h5] at g1
          exact absurd g1 (by simp)
        · exact g2
      obtain ⟨_, hmin, hmax⟩ := pixelValue_eq_interpolate
        ⟨before, before.camMap (base + a), before.camMap (base + e), a, e, true⟩ j
        (show before.camMap (base + a) < 65536 by omega)
        (show before.camMap (base + e) < 65536 by omega) h1 h2
        (product_no_overflow _ ((j : Int) - (a : Int)) 65535 (by omega) (by omega)
          (by
            have hd : |((before.camMap (base + e) : Nat) : Int)
                - ((before.camMap (base + a) : Nat) : Int)| ≤ 256 := by
              rw [abs_le]
              constructor <;> omega
            show |((before.camMap (base + e) : Nat) : Int)
                - ((before.camMap (base + a) : Nat) : Int)| * 65535 < 2147483648
            omega))
      have hmin' : min (before.camMap (base + a)) (before.camMap (base + e))
          ≤ after.camMap (base + j) := by rw [h9]; exact hmin
      have hmax' : after.camMap (base + j)
          ≤ max (before.camMap (base + a)) (before.camMap (base + e)) := by rw [h9]; exact hmax
      refine Or.inr ⟨h8, ?_, ?_⟩
      · exact le_trans (le_min ga.1 ge.1) hmin'
      · exact le_trans hmax' (max_le ga.2 ge.2)

/-- The hole filling of all rows of a packed map does not fail and leaves a packed map. -/
theorem fillHoles_packed (width height : Nat) (s : BlendBuffers) (hw : width ≤ 65535)
    (hs : Packed s) : ∃ s', fillHoles width height s = some s' ∧ Packed s' := by
  unfold fillHoles
  apply foldlM_range_inv _ (fun _ t => Packed t) height s hs
  intro y t _ ht
  obtain ⟨after, h1, h2⟩ := fillRow_spec width t y
  exact ⟨after, h1, rowFilled_packed width (y * width) t after hw ht h2⟩

/-- The filled map of a camera whose pixels all decode inside the raster exists and is
packed. -/
theorem cameraFilledMap_packed (input : BlendInput) (width height : Nat) (hw : width ≤ 65535)
    (hr : AddressesInRange input.img width height) :
    ∃ filled, cameraFilledMap input width height = some filled ∧ Packed filled := by
  obtain ⟨s1, h1, hp1⟩ := decodeLoop_packed input.blendWidth input.img width height
    BlendBuffers.init packed_init hr
  obtain ⟨s2, h2, hp2⟩ := fillHoles_packed width height s1 hw hp1
  exact ⟨s2, by rw [cameraFilledMap, h1]; exact h2, hp2⟩

/-! ## The merge loop on a square map -/

/-- On a square map the index `y + n * x` determines the row and the column. -/
theorem merge_index (n y x : Nat) (hy : y < n) (hx : x < n) :
    y + n * x < n * n ∧ (y + n * x) % n = y ∧ (y + n * x) / n = x := by
  have h1 : n * (x + 1) ≤ n * n := Nat.mul_le_mul_left n (by omega)
  rw [Nat.mul_add, Nat.mul_one] at h1
  refine ⟨by omega, ?_, ?_⟩
  · rw [Nat.add_mul_mod_self_left, Nat.mod_eq_of_lt hy]
  · rw [Nat.add_mul_div_left _ _ (by omega), Nat.div_eq_of_lt hy, Nat.zero_add]

/-- The body of the merge loop on a square map keeps the invariant. -/
theorem mergeStep_inv (n : Nat) (camMap imageMap : Nat → Nat) (y c : Nat) (out : Nat → Nat)
    (hy : y < n) (hc : c < n) (h : MergeInv n camMap imageMap y c out) :
    ∃ out', mergeStep n n camMap y out c = some out'
      ∧ MergeInv n camMap imageMap y (c + 1) out' := by
  obtain ⟨h1, h2, h3⟩ := merge_index n y c hy hc
  unfold mergeStep
  dsimp only
  rw [if_pos h1]
  refine ⟨_, rfl, ?_⟩
  intro i
  by_cases hi : i = y + n * c
  · subst hi
    rw [Function.update_same, h (y + n * c), h2, h3]
    rw [if_neg (by omega), if_pos ⟨h1, Or.inr ⟨rfl, by omega⟩⟩]
  · rw [Function.update_noteq hi, h i]
    have hiff : (i < n * n ∧ (i % n < y ∨ (i % n = y ∧ i / n < c)))
        ↔ (i < n * n ∧ (i % n < y ∨ (i % n = y ∧ i / n < c + 1))) := by
      constructor
      · rintro ⟨g1, g2 | ⟨g2, g3⟩⟩
        · exact ⟨g1, Or.inl g2⟩
        · exact ⟨g1, Or.inr ⟨g2, by omega⟩⟩
      · rintro ⟨g1, g2 | ⟨g2, g3⟩⟩
        · exact ⟨g1, Or.inl g2⟩
        · refine ⟨g1, Or.inr ⟨g2, ?_⟩⟩
          have hne : i / n ≠ c := by
            intro e
            apply hi
            rw [← Nat.mod_add_div i n, g2, e]
          omega
    by_cases hcond : i < n * n ∧ (i % n < y ∨ (i % n = y ∧ i / n < c))
    · rw [if_pos hcond, if_pos (hiff.1 hcond)]
    · rw [if_neg hcond, if_neg (fun g => hcond (hiff.2 g))]

/-- The merge loops on a square map of side `n` do not fail, and increase every texel
`i < n * n` exactly once, by the camera map's value at the same texel, modulo 2^16. -/
theorem mergeLoop_square (n : Nat) (camMap imageMap : Nat → Nat) :
    ∃ out, mergeLoop n n camMap imageMap = some out
      ∧ ∀ i, out i = if i < n * n then (imageMap i + camMap i) % 65536 else imageMap i := by
  have hloop : ∃ out, mergeLoop n n camMap imageMap = some out
      ∧ MergeInv n camMap imageMap n 0 out := by
    unfold mergeLoop
    apply foldlM_range_inv _ (fun y out => MergeInv n camMap imageMap y 0 out) n imageMap
    · intro i
      rw [if_neg]
      rintro ⟨_, h | ⟨_, h⟩⟩
      · exact absurd h (Nat.not_lt_zero _)
      · exact absurd h (Nat.not_lt_zero _)
    · intro y out hy hinv
      obtain ⟨out', h1, h2⟩ := foldlM_range_inv (mergeStep n n camMap y)
        (fun c out => MergeInv n camMap imageMap y c out) n out hinv
        (fun c s hc hs => mergeStep_inv n camMap imageMap y c s hy hc hs)
      refine ⟨out', h1, ?_⟩
      intro i
      rw [h2 i]
      by_cases hin : i < n * n
      · have hdiv : i / n < n := Nat.div_lt_of_lt_mul hin
        by_cases hcond : i % n < y ∨ (i % n = y ∧ i / n < n)
        · have hnext : i % n < y + 1 ∨ (i % n = y + 1 ∧ i / n < 0) := by
            rcases hcond with g | ⟨g, _⟩
            · exact Or.inl (by omega)
            · exact Or.inl (by omega)
          rw [if_pos ⟨hin, hcond⟩, if_pos ⟨hin, hnext⟩]
        · have hnext : ¬ (i % n < y + 1 ∨ (i % n = y + 1 ∧ i / n < 0)) := by
            rintro (g | ⟨_, g⟩)
            · apply hcond
              rcases Nat.lt_or_ge (i % n) y with g' | g'
              · exact Or.inl g'
              · exact Or.inr ⟨by omega, hdiv⟩
            · exact absurd g (Nat.not_lt_zero _)
          rw [if_neg (fun g => hcond g.2), if_neg (fun g => hnext g.2)]
      · rw [if_neg (fun g => hin g.1), if_neg (fun g => hin g.1)]
  obtain ⟨out, h1, h2⟩ := hloop
  refine ⟨out, h1, ?_⟩
  intro i
  rw [h2 i]
  by_cases hin : i < n * n
  · have hn : 0 < n := by
      rcases Nat.eq_zero_or_pos n with h | h
      · subst h
        omega
      · exact h
    rw [if_pos ⟨hin, Or.inl (Nat.mod_lt i hn)⟩, if_pos hin]
  · rw [if_neg (fun g => hin g.1), if_neg hin]

/-! ## C17: the projector count in the packed value -/

/-- On a square map of type UINT16 a camera whose pixels decode inside the raster adds the
value of its filled map to every texel, modulo 2^16, and keeps the spec of the map. -/
theorem computeBlendingMap_square (n : Nat) (input : BlendInput) (map : BlendingMap)
    (hn : n ≤ 65535) (hw : map.width = n) (hh : map.height = n) (ht : map.isUInt16 = true)
    (hr : AddressesInRange input.img n n) :
    ∃ map', computeBlendingMap input map = some map'
      ∧ map'.width = n ∧ map'.height = n ∧ map'.isUInt16 = true
      ∧ ∀ i, i < n * n → map'.data i = (map.data i + texelValueBy input n i) % 65536 := by
  obtain ⟨filled, h1, _⟩ := cameraFilledMap_packed input n n hn hr
  obtain ⟨out, h2, h3⟩ := mergeLoop_square n filled.camMap map.data
  refine ⟨{ map with data := out }, ?_, hw, hh, ht, ?_⟩
  · unfold computeBlendingMap
    rw [if_neg (by rw [ht]; simp), hw, hh, h1]
    simp [h2]
  · intro i hi
    show out i = _
    rw [h3 i, if_pos hi]
    unfold texelValueBy
    rw [h1]

/-- The cameras of a list, each decoding inside the raster, merged one after the other into a
square map: every texel ends with its start value plus the sum of the cameras' values, modulo
2^16. -/
theorem computeBlendingMaps_square (n : Nat) (hn : n ≤ 65535) :
    ∀ (inputs : List BlendInput) (map : BlendingMap), map.width = n → map.height = n →
      map.isUInt16 = true → (∀ i, i < n * n → map.data i < 65536) →
      (∀ input ∈ inputs, AddressesInRange input.img n n) →
      ∃ final, computeBlendingMaps inputs map = some final
        ∧ ∀ i, i < n * n →
            final.data i
              = (map.data i + (inputs.map (fun input => texelValueBy input n i)).sum) % 65536 := by
  intro inputs
  induction inputs with
  | nil =>
    intro map _ _ _ hdata _
    refine ⟨map, rfl, ?_⟩
    intro i hi
    rw [List.map_nil, List.sum_nil, Nat.add_zero, Nat.mod_eq_of_lt (hdata i hi)]
  | cons input rest ih =>
    intro map hw hh ht _ hr
    obtain ⟨map1, h1, hw1, hh1, ht1, hd1⟩ := computeBlendingMap_square n input map hn hw hh ht
      (hr input (List.mem_cons_self _ _))
    obtain ⟨final, h2, hd2⟩ := ih map1 hw1 hh1 ht1
      (fun i hi => by rw [hd1 i hi]; exact Nat.mod_lt _ (by norm_num))
      (fun x hx => hr x (List.mem_cons_of_mem _ hx))
    refine ⟨final, ?_, ?_⟩
    · unfold computeBlendingMaps at h2 ⊢
      rw [List.foldlM_cons, h1]
      exact h2
    · intro i hi
      rw [hd2 i hi, hd1 i hi, List.map_cons, List.sum_cons]
      omega


/-- A camera's texel is 0 when it is not set and lies in [4096, 4352] when it is set. -/
theorem texel_packed (n : Nat) (hn : n ≤ 65535) (input : BlendInput)
    (hr : AddressesInRange input.img n n) (i : Nat) :
    (texelSetBy input n i = false ∧ texelValueBy input n i = 0)
      ∨ (texelSetBy input n i = true ∧ 4096 ≤ texelValueBy input n i
        ∧ texelValueBy input n i ≤ 4352) := by
  obtain ⟨filled, h1, hp⟩ := cameraFilledMap_packed input n n hn hr
  unfold texelSetBy texelValueBy
  rw [h1]
  exact hp i

/-- The sum of the cameras' values at a texel lies between 4096 and 4352 times the number of
cameras that set it. -/
theorem sum_between_count (n : Nat) (hn : n ≤ 65535) (i : Nat) (inputs : List BlendInput)
    (hr : ∀ input ∈ inputs, AddressesInRange input.img n n) :
    4096 * (inputs.filter (fun input => texelSetBy input n i)).length
        ≤ (inputs.map (fun input => texelValueBy input n i)).sum
      ∧ (inputs.map (fun input => texelValueBy input n i)).sum
        ≤ 4352 * (inputs.filter (fun input => texelSetBy input n i)).length := by
  induction inputs with
  | nil => simp
  | cons input rest ih =>
    obtain ⟨ih1, ih2⟩ := ih (fun x hx => hr x (List.mem_cons_of_mem _ hx))
    rw [List.map_cons, List.sum_cons]
    rcases texel_packed n hn input (hr input (List.mem_cons_self _ _)) i with ⟨h1, h2⟩ | ⟨h1, h2, h3⟩
    · have e : List.filter (fun input => texelSetBy input n i) (input :: rest)
          = List.filter (fun input => texelSetBy input n i) rest := by
        simp [List.filter_cons, h1]
      rw [e, h2]
      omega
    · have e : List.filter (fun input => texelSetBy input n i) (input :: rest)
          = input :: List.filter (fun input => texelSetBy input n i) rest := by
        simp [List.filter_cons, h1]
      rw [e, List.length_cons]
      omega

/-- C17: for a square map of side at most 65535, of type UINT16 and initialised to zero, and
at most 15 cameras whose pixels all decode inside the raster, merging the cameras one after
the other does not fail, and every texel ends with the plain sum of the cameras' values (no
16-bit overflow), whose quotient by 4096 is the number of cameras for which the texel is set
after decoding and hole filling; each camera's filled map holds at every texel 0 or a value in
[4096, 4352]. -/
theorem C17_count_in_upper_bits (n : Nat) (inputs : List BlendInput) (map : BlendingMap)
    (hn : n ≤ 65535) (hk : inputs.length ≤ 15)
    (hw : map.width = n) (hh : map.height = n) (ht : map.isUInt16 = true)
    (hz : ∀ i, map.data i = 0)
    (hr : ∀ input ∈ inputs, AddressesInRange input.img n n) :
    (∃ final, computeBlendingMaps inputs map = some final
      ∧ ∀ i, i < n * n →
          final.data i = (inputs.map (fun input => texelValueBy input n i)).sum
            ∧ final.data i < 65536
            ∧ final.data i / 4096 = (inputs.filter (fun input => texelSetBy input n i)).length)
    ∧ (∀ input ∈ inputs, ∃ filled, cameraFilledMap input n n = some filled
        ∧ ∀ i, filled.camMap i = 0 ∨ (4096 ≤ filled.camMap i ∧ filled.camMap i ≤ 4352)) := by
  constructor
  · obtain ⟨final, h1, h2⟩ := computeBlendingMaps_square n hn inputs map hw hh ht
      (fun i _ => by rw [hz i]; norm_num) hr
    refine ⟨final, h1, ?_⟩
    intro i hi
    obtain ⟨s1, s2⟩ := sum_between_count n hn i inputs hr
    have hc : (inputs.filter (fun input => texelSetBy input n i)).length ≤ 15 :=
      le_trans (List.length_filter_le _ _) hk
    have hv : final.data i = (inputs.map (fun input => texelValueBy input n i)).sum := by
      rw [h2 i hi, hz i, Nat.zero_add]
      exact Nat.mod_eq_of_lt (by omega)
    rw [hv]
    refine ⟨rfl, by omega, by omega⟩
  · intro input hin
    obtain ⟨filled, h1, hp⟩ := cameraFilledMap_packed input n n hn (hr input hin)
    refine ⟨filled, h1, ?_⟩
    intro i
    rcases hp i with ⟨_, g⟩ | ⟨_, g⟩
    · exact Or.inl g
    · exact Or.inr g

/-- The one-pixel read-back (R=0, G=0, B=32768, A=0) decodes inside a map of side 4. -/
theorem twoCameras_in_range : ∀ input ∈ twoCameras, AddressesInRange input.img 4 4 := by
  have h : decodeDest ⟨0, 0, 32768, 0⟩ 4 4 = (0, 2) := by
    rw [decodeDest_eq]
    rfl
  intro input hin
  simp only [twoCameras, List.mem_cons, List.mem_singleton, List.not_mem_nil, or_false] at hin
  rcases hin with e | e <;> subst e <;> intro x y _ _ <;> simp [readBackOf, h]

/-- C17 on two cameras and a zero map of side 4. -/
theorem C17_count_in_upper_bits_witness :
    (4 ≤ 65535) ∧ twoCameras.length ≤ 15 ∧ zeroMap4.width = 4 ∧ zeroMap4.height = 4
      ∧ zeroMap4.isUInt16 = true ∧ (∀ i, zeroMap4.data i = 0)
      ∧ (∀ input ∈ twoCameras, AddressesInRange input.img 4 4)
      ∧ ∃ final, computeBlendingMaps twoCameras zeroMap4 = some final
          ∧ ∀ i, i < 4 * 4 →
              final.data i = (twoCameras.map (fun input => texelValueBy input 4 i)).sum
                ∧ final.data i < 65536
                ∧ final.data i / 4096
                    = (twoCameras.filter (fun input => texelSetBy input 4 i)).length :=
  ⟨by norm_num, by simp [twoCameras], rfl, rfl, rfl, fun _ => rfl, twoCameras_in_range,
   (C17_count_in_upper_bits 4 twoCameras zeroMap4 (by norm_num) (by simp [twoCameras]) rfl rfl
      rfl (fun _ => rfl) twoCameras_in_range).1⟩

/-! ## C21 and C22: the blending modes -/

/-- The GPU path depends on the OpenGL version only. -/
theorem gpuPath_flags (M m : Int) (a b c d e a' b' c' d' e' : Bool) :
    (⟨M, m, a, b, c, d, e⟩ : Scene).gpuPath = (⟨M, m, a', b', c', d', e'⟩ : Scene).gpuPath :=
  rfl

/-- The setter's loop, run on what the getter wrote for `points`, appends the restored
points in order. -/
theorem pushCalibrationPoints_getter (points acc : List CalibrationPoint) :
    pushCalibrationPoints
        (points.map (fun p =>
          Value.v [.f p.world.x, .f p.world.y, .f p.world.z, .f p.screen.x, .f p.screen.y,
            .i (if p.isSet then 1 else 0)])) acc
      = some (acc ++ points.map CalibrationPoint.restored) := by
  induction points generalizing acc with
  | nil => simp [pushCalibrationPoints]
  | cons p ps ih =>
    rw [List.map_cons, pushCalibrationPoints, ih]
    have e : ({ CalibrationPoint.default with
          world := ⟨(Value.f p.world.x).asFloat, (Value.f p.world.y).asFloat,
            (Value.f p.world.z).asFloat⟩
          screen := ⟨(Value.f p.screen.x).asFloat, (Value.f p.screen.y).asFloat⟩
          isSet := decide ((Value.i (if p.isSet then 1 else 0)).asInt ≠ 0) } : CalibrationPoint)
        = p.restored := by
      cases h : p.isSet <;> simp [CalibrationPoint.restored, Value.asFloat, Value.asInt, h]
    rw [e]
    simp

/-- C23: for every camera A and every camera B with an empty calibration-point list, setting
the `calibrationPoints` attribute of B to the value read from A succeeds and gives B a list
with the same world, screen and `isSet` entries in the same order (hence of the same length),
and reading the attribute of B back returns the value that was set. -/
theorem C23_calibrationPoints_round_trip (A B : Camera) (hB : B.calibrationPoints = []) :
    ∃ B', B.setCalibrationPoints A.getCalibrationPoints = some (true, B')
      ∧ B'.calibrationPoints.length = A.calibrationPoints.length
      ∧ B'.calibrationPoints.map CalibrationPoint.stored
          = A.calibrationPoints.map CalibrationPoint.stored
      ∧ B'.getCalibrationPoints = A.getCalibrationPoints := by
  have h := pushCalibrationPoints_getter A.calibrationPoints B.calibrationPoints
  rw [hB, List.nil_append] at h
  refine ⟨{ B with calibrationPoints :=
      A.calibrationPoints.map CalibrationPoint.restored }.sendCalibrationPointsToObjects,
    ?_, ?_, ?_, ?_⟩
  · unfold Camera.setCalibrationPoints Camera.getCalibrationPoints
    rw [hB, h]
  · simp [Camera.sendCalibrationPointsToObjects]
  · simp [Camera.sendCalibrationPointsToObjects, CalibrationPoint.stored,
      CalibrationPoint.restored]
  · simp [Camera.sendCalibrationPointsToObjects, Camera.getCalibrationPoints,
      CalibrationPoint.restored]

/-- C23, from the camera holding the six points of the end-to-end scenario to an empty one. -/
theorem C23_calibrationPoints_round_trip_witness :
    (cameraWith [] false false).calibrationPoints = []
      ∧ ∃ B', (cameraWith [] false false).setCalibrationPoints
            (cameraWith sixPoints false false).getCalibrationPoints = some (true, B')
        ∧ B'.calibrationPoints.length = (cameraWith sixPoints false false).calibrationPoints.length
        ∧ B'.calibrationPoints.map CalibrationPoint.stored
            = (cameraWith sixPoints false false).calibrationPoints.map CalibrationPoint.stored
        ∧ B'.getCalibrationPoints = (cameraWith sixPoints false false).getCalibrationPoints :=
  ⟨rfl, C23_calibrationPoints_round_trip (cameraWith sixPoints false false)
    (cameraWith [] false false) rfl⟩

/-! ## C25: `ResizableArray::shift` -/

/-- C25 fails for `size()`: on an array of 10 elements, after `shift(3)` the method `data()`
points at element 3 and reads the original elements from there on, but `size()` returns 4,
not 7, because `shift` has already subtracted the shift from `_size` and `size()` subtracts it
again; after `shift(6)` the difference wraps around to `2^64 - 2`. -/
theorem C25_size_subtracts_shift_twice :
    (ResizableArray.ofList (List.range 10)).size = 10
      ∧ ((ResizableArray.ofList (List.range 10)).shift 3).size = 4
      ∧ ((ResizableArray.ofList (List.range 10)).shift 3).size ≠ 10 - 3
      ∧ ((ResizableArray.ofList (List.range 10)).shift 3).data = 3
      ∧ ((ResizableArray.ofList (List.range 10)).shift 3).read 0 = some 3
      ∧ ((ResizableArray.ofList (List.range 10)).shift 3).read 6 = some 9
      ∧ ((ResizableArray.ofList (List.range 10)).shift 6).size = 2 ^ 64 - 2
      ∧ (ResizableArray.ofList (List.range 10)).shift 10 = ResizableArray.ofList (List.range 10) := by
  decide

/-! ## C26: a trial whose iteration reports an error -/

/-- A trial whose first iteration succeeds without ending the loop and whose second iteration
reports an error enters the reduction with the minimum recorded after the first iteration. -/
theorem runTrial_second_error {σ : Type} (G : Gsl σ) (best : Best) (m : σ)
    (h1 : (G.iterate m).1 = 0)
    (h2 : gsl_multimin_test_size (G.size (G.iterate m).2) (1 / 1000000) = GSL_CONTINUE)
    (h3 : G.minimum (G.iterate m).2 > 1 / 2)
    (h4 : (G.iterate (G.iterate m).2).1 ≠ 0) :
    runTrial G best m
      = ((G.iterate (G.iterate m).2).2,
          reduceBest G best (G.iterate (G.iterate m).2).2 (G.minimum (G.iterate m).2)) := by
  unfold runTrial
  rw [show (10000 : Nat) = 9998 + 1 + 1 from rfl, minimizeLoop,
    if_pos ⟨rfl, DBL_MAX_gt_half⟩]
  dsimp only
  rw [if_neg (not_not.mpr h1), h2, minimizeLoop, if_pos ⟨rfl, h3⟩]
  dsimp only
  rw [if_pos h4]

/-- C26, as stated, fails for an error at a later iteration: with a minimiser whose first
iteration succeeds with the residual 1 and whose second iteration reports an error, the trial
replaces the shared best `DBL_MAX` by 1 and the selected vector by the minimiser's. -/
theorem C26_later_error_updates_best :
    (gslLateError.iterate 0).1 = 0
      ∧ (gslLateError.iterate (gslLateError.iterate 0).2).1 ≠ 0
      ∧ (runTrial gslLateError bestInitial 0).2 = ⟨1, ⟨35, 1 / 2, 1 / 2, 0, 0, 0, 0, 0, 0⟩⟩
      ∧ (runTrial gslLateError bestInitial 0).2 ≠ bestInitial := by
  have h : (runTrial gslLateError bestInitial 0).2 = ⟨1, ⟨35, 1 / 2, 1 / 2, 0, 0, 0, 0, 0, 0⟩⟩ := by
    rw [runTrial_second_error gslLateError bestInitial 0 (by decide)
      (by norm_num [gsl_multimin_test_size, gslLateError])
      (by norm_num [gslLateError]) (by decide)]
    have hlt : (1 : ℚ) < DBL_MAX := by norm_num [DBL_MAX]
    simp [reduceBest, gslLateError, bestInitial, hlt]
  refine ⟨by decide, by decide, h, ?_⟩
  rw [h]
  intro e
  have e1 : (1 : ℚ) = DBL_MAX := congrArg Best.minValue e
  have hlt : (1 : ℚ) < DBL_MAX := by norm_num [DBL_MAX]
  exact absurd e1 (ne_of_lt hlt)

/-- A loop whose first `k` iterations succeed without ending it and whose next iteration
reports an error ends at that iteration, with `localMinimum` as it was at the start when
`k = 0` and the minimum recorded after the `k`-th iteration otherwise. -/
theorem minimizeLoop_later_error {σ : Type} (G : Gsl σ) (k : Nat) :
    ∀ (fuel : Nat) (m : σ) (localMinimum : ℚ), localMinimum > 1 / 2 → k < fuel →
      (∀ j, j < k → (G.iterate (iterates G j m)).1 = 0
        ∧ gsl_multimin_test_size (G.size (iterates G (j + 1) m)) (1 / 1000000) = GSL_CONTINUE
        ∧ G.minimum (iterates G (j + 1) m) > 1 / 2) →
      (G.iterate (iterates G k m)).1 ≠ 0 →
      minimizeLoop G fuel m GSL_CONTINUE localMinimum
        = ((G.iterate (iterates G k m)).2,
            if k = 0 then localMinimum else G.minimum (iterates G k m)) := by
  induction k with
  | zero =>
    intro fuel m localMinimum hlm hfuel _ herr
    obtain ⟨f, rfl⟩ : ∃ f, fuel = f + 1 := ⟨fuel - 1, by omega⟩
    have herr0 : (G.iterate m).1 ≠ 0 := herr
    rw [minimizeLoop, if_pos ⟨rfl, hlm⟩]
    dsimp only
    rw [if_pos herr0, if_pos rfl]
    rfl
  | succ k ih =>
    intro fuel m localMinimum hlm hfuel hok herr
    obtain ⟨f, rfl⟩ : ∃ f, fuel = f + 1 := ⟨fuel - 1, by omega⟩
    obtain ⟨h1, h2, h3⟩ := hok 0 (Nat.succ_pos k)
    have h1' : (G.iterate m).1 = 0 := h1
    have h2' : gsl_multimin_test_size (G.size (G.iterate m).2) (1 / 1000000) = GSL_CONTINUE := h2
    have h3' : G.minimum (G.iterate m).2 > 1 / 2 := h3
    rw [minimizeLoop, if_pos ⟨rfl, hlm⟩]
    dsimp only
    rw [if_neg (not_not.mpr h1')]
    rw [h2', ih f (G.iterate m).2 (G.minimum (G.iterate m).2) h3' (by omega)
      (fun j hj => hok (j + 1) (by omega)) herr, if_neg (Nat.succ_ne_zero k)]
    rcases Nat.eq_zero_or_pos k with hk | hk
    · subst hk
      rfl
    · rw [if_neg (by omega)]
      rfl

/-- C26, amended: a trial whose first iteration reports an error leaves the shared best
residual and the selected vector as they were (the best never exceeding `DBL_MAX`); a trial
whose first `k >= 1` iterations succeed without ending the loop and whose next iteration
reports an error ends there and takes part in the reduction with the minimum recorded after
its `k`-th iteration and the minimiser's current vector: it replaces the shared best exactly
when that minimum is below it. -/
theorem C26_error_trial_reduction {σ : Type} (G : Gsl σ) (best : Best) (m : σ) (k : Nat)
    (hk : k < 10000) (hbest : best.minValue ≤ DBL_MAX)
    (hok : ∀ j, j < k → (G.iterate (iterates G j m)).1 = 0
      ∧ gsl_multimin_test_size (G.size (iterates G (j + 1) m)) (1 / 1000000) = GSL_CONTINUE
      ∧ G.minimum (iterates G (j + 1) m) > 1 / 2)
    (herr : (G.iterate (iterates G k m)).1 ≠ 0) :
    runTrial G best m
      = ((G.iterate (iterates G k m)).2,
          if k = 0 then best
          else if G.minimum (iterates G k m) < best.minValue then
            ⟨G.minimum (iterates G k m), G.x (G.iterate (iterates G k m)).2⟩
          else best) := by
  unfold runTrial
  rw [minimizeLoop_later_error G k 10000 m DBL_MAX DBL_MAX_gt_half hk hok herr]
  rcases Nat.eq_zero_or_pos k with h0 | h0
  · subst h0
    simp [reduceBest, not_lt.mpr hbest]
  · rw [if_neg (by omega), if_neg (by omega)]
    rfl

/-- C26 amended, on the always-failing minimiser (error at the first iteration) and on the
one failing at its second iteration. -/
theorem C26_error_trial_reduction_witness :
    bestInitial.minValue ≤ DBL_MAX
      ∧ runTrial gslFailing bestInitial ⟨1, 2, 3, 4, 5, 6, 7, 8, 9⟩
          = (⟨1, 2, 3, 4, 5, 6, 7, 8, 9⟩, bestInitial)
      ∧ runTrial gslLateError bestInitial 0
          = (2, ⟨1, ⟨35, 1 / 2, 1 / 2, 0, 0, 0, 0, 0, 0⟩⟩) := by
  have hfirst := C26_error_trial_reduction gslFailing bestInitial ⟨1, 2, 3, 4, 5, 6, 7, 8, 9⟩ 0
    (by norm_num) (le_refl _) (fun j hj => absurd hj (Nat.not_lt_zero j)) (by decide)
  have hlater := C26_error_trial_reduction gslLateError bestInitial 0 1 (by norm_num)
    (le_refl _)
    (fun j hj => by
      obtain rfl : j = 0 := by omega
      exact ⟨by decide, by norm_num [gsl_multimin_test_size, gslLateError],
        by norm_num [gslLateError]⟩)
    (by decide)
  have hlt : (1 : ℚ) < DBL_MAX := by norm_num [DBL_MAX]
  refine ⟨le_refl _, ?_, ?_⟩
  · rw [hfirst, if_pos rfl]
    rfl
  · rw [hlater, if_neg (by decide)]
    have hmin : gslLateError.minimum (iterates gslLateError 1 0) = 1 := rfl
    have hbest : bestInitial.minValue = DBL_MAX := rfl
    rw [hmin, hbest, if_pos hlt]
    rfl

/-! ## C29: the selected index -/

/-- With a single point in the list, the search of the two-value form of
`removeCalibrationPoint` finds index 0 whenever the distance is below `DBL_MAX`. -/
theorem nearestLoop_single (L : Libm) (hs : ∀ x, L.sqrt x < DBL_MAX) (lookM projM : Mat4)
    (viewport : Vec4) (screenPoint : Vec3) (p : CalibrationPoint) :
    (nearestLoop L lookM projM viewport screenPoint [p] 0 (DBL_MAX, -1)).2 = 0 := by
  simp only [nearestLoop, length]
  rw [if_pos (hs _)]
  rfl

/-- Every value of the square root of `libmTable` is below `DBL_MAX`. -/
theorem libmTable_sqrt_lt (x : ℚ) : libmTable.sqrt x < DBL_MAX := by
  have h0 : (0 : ℚ) < DBL_MAX := by norm_num [DBL_MAX]
  have h1 : (1 : ℚ) < DBL_MAX := by norm_num [DBL_MAX]
  show (if x = 1 then (1 : ℚ) else 0) < DBL_MAX
  rw [apply_ite (fun v : ℚ => v < DBL_MAX)]
  simp only [h0, h1, ite_self]

/-- C29 fails: the two-value form of `removeCalibrationPoint` erases the nearest point
without touching the selected index (the three-value form resets it to -1), so that after
removing the only point of a camera whose selection is 0 the list is empty, the selection is
still 0 and `setCalibrationPoint` indexes the empty list; `selectPreviousCalibrationPoint`
with nothing selected makes the index -2, after which `setCalibrationPoint` is out of bounds
too; and `selectNextCalibrationPoint` on an empty list takes a remainder by zero. -/
theorem C29_selected_index_left_dangling :
    cameraOnePointSelected.selectionValid
      ∧ (cameraOnePointSelected.removeCalibrationPoint libmTable [.f 0, .f 0] false).calibrationPoints
          = []
      ∧ (cameraOnePointSelected.removeCalibrationPoint libmTable [.f 0, .f 0]
          false).selectedCalibrationPoint = 0
      ∧ ¬ (cameraOnePointSelected.removeCalibrationPoint libmTable [.f 0, .f 0]
          false).selectionValid
      ∧ (cameraOnePointSelected.removeCalibrationPoint libmTable [.f 0, .f 0]
          false).setCalibrationPoint [.f 0, .f 0] = none
      ∧ (cameraOnePointSelected.removeCalibrationPoint libmTable [.f 0, .f 0, .f 0]
          false).selectionValid
      ∧ (cameraOnePoint false).selectionValid
      ∧ (cameraOnePoint false).selectPreviousCalibrationPoint.selectedCalibrationPoint = -2
      ∧ ¬ (cameraOnePoint false).selectPreviousCalibrationPoint.selectionValid
      ∧ (cameraOnePoint false).selectPreviousCalibrationPoint.setCalibrationPoint [.f 0, .f 0]
          = none
      ∧ (cameraWith [] false false).selectNextCalibrationPoint = none := by
  have hfound := nearestLoop_single libmTable libmTable_sqrt_lt
    (lookAt libmTable cameraOnePointSelected.eye cameraOnePointSelected.target
      cameraOnePointSelected.up)
    (cameraOnePointSelected.computeProjectionMatrix libmTable cameraOnePointSelected.fov
      cameraOnePointSelected.cx cameraOnePointSelected.cy)
    ⟨0, 0, cameraOnePointSelected.width, cameraOnePointSelected.height⟩
    ⟨(Value.f 0).asFloat, (Value.f 0).asFloat, 0⟩
    { world := ⟨2, 1, 1⟩, screen := ⟨0, 0⟩, isSet := true, weight := 1 / 2 }
  have hrem : cameraOnePointSelected.removeCalibrationPoint libmTable [.f 0, .f 0] false
      = { cameraOnePointSelected with calibrationPoints := [], calibrationCalledOnce := false } := by
    have hp : cameraOnePointSelected.calibrationPoints
        = [{ world := ⟨2, 1, 1⟩, screen := ⟨0, 0⟩, isSet := true, weight := 1 / 2 }] := rfl
    unfold Camera.removeCalibrationPoint
    simp only [hp, hfound]
    rfl
  rw [hrem]
  refine ⟨by decide, rfl, rfl, by decide, by decide, ?_, by decide, by decide, by decide,
    by decide, by decide⟩
  simp [Camera.removeCalibrationPoint, removeWorldLoop, cameraOnePointSelected, cameraOnePoint,
    cameraWith, Camera.selectionValid, Value.asFloat]

/-! ## C30: the merge loop on a square map is the row-major addition -/

/-- C30: on a square map of side `n` the merge loops do not fail and give the row-major
element-wise addition modulo 2^16, and the index map (x, y) -> y + n * x sends the pairs with
x < n and y < n one-to-one onto the texels below n * n. -/
theorem C30_merge_square_is_row_major_addition (n : Nat) (camMap imageMap : Nat → Nat) :
    mergeLoop n n camMap imageMap = some (rowMajorAdd n camMap imageMap)
      ∧ (∀ x y, x < n → y < n → y + n * x < n * n)
      ∧ (∀ x y x' y', x < n → y < n → x' < n → y' < n →
          y + n * x = y' + n * x' → x = x' ∧ y = y')
      ∧ (∀ i, i < n * n → ∃ x y, x < n ∧ y < n ∧ y + n * x = i) := by
  refine ⟨?_, ?_, ?_, ?_⟩
  · obtain ⟨out, h1, h2⟩ := mergeLoop_square n camMap imageMap
    rw [h1]
    congr 1
    funext i
    exact h2 i
  · intro x y hx hy
    exact (merge_index n y x hy hx).1
  · intro x y x' y' hx hy hx' hy' h
    have a := merge_index n y x hy hx
    have b := merge_index n y' x' hy' hx'
    constructor
    · rw [← a.2.2, ← b.2.2, h]
    · rw [← a.2.1, ← b.2.1, h]
  · intro i hi
    have hn : 0 < n := by
      rcases Nat.eq_zero_or_pos n with h | h
      · subst h
        exact absurd hi (Nat.not_lt_zero _)
      · exact h
    refine ⟨i / n, i % n, ?_, Nat.mod_lt _ hn, Nat.mod_add_div i n⟩
    exact Nat.div_lt_of_lt_mul hi

/-- C30, on a map of side 2. -/
theorem C30_merge_square_is_row_major_addition_witness :
    mergeLoop 2 2 camMapOneToSix (fun _ => 0) = some (rowMajorAdd 2 camMapOneToSix (fun _ => 0))
      ∧ 1 + 2 * 1 < 2 * 2
      ∧ ∃ x y, x < 2 ∧ y < 2 ∧ y + 2 * x = 3 :=
  ⟨(C30_merge_square_is_row_major_addition 2 camMapOneToSix (fun _ => 0)).1,
   (C30_merge_square_is_row_major_addition 2 camMapOneToSix (fun _ => 0)).2.1 1 1
     (by decide) (by decide),
   (C30_merge_square_is_row_major_addition 2 camMapOneToSix (fun _ => 0)).2.2.2 3 (by decide)⟩

/-! ## C28: the hole filling of a whole map -/

/-- The description of a filled column depends on the row of the map before the filling
only. -/
theorem columnFilled_before_congr (width base : Nat) (before before' after : BlendBuffers)
    (j : Nat) (hj : j < width)
    (h : ∀ x, x < width → before'.camMap (base + x) = before.camMap (base + x)
      ∧ before'.isSet (base + x) = before.isSet (base + x))
    (hc : ColumnFilled width base before after j) : ColumnFilled width base before' after j := by
  rcases hc with ⟨h1, h2, h3⟩ | ⟨h1, h2, h3, h4⟩ | ⟨h1, a, e, h2, h3, h4, h5, h6, h7, h8, h9, h10⟩
  · exact Or.inl ⟨by rw [(h j hj).2]; exact h1, h2, by rw [(h j hj).1]; exact h3⟩
  · refine Or.inr (Or.inl ⟨by rw [(h j hj).2]; exact h1, h2, by rw [(h j hj).1]; exact h3, ?_⟩)
    rcases h4 with g | g
    · exact Or.inl (fun a ha => by rw [(h a (by omega)).2]; exact g a ha)
    · exact Or.inr (fun e he hew => by rw [(h e hew).2]; exact g e he hew)
  · refine Or.inr (Or.inr ⟨by rw [(h j hj).2]; exact h1, a, e, h2, h3, h4, ?_, ?_, ?_, ?_, h9, ?_⟩)
    · rw [(h a (by omega)).2]; exact h5
    · rw [(h e h4).2]; exact h6
    · intro i hi1 hi2
      rw [(h i (by omega)).2]; exact h7 i hi1 hi2
    · intro i hi1 hi2
      rw [(h i hi2).2]; exact h8 i hi1 hi2
    · rw [h10, (h a (by omega)).1, (h e h4).1]
      rfl

/-- The loop over the rows does not fail and fills every row from the original row. -/
theorem fillHoles_rows (width height : Nat) (before : BlendBuffers) :
    ∃ after, fillHoles width height before = some after ∧ RowsInv width before height after := by
  unfold fillHoles
  apply foldlM_range_inv _ (fun k t => RowsInv width before k t) height before
  · exact ⟨fun i _ => ⟨rfl, rfl⟩, fun y hy => absurd hy (Nat.not_lt_zero _)⟩
  · intro y t _ ht
    obtain ⟨hrest, hdone⟩ := ht
    obtain ⟨t', hrun, hframe, hcols⟩ := fillRow_spec width t y
    have hmul : (y + 1) * width = y * width + width := Nat.succ_mul y width
    refine ⟨t', hrun, ?_, ?_⟩
    · intro i hi
      have g := hframe i (Or.inr (by omega))
      have g' := hrest i (by omega)
      exact ⟨by rw [g.1, g'.1], by rw [g.2, g'.2]⟩
    · intro y' hy' j hj
      rcases Nat.lt_succ_iff_lt_or_eq.1 hy' with hlt | heq
      · have hle : (y' + 1) * width ≤ y * width := Nat.mul_le_mul_right width hlt
        rw [Nat.succ_mul] at hle
        have g := hframe (y' * width + j) (Or.inl (by omega))
        exact columnFilled_congr width (y' * width) before t t' j g.1 g.2 (hdone y' hlt j hj)
      · subst heq
        exact columnFilled_before_congr width (y' * width) t before t' j hj
          (fun x _ => ⟨((hrest (y' * width + x) (by omega)).1).symm,
            ((hrest (y' * width + x) (by omega)).2).symm⟩)
          (hcols j hj)

/-- A filled column, as the code fills it, is as the specification describes it. -/
theorem texelHoleFilled_of_columnFilled (width : Nat) (before after : BlendBuffers) (y j : Nat)
    (hc : ColumnFilled width (y * width) before after j) :
    TexelHoleFilled width before after y j := by
  rcases hc with ⟨h1, h2, h3⟩ | ⟨h1, h2, h3, h4⟩ | ⟨h1, a, e, h2, h3, h4, h5, h6, h7, h8, h9, h10⟩
  · refine ⟨fun _ => ⟨h2, h3⟩, fun g => ?_, fun g => ?_⟩
    · rw [h1] at g
      exact absurd g (by simp)
    · rw [h1] at g
      exact absurd g (by simp)
  · refine ⟨fun g => ?_, fun _ hex => ?_, fun _ _ => ⟨h2, h3⟩⟩
    · rw [h1] at g
      exact absurd g (by simp)
    · obtain ⟨a, e, ha, he, hew, hsa, hse⟩ := hex
      rcases h4 with g | g
      · rw [g a ha] at hsa
        exact absurd hsa (by simp)
      · rw [g e he hew] at hse
        exact absurd hse (by simp)
  · refine ⟨fun g => ?_, fun _ _ => ⟨h9, ?_⟩, fun _ hout => ?_⟩
    · rw [h1] at g
      exact absurd g (by simp)
    · intro hw h16 lo hi hb
      have ga := hb a (by omega) h5
      have ge := hb e h4 h6
      obtain ⟨_, hmin, hmax⟩ := pixelValue_eq_interpolate
        ⟨before, before.camMap (y * width + a), before.camMap (y * width + e), a, e, true⟩ j
        (h16 a (by omega)) (h16 e h4) h2 h3
        (product_no_overflow _ ((j : Int) - (a : Int)) ((e : Int) - (a : Int) - 1)
          (by omega) (by omega)
          (no_overflow_of_width width a e (before.camMap (y * width + a))
            (before.camMap (y * width + e)) hw (by omega) h4 (h16 a (by omega)) (h16 e h4)))
      rw [h10]
      exact ⟨le_trans (le_min ga.1 ge.1) hmin, le_trans hmax (max_le ga.2 ge.2)⟩
    · rcases hout with g | g
      · rw [g a h2] at h5
        exact absurd h5 (by simp)
      · rw [g e h3 h4] at h6
        exact absurd h6 (by simp)

/-- C28: for every map the hole-filling pass ends with a result, and in every row every
texel set before keeps its value, every unset texel with a set texel of the row on each side
is marked set with a value between the smallest and the largest set value of the row (for
rows at most 32768 wide holding 16-bit values), and every unset texel before the first or
after the last set texel of the row stays unset with its value, 0 as allocated. -/
theorem C28_hole_filling_pass (width height : Nat) (before : BlendBuffers) :
    ∃ after, fillHoles width height before = some after
      ∧ ∀ y, y < height → ∀ j, j < width → TexelHoleFilled width before after y j := by
  obtain ⟨after, hrun, _, hcols⟩ := fillHoles_rows width height before
  exact ⟨after, hrun, fun y hy j hj =>
    texelHoleFilled_of_columnFilled width before after y j (hcols y hy j hj)⟩

/-- C28 on the one-row map `[_, 10, _, _, 50, _]`: the pass ends, texels 2 and 3 are marked
set with values between 10 and 50, texels 1 and 4 keep 10 and 50, texels 0 and 5 stay unset
with value 0. -/
theorem C28_hole_filling_pass_witness :
    ∃ after, fillHoles 6 1 rowWithMargins = some after
      ∧ after.isSet 2 = true ∧ 10 ≤ after.camMap 2 ∧ after.camMap 2 ≤ 50
      ∧ after.isSet 3 = true ∧ 10 ≤ after.camMap 3 ∧ after.camMap 3 ≤ 50
      ∧ after.camMap 1 = 10 ∧ after.camMap 4 = 50
      ∧ after.isSet 0 = false ∧ after.camMap 0 = 0
      ∧ after.isSet 5 = false ∧ after.camMap 5 = 0 := by
  obtain ⟨after, hrun, hall⟩ := C28_hole_filling_pass 6 1 rowWithMargins
  have h16 : ∀ x, x < 6 → rowWithMargins.camMap (0 * 6 + x) < 65536 := by decide
  have hb : ∀ x, x < 6 → rowWithMargins.isSet (0 * 6 + x) = true →
      10 ≤ rowWithMargins.camMap (0 * 6 + x) ∧ rowWithMargins.camMap (0 * 6 + x) ≤ 50 := by
    decide
  have t2 := (hall 0 (by decide) 2 (by decide)).2.1 (by decide)
    ⟨1, 4, by decide, by decide, by decide, by decide, by decide⟩
  have t3 := (hall 0 (by decide) 3 (by decide)).2.1 (by decide)
    ⟨1, 4, by decide, by decide, by decide, by decide, by decide⟩
  have t1 := (hall 0 (by decide) 1 (by decide)).1 (by decide)
  have t4 := (hall 0 (by decide) 4 (by decide)).1 (by decide)
  have t0 := (hall 0 (by decide) 0 (by decide)).2.2 (by decide)
    (Or.inl (fun a ha => absurd ha (Nat.not_lt_zero a)))
  have t5 := (hall 0 (by decide) 5 (by decide)).2.2 (by decide)
    (Or.inr (fun e he hew => by omega))
  have b2 := t2.2 (by decide) h16 10 50 hb
  have b3 := t3.2 (by decide) h16 10 50 hb
  exact ⟨after, hrun, t2.1, b2.1, b2.2, t3.1, b3.1, b3.2, t1.2, t4.2, t0.1, t0.2, t5.1, t5.2⟩

/-! ## C27: the orientation of a committed calibration -/

/-- The Lagrange identity: `|a × b|² = |a|² |b|² - (a · b)²`. -/
theorem cross_dot_cross (a b : Vec3) :
    (a.cross b).dot (a.cross b) = a.dot a * b.dot b - (a.dot b) ^ 2 := by
  simp only [Vec3.cross, Vec3.dot]
  ring

/-- The components of the rotated forward vector: the first column of `yawPitchRoll`. -/
theorem rotatedForward_eq (L : Libm) (v : Vec9) :
    rotatedForward L v
      = ⟨L.cos v.x6 * L.cos v.x8 + L.sin v.x6 * L.sin v.x7 * L.sin v.x8,
          L.sin v.x8 * L.cos v.x7,
          -L.sin v.x6 * L.cos v.x8 + L.cos v.x6 * L.sin v.x7 * L.sin v.x8⟩ := by
  simp [rotatedForward, yawPitchRoll, Mat4.mulVec, Vec4.add, Vec4.smul, Vec4.xyz]

/-- The components of the rotated up vector: the third column of `yawPitchRoll`. -/
theorem rotatedUp_eq (L : Libm) (v : Vec9) :
    rotatedUp L v = ⟨L.sin v.x6 * L.cos v.x7, -L.sin v.x7, L.cos v.x6 * L.cos v.x7⟩ := by
  simp [rotatedUp, yawPitchRoll, Mat4.mulVec, Vec4.add, Vec4.smul, Vec4.xyz]

/-- With an exact math library the rotated forward and up vectors are an orthonormal pair. -/
theorem rotated_orthonormal (L : Libm) (v : Vec9) (hy : L.Pythagorean v.x6)
    (hp : L.Pythagorean v.x7) (hr : L.Pythagorean v.x8) :
    (rotatedForward L v).dot (rotatedForward L v) = 1
      ∧ (rotatedUp L v).dot (rotatedUp L v) = 1
      ∧ (rotatedForward L v).dot (rotatedUp L v) = 0 := by
  unfold Libm.Pythagorean at hy hp hr
  rw [rotatedForward_eq, rotatedUp_eq]
  simp only [Vec3.dot]
  refine ⟨?_, ?_, ?_⟩
  · linear_combination
      (L.cos v.x8 ^ 2 + L.sin v.x7 ^ 2 * L.sin v.x8 ^ 2) * hy + L.sin v.x8 ^ 2 * hp + hr
  · linear_combination L.cos v.x7 ^ 2 * hy + hp
  · linear_combination (L.cos v.x7 * L.sin v.x7 * L.sin v.x8) * hy

/-- The eye, target and up of a committed camera. -/
theorem commit_orientation (L : Libm) (c : Camera) (v : Vec9) :
    (c.commit L v).eye = ⟨v.x3, v.x4, v.x5⟩
      ∧ (c.commit L v).target = (rotatedForward L v).add ⟨v.x3, v.x4, v.x5⟩
      ∧ (c.commit L v).up = normalize L (rotatedUp L v) := by
  refine ⟨rfl, rfl, rfl⟩

/-- Adding and subtracting the same vector. -/
theorem add_sub_cancel_vec (a e : Vec3) : (a.add e).sub e = a := by
  simp [Vec3.add, Vec3.sub]

/-- With `sqrt 1 = 1`, normalising a vector of squared length 1 leaves it as it is. -/
theorem normalize_unit (L : Libm) (hs : L.sqrt 1 = 1) (u : Vec3) (hu : u.dot u = 1) :
    normalize L u = u := by
  simp [normalize, hu, hs, Vec3.smul]

/-- A trial whose first iteration succeeds and meets the size test ends there, and enters the
reduction with the minimum the minimiser reports. -/
theorem runTrial_first_success {σ : Type} (G : Gsl σ) (best : Best) (m : σ)
    (h1 : (G.iterate m).1 = 0) (h2 : G.size (G.iterate m).2 < 1 / 1000000) :
    runTrial G best m
      = ((G.iterate m).2, reduceBest G best (G.iterate m).2 (G.minimum (G.iterate m).2)) := by
  unfold runTrial
  rw [show (10000 : Nat) = 9998 + 1 + 1 from rfl, minimizeLoop,
    if_pos ⟨rfl, DBL_MAX_gt_half⟩]
  dsimp only
  rw [if_neg (not_not.mpr h1), gsl_multimin_test_size, if_pos h2, minimizeLoop,
    if_neg (fun h => absurd h.1 (by decide))]

/-- With a minimiser that succeeds at once with the residual 0 at `v0`, a trial gives the best
`⟨0, v0⟩` from a best that is `DBL_MAX` or already `⟨0, v0⟩`. -/
theorem runTrial_perfect {σ : Type} (G : Gsl σ) (v0 : Vec9)
    (h1 : ∀ m, (G.iterate m).1 = 0) (h2 : ∀ m, G.size m < 1 / 1000000)
    (h3 : ∀ m, G.minimum m = 0) (h4 : ∀ m, G.x (G.iterate m).2 = v0)
    (best : Best) (m : σ) (hb : best.minValue = DBL_MAX ∨ best = ⟨0, v0⟩) :
    (runTrial G best m).2 = ⟨0, v0⟩ := by
  rw [runTrial_first_success G best m (h1 m) (h2 _), h3]
  show reduceBest G best (G.iterate m).2 0 = _
  unfold reduceBest
  rcases hb with hb | hb
  · rw [if_pos (by rw [hb]; norm_num [DBL_MAX]), h4]
  · rw [if_neg (by rw [hb]; exact lt_irrefl _), hb]

/-- The trials of one task of the first phase keep the best `⟨0, v0⟩`. -/
theorem coarse_foldl_perfect {σ : Type} (G : Gsl σ) (v0 : Vec9)
    (h1 : ∀ m, (G.iterate m).1 = 0) (h2 : ∀ m, G.size m < 1 / 1000000)
    (h3 : ∀ m, G.minimum m = 0) (h4 : ∀ m, G.x (G.iterate m).2 = v0)
    (rand : Nat → ℚ) (f : Vec9 → ℚ) (eye : Vec3) (l : List (ℚ × ℚ)) (st : Coarse σ)
    (hb : st.best = ⟨0, v0⟩) :
    (l.foldl (coarseTrial G rand f eye) st).best = ⟨0, v0⟩ := by
  induction l generalizing st with
  | nil => exact hb
  | cons a l ih =>
    rw [List.foldl_cons]
    apply ih
    simp only [coarseTrial]
    exact runTrial_perfect G v0 h1 h2 h3 h4 _ _ (Or.inr hb)

/-- One task of the first phase ends with the best `⟨0, v0⟩`. -/
theorem coarseTask_perfect {σ : Type} (G : Gsl σ) (v0 : Vec9)
    (h1 : ∀ m, (G.iterate m).1 = 0) (h2 : ∀ m, G.size m < 1 / 1000000)
    (h3 : ∀ m, G.minimum m = 0) (h4 : ∀ m, G.x (G.iterate m).2 = v0)
    (rand : Nat → ℚ) (f : Vec9 → ℚ) (eye : Vec3) (acc : Nat × Best) (index : Nat)
    (hb : acc.2.minValue = DBL_MAX ∨ acc.2 = ⟨0, v0⟩) :
    (coarseTask G rand f eye acc index).2 = ⟨0, v0⟩ := by
  obtain ⟨a, l, hl⟩ : ∃ a l, grid = a :: l := ⟨_, _, rfl⟩
  simp only [coarseTask]
  rw [hl, List.foldl_cons]
  apply coarse_foldl_perfect G v0 h1 h2 h3 h4
  simp only [coarseTrial]
  exact runTrial_perfect G v0 h1 h2 h3 h4 _ _ hb

/-- The tasks of the first phase keep the best `⟨0, v0⟩`. -/
theorem coarseTask_foldl_perfect {σ : Type} (G : Gsl σ) (v0 : Vec9)
    (h1 : ∀ m, (G.iterate m).1 = 0) (h2 : ∀ m, G.size m < 1 / 1000000)
    (h3 : ∀ m, G.minimum m = 0) (h4 : ∀ m, G.x (G.iterate m).2 = v0)
    (rand : Nat → ℚ) (f : Vec9 → ℚ) (eye : Vec3) (l : List Nat) (acc : Nat × Best)
    (hb : acc.2 = ⟨0, v0⟩) :
    (l.foldl (coarseTask G rand f eye) acc).2 = ⟨0, v0⟩ := by
  induction l generalizing acc with
  | nil => exact hb
  | cons a l ih =>
    rw [List.foldl_cons]
    exact ih _ (coarseTask_perfect G v0 h1 h2 h3 h4 rand f eye acc a (Or.inr hb))

/-- The second phase keeps the best `⟨0, v0⟩`. -/
theorem fine_foldl_perfect {σ : Type} (G : Gsl σ) (v0 : Vec9)
    (h1 : ∀ m, (G.iterate m).1 = 0) (h2 : ∀ m, G.size m < 1 / 1000000)
    (h3 : ∀ m, G.minimum m = 0) (h4 : ∀ m, G.x (G.iterate m).2 = v0)
    (f : Vec9 → ℚ) (l : List Nat) (best : Best) (hb : best = ⟨0, v0⟩) :
    l.foldl (fineTrial G f) best = ⟨0, v0⟩ := by
  induction l generalizing best with
  | nil => exact hb
  | cons a l ih =>
    rw [List.foldl_cons]
    apply ih
    simp only [fineTrial]
    exact runTrial_perfect G v0 h1 h2 h3 h4 _ _ (Or.inr hb)

/-- With a minimiser that succeeds at once with the residual 0 at `v0`, the search ends with
`minValue = 0` and `selectedValues = v0`. -/
theorem calibrationSearch_perfect {σ : Type} (G : Gsl σ) (v0 : Vec9)
    (h1 : ∀ m, (G.iterate m).1 = 0) (h2 : ∀ m, G.size m < 1 / 1000000)
    (h3 : ∀ m, G.minimum m = 0) (h4 : ∀ m, G.x (G.iterate m).2 = v0)
    (rand : Nat → ℚ) (f : Vec9 → ℚ) (eye : Vec3) :
    calibrationSearch G rand f eye = ⟨0, v0⟩ := by
  have hc : coarseSearch G rand f eye = ⟨0, v0⟩ := by
    unfold coarseSearch
    rw [show List.range 4 = 0 :: [1, 2, 3] from rfl, List.foldl_cons]
    apply coarseTask_foldl_perfect G v0 h1 h2 h3 h4
    exact coarseTask_perfect G v0 h1 h2 h3 h4 rand f eye _ 0 (Or.inl rfl)
  unfold calibrationSearch
  exact fine_foldl_perfect G v0 h1 h2 h3 h4 f _ _ hc

/-- The search of any camera with the minimiser `gslPerfect` ends with the residual 0 at
`perfectValues`. -/
theorem search_gslPerfect (L : Libm) (rand : Nat → ℚ) (c : Camera) :
    c.search L gslPerfect rand = ⟨0, perfectValues⟩ := by
  unfold Camera.search
  exact calibrationSearch_perfect gslPerfect perfectValues (fun _ => rfl)
    (fun _ => by norm_num [gslPerfect]) (fun _ => rfl) (fun _ => rfl) rand _ _

/-- The search of any camera with the minimiser `gslRotated` ends with the residual 0 at
`rotatedValues`. -/
theorem search_gslRotated (L : Libm) (rand : Nat → ℚ) (c : Camera) :
    c.search L gslRotated rand = ⟨0, rotatedValues⟩ := by
  unfold Camera.search
  exact calibrationSearch_perfect gslRotated rotatedValues (fun _ => rfl)
    (fun _ => by norm_num [gslRotated]) (fun _ => rfl) (fun _ => rfl) rand _ _

/-- C27: when `Camera::doCalibration` commits (at least 6 set points and a best residual of
at most 1000), for every winning eye `(ex, ey, ez)` and every winning yaw, pitch and roll, the
call returns true, the eye of the camera is the winning eye, target - eye is the vector
(1, 0, 0) rotated by `yawPitchRoll`, that is the first column of the rotation matrix written
out below, and up is the normalised vector (0, 0, 1) rotated by the same matrix, its third
column. With a math library exact at the three angles (`cos² + sin² = 1`, `sqrt 1 = 1`), up is
that third column itself, target - eye and up have length 1 and are perpendicular, the target
differs from the eye, their cross product is not zero, and `computeViewMatrix` takes the
look-at of the committed eye, target and up without its fallback. -/
theorem C27_committed_orientation {σ : Type} (L : Libm) (G : Gsl σ) (rand : Nat → ℚ)
    (c : Camera) (fov cx cy ex ey ez yaw pitch roll : ℚ) (h6 : 6 ≤ c.pointsSet)
    (hmin : (c.winning L G rand).minValue ≤ 1000)
    (hv : (c.winning L G rand).selectedValues = ⟨fov, cx, cy, ex, ey, ez, yaw, pitch, roll⟩) :
    ∃ after, c.doCalibration L G rand = (true, after)
      ∧ after.eye = ⟨ex, ey, ez⟩
      ∧ after.target.sub after.eye
          = ⟨L.cos yaw * L.cos roll + L.sin yaw * L.sin pitch * L.sin roll,
              L.sin roll * L.cos pitch,
              -L.sin yaw * L.cos roll + L.cos yaw * L.sin pitch * L.sin roll⟩
      ∧ after.up
          = normalize L ⟨L.sin yaw * L.cos pitch, -L.sin pitch, L.cos yaw * L.cos pitch⟩
      ∧ (L.Pythagorean yaw → L.Pythagorean pitch → L.Pythagorean roll → L.sqrt 1 = 1 →
          after.up = ⟨L.sin yaw * L.cos pitch, -L.sin pitch, L.cos yaw * L.cos pitch⟩
            ∧ length L (after.target.sub after.eye) = 1
            ∧ length L after.up = 1
            ∧ (after.target.sub after.eye).dot after.up = 0
            ∧ after.target ≠ after.eye
            ∧ (after.target.sub after.eye).cross after.up ≠ ⟨0, 0, 0⟩
            ∧ after.computeViewMatrix L = (lookAt L after.eye after.target after.up, after)) := by
  have hdo : c.doCalibration L G rand
      = (true, { c with calibrationCalledOnce := true }.commit L
          ⟨fov, cx, cy, ex, ey, ez, yaw, pitch, roll⟩) := by
    rw [← hv]
    unfold Camera.doCalibration
    rw [if_neg (by omega)]
    exact if_neg (not_lt.mpr hmin)
  obtain ⟨he, ht, hup⟩ := commit_orientation L { c with calibrationCalledOnce := true }
    ⟨fov, cx, cy, ex, ey, ez, yaw, pitch, roll⟩
  have hF : rotatedForward L ⟨fov, cx, cy, ex, ey, ez, yaw, pitch, roll⟩
      = ⟨L.cos yaw * L.cos roll + L.sin yaw * L.sin pitch * L.sin roll,
          L.sin roll * L.cos pitch,
          -L.sin yaw * L.cos roll + L.cos yaw * L.sin pitch * L.sin roll⟩ :=
    rotatedForward_eq L _
  have hU : rotatedUp L ⟨fov, cx, cy, ex, ey, ez, yaw, pitch, roll⟩
      = ⟨L.sin yaw * L.cos pitch, -L.sin pitch, L.cos yaw * L.cos pitch⟩ :=
    rotatedUp_eq L _
  have hsub : (Camera.commit L { c with calibrationCalledOnce := true }
        ⟨fov, cx, cy, ex, ey, ez, yaw, pitch, roll⟩).target.sub
        (Camera.commit L { c with calibrationCalledOnce := true }
          ⟨fov, cx, cy, ex, ey, ez, yaw, pitch, roll⟩).eye
      = ⟨L.cos yaw * L.cos roll + L.sin yaw * L.sin pitch * L.sin roll,
          L.sin roll * L.cos pitch,
          -L.sin yaw * L.cos roll + L.cos yaw * L.sin pitch * L.sin roll⟩ := by
    rw [ht, he, ← hF]
    exact add_sub_cancel_vec _ _
  rw [hU] at hup
  refine ⟨_, hdo, he, hsub, hup, ?_⟩
  intro hy hp hr hs
  obtain ⟨hff, huu, hfu⟩ := rotated_orthonormal L
    ⟨fov, cx, cy, ex, ey, ez, yaw, pitch, roll⟩ hy hp hr
  rw [hF] at hff hfu
  rw [hU] at huu hfu
  have hup1 : (Camera.commit L { c with calibrationCalledOnce := true }
        ⟨fov, cx, cy, ex, ey, ez, yaw, pitch, roll⟩).up
      = ⟨L.sin yaw * L.cos pitch, -L.sin pitch, L.cos yaw * L.cos pitch⟩ := by
    rw [hup, normalize_unit L hs _ huu]
  have hne : (Camera.commit L { c with calibrationCalledOnce := true }
        ⟨fov, cx, cy, ex, ey, ez, yaw, pitch, roll⟩).target
      ≠ (Camera.commit L { c with calibrationCalledOnce := true }
        ⟨fov, cx, cy, ex, ey, ez, yaw, pitch, roll⟩).eye := by
    intro heq
    have h0 := hff
    rw [← hsub, heq] at h0
    simp [Vec3.sub, Vec3.dot] at h0
  refine ⟨hup1, ?_, ?_, ?_, hne, ?_, ?_⟩
  · rw [hsub, length, hff, hs]
  · rw [hup1, length, huu, hs]
  · rw [hsub, hup1, hfu]
  · intro hc
    have h0 := cross_dot_cross
      ⟨L.cos yaw * L.cos roll + L.sin yaw * L.sin pitch * L.sin roll,
        L.sin roll * L.cos pitch,
        -L.sin yaw * L.cos roll + L.cos yaw * L.sin pitch * L.sin roll⟩
      ⟨L.sin yaw * L.cos pitch, -L.sin pitch, L.cos yaw * L.cos pitch⟩
    rw [hsub, hup1] at hc
    rw [hc, hff, huu, hfu] at h0
    simp [Vec3.dot] at h0
  · unfold Camera.computeViewMatrix
    rw [if_neg (fun h => hne h.symm)]

/-- C27, with the minimiser that reports the residual 0 at eye (1, 2, 3), yaw 1, pitch 2 and
roll 3, and the math library whose cosines and sines there are 3/5 and 4/5, 5/13 and 12/13,
8/17 and 15/17: the camera ends with eye (1, 2, 3), target - eye
(1032/1105, 75/221, 124/1105) and up (4/13, -12/13, 3/13), of length 1 and perpendicular. -/
theorem C27_committed_orientation_witness :
    6 ≤ (cameraWith sixPoints false false).pointsSet
      ∧ libmTriples.Pythagorean 1 ∧ libmTriples.Pythagorean 2 ∧ libmTriples.Pythagorean 3
      ∧ libmTriples.sqrt 1 = 1
      ∧ ∃ after, (cameraWith sixPoints false false).doCalibration libmTriples gslRotated
            (fun _ => 1 / 2) = (true, after)
          ∧ after.eye = ⟨1, 2, 3⟩
          ∧ after.target.sub after.eye = ⟨1032 / 1105, 75 / 221, 124 / 1105⟩
          ∧ after.up = ⟨4 / 13, -12 / 13, 3 / 13⟩
          ∧ length libmTriples (after.target.sub after.eye) = 1
          ∧ length libmTriples after.up = 1
          ∧ (after.target.sub after.eye).dot after.up = 0
          ∧ after.target ≠ after.eye
          ∧ after.computeViewMatrix libmTriples
              = (lookAt libmTriples after.eye after.target after.up, after) := by
  have hw : (cameraWith sixPoints false false).winning libmTriples gslRotated (fun _ => 1 / 2)
      = ⟨0, rotatedValues⟩ := search_gslRotated libmTriples _ _
  have h6 : 6 ≤ (cameraWith sixPoints false false).pointsSet := by
    rw [pointsSet_eq_countP, sixPoints_countP]
  have hp1 : libmTriples.Pythagorean 1 := by norm_num [Libm.Pythagorean, libmTriples]
  have hp2 : libmTriples.Pythagorean 2 := by norm_num [Libm.Pythagorean, libmTriples]
  have hp3 : libmTriples.Pythagorean 3 := by norm_num [Libm.Pythagorean, libmTriples]
  have hs : libmTriples.sqrt 1 = 1 := by norm_num [libmTriples]
  obtain ⟨after, h1, h2, h3, _, h5⟩ := C27_committed_orientation libmTriples gslRotated
    (fun _ => 1 / 2) (cameraWith sixPoints false false) 50 (1 / 4) (3 / 4) 1 2 3 1 2 3 h6
    (by rw [hw]; norm_num) (by rw [hw]; rfl)
  obtain ⟨g1, g2, g3, g4, g5, _, g7⟩ := h5 hp1 hp2 hp3 hs
  refine ⟨h6, hp1, hp2, hp3, hs, after, h1, h2, ?_, ?_, g2, g3, g4, g5, g7⟩
  · rw [h3]
    norm_num [libmTriples]
  · rw [g1]
    norm_num [libmTriples]

/-! ## The end-to-end scenario: what does not depend on the minimiser -/

/-- With at least 6 set points and a best residual of at most 1000, `Camera::doCalibration`
returns true and commits the winning vector. -/
theorem doCalibration_committed {σ : Type} (L : Libm) (G : Gsl σ) (rand : Nat → ℚ)
    (c : Camera) (h6 : 6 ≤ c.calibrationPoints.countP (fun point => point.isSet))
    (hgood : ({ c with calibrationCalledOnce := true }.search L G rand).minValue ≤ 1000) :
    c.doCalibration L G rand
      = (true, { c with calibrationCalledOnce := true }.commit L
          ({ c with calibrationCalledOnce := true }.search L G rand).selectedValues) := by
  unfold Camera.doCalibration
  rw [if_neg (by rw [pointsSet_eq_countP]; omega)]
  exact if_neg (not_lt.mpr hgood)

/-- On the six points of the end-to-end scenario `Camera::doCalibration` returns true, for
every math library, every minimiser and every random stream. -/
theorem doCalibration_sixPoints_returns_true {σ : Type} (L : Libm) (G : Gsl σ)
    (rand : Nat → ℚ) (a b : Bool) :
    ((cameraWith sixPoints a b).doCalibration L G rand).1 = true := by
  have h6 : 6 ≤ (cameraWith sixPoints a b).calibrationPoints.countP (fun point => point.isSet) :=
    le_of_eq (sixPoints_countP a b).symm
  rcases le_or_lt
    ({ cameraWith sixPoints a b with calibrationCalledOnce := true }.search L G rand).minValue
    1000 with h | h
  · rw [doCalibration_committed L G rand _ h6 h]
  · rw [doCalibration_rejected L G rand _ h6 h]

/-- Whether the scenario changes the camera depends on the minimiser: with the one that
always fails the parameters stay as they were, with the one that reports the residual 0 at
field of view 50 the field of view becomes 50. -/
theorem doCalibration_sixPoints_depends_on_minimiser :
    ((cameraWith sixPoints false false).doCalibration libmTable gslFailing (fun _ => 1 / 2)).2
        = { cameraWith sixPoints false false with calibrationCalledOnce := true }
      ∧ ((cameraWith sixPoints false false).doCalibration libmTable gslPerfect
          (fun _ => 1 / 2)).2.fov = 50 := by
  have h6 : 6 ≤ (cameraWith sixPoints false false).calibrationPoints.countP
      (fun point => point.isSet) := le_of_eq (sixPoints_countP false false).symm
  constructor
  · rw [doCalibration_rejected libmTable gslFailing (fun _ => 1 / 2) _ h6
      (search_failing_rejected libmTable gslFailing gslFailing_error _ _)]
  · rw [doCalibration_committed libmTable gslPerfect (fun _ => 1 / 2) _ h6
      (by rw [search_gslPerfect]; norm_num), search_gslPerfect]
    simp [Camera.commit, cameraWith, perfectValues, gsl_vector_get]

end Splash
